import Mathlib

/-!
Bearoff database engine (gnubg `bearoff.c`): shallow embedding.

C `int` / `unsigned int` arithmetic is modelled on `Int` with explicit
two's-complement wrapping at 32 bits where a value is accumulated.
Arrays are modelled as functions from the index to the stored value.
-/

namespace Bearoff

/-! ## Machine integers -/

/-- Wrap a mathematical integer to a 32-bit C `int` (two's complement). -/
def wrapInt (x : Int) : Int := (x + 2147483648) % 4294967296 - 2147483648

/-- Wrap a mathematical integer to a 32-bit C `unsigned int`. -/
def wrapUInt (x : Int) : Int := x % 4294967296

/-! ## Third-party index convention: `countBoard` and `boardNr` -/

/-- Embedding of `countBoard ( nDistance, nChequers )`, bearoff.c 323-339.
The C function is only ever entered with `nDistance >= 1`; for
`nDistance = 0` the C recursion does not reach its base case for a non-zero
`nChequers`, and the embedding returns 0 there.  The accumulator `id` is a C
`int`, hence `wrapInt` at each `id += ...`. -/
def countBoard : Nat → Int → Int
  | 0, _ => 0
  | nDistance + 1, nChequers =>
    if nDistance + 1 = 1 ∨ nChequers = 0 then 1
    else
      (List.range (nChequers + 1).toNat).foldl
        (fun (id : Int) (i : Nat) => wrapInt (id + countBoard nDistance (nChequers - (i : Int)))) 0

/-- Embedding of `boardNr ( anBoard, nDistance, nPoints, nChequers )`,
bearoff.c 342-359.  `anBoard [ nDistance - 2 ]` is the only board entry read
at each level; `nPoints` is passed along unused, as in the source.  The
accumulator `id` is `unsigned int`, hence `wrapUInt` at each `id += ...`. -/
def boardNr (anBoard : Nat → Int) : Nat → Nat → Int → Int
  | 0, _, _ => 0
  | nDistance + 1, nPoints, nChequers =>
    if nDistance + 1 = 1 ∨ nChequers = 0 then 0
    else
      (List.range (anBoard (nDistance - 1)).toNat).foldl
        (fun (id : Int) (i : Nat) => wrapUInt (id + countBoard nDistance (nChequers - (i : Int))))
        (boardNr anBoard nDistance nPoints (nChequers - anBoard (nDistance - 1)))

/-- A legal one-sided board in the sense of the specification: non-negative
counts on points `0 .. p-1` whose total is at most `c`. -/
def LegalBoard (p : Nat) (c : Int) (b : Nat → Int) : Prop :=
  (∀ i, i < p → 0 ≤ b i) ∧ (∑ i ∈ Finset.range p, b i) ≤ c

/-- Board given by a list of counts, point 0 first; 0 beyond the list. -/
def boardOfList (l : List Int) : Nat → Int := fun i => l.getD i 0

/-- Number of vectors of `m` non-negative counts with total at most `c`. -/
def boardCount (m c : Nat) : Nat := Nat.choose (c + m) m

/-- Number of such vectors on `m + 1` points whose last count is below `k`. -/
def belowCount (m c k : Nat) : Nat := ∑ i ∈ Finset.range k, boardCount m (c - i)

/-- Reference ranking over natural numbers: the number of count vectors ordered
before `b` (last point most significant). -/
def rankN (b : Nat → Nat) : Nat → Nat → Nat
  | 0, _ => 0
  | m + 1, c => rankN b m (c - b m) + belowCount m c (b m)

/-! ## Bytes, files and the context -/

/-- Little-endian 16-bit value `ac[ i ] | ac[ i + 1 ] << 8` of an
`unsigned char` buffer (each element is read modulo 256). -/
def leWord (ac : Nat → Nat) (i : Nat) : Nat :=
  (ac i % 256) ||| ((ac (i + 1) % 256) <<< 8)

/-- What lies outside the program text: the files reachable through
descriptors and the indeterminate content of uninitialised local buffers. -/
structure World where
  /-- Bytes of the regular file open on a descriptor; `none` for a descriptor
  that is not open (in particular `-1`). -/
  files : Int → Option (List Nat)
  /-- Content of a local buffer before anything is stored in it. -/
  stack : Nat → Nat
  /-- Indeterminate value of a field of freshly allocated memory. -/
  heap : Int
  /-- Descriptor returned by `open` for a file name (negative: the open fails). -/
  openFile : String → Int
  /-- Whether the n-th call of `BearoffAlloc` gets its memory. -/
  contextAlloc : Nat → Bool
  /-- Whether `mmap` is compiled in and succeeds on an open descriptor. -/
  mmapOk : Bool
  /-- Whether `malloc` of a database buffer succeeds. -/
  bufferAlloc : Bool

/-- Result of `lseek ( h, off, SEEK_SET )` followed by `read ( h, buf, n )`:
`none` when the seek fails (descriptor not open or negative offset),
otherwise the bytes delivered, which are fewer than `n` at end of file. -/
def World.seekRead (w : World) (h : Int) (off : Int) (n : Nat) : Option (List Nat) :=
  match (if h < 0 then none else w.files h) with
  | none => none
  | some bytes => if off < 0 then none else some ((bytes.drop off.toNat).take n)

/-- Local buffer after a `read` that delivered `got`: the bytes delivered,
then the previous (indeterminate) content. -/
def World.buffer (w : World) (got : List Nat) : Nat → Nat :=
  fun i => if i < got.length then got.getD i 0 else w.stack i

/-- Enumeration `bearofftype` (declared in bearoff.h); `unset` is the value
`-1` stored by `BearoffAlloc`. -/
inductive bearofftype where
  | BEAROFF_ONESIDED
  | BEAROFF_TWOSIDED
  | BEAROFF_HYPERGAMMON
  | unset
  deriving DecidableEq, Repr

/-- Enumeration `bearoffcreator` (declared in bearoff.h); `unset` is the value
`-1` stored by `BearoffAlloc`. -/
inductive bearoffcreator where
  | BEAROFF_GNUBG
  | BEAROFF_EXACT_BEAROFF
  | BEAROFF_UNKNOWN
  | unset
  deriving DecidableEq, Repr

/-- The fields of `bearoffcontext` that bearoff.c reads or writes.  Flags are
C `int`s (non-zero is true); `p` is the in-memory database (`none` is NULL). -/
structure bearoffcontext where
  h : Int
  bt : bearofftype
  bc : bearoffcreator
  nPoints : Int
  nChequers : Int
  fInMemory : Int
  fMalloc : Int
  fCompressed : Int
  fGammon : Int
  fND : Int
  fHeuristic : Int
  fCubeful : Int
  nReads : Int
  p : Option (Nat → Nat)

/-- How a read can fail: an error return (`-1` / NULL), a failed `g_assert`
(the process aborts), or a dereference of a NULL database pointer. -/
inductive ReadError where
  | failed
  | assertion
  | nullDatabase
  deriving DecidableEq, Repr

/-- Modelled from the spec: `Combination ( n, r )` of positionid.c, which is not
part of the sources, is the binomial coefficient `C(n, r)`. -/
def Combination (n r : Int) : Int := (Nat.choose n.toNat r.toNat : Int)

/-! ## Distribution reader -/

/-- Embedding of `CopyBytes`, bearoff.c 1549-1567.  `aus` is the memory starting
at the destination array (entries 0..63 are the array, entries from 64 on are
whatever follows it); the running byte index `i` is threaded through both
loops as in the source. -/
def CopyBytes (aus : Nat → Nat) (ac : Nat → Nat) (nz ioff nzg ioffg : Nat) : Nat → Nat :=
  let s0 : (Nat → Nat) × Nat := (fun k => if k < 64 then 0 else aus k, 0)
  let s1 := (List.range nz).foldl
    (fun (s : (Nat → Nat) × Nat) (j : Nat) =>
      (Function.update s.1 (ioff + j) (leWord ac s.2 % 65536), s.2 + 2)) s0
  let s2 := (List.range nzg).foldl
    (fun (s : (Nat → Nat) × Nat) (j : Nat) =>
      (Function.update s.1 (32 + ioffg + j) (leWord ac s.2 % 65536), s.2 + 2)) s1
  s2.1

/-- The 8-byte index entry of a compressed record, as decoded at
bearoff.c 1604-1615: `( iOffset, nz, ioff, nzg, ioffg )`.  The offset is
assembled in a C `int`. -/
def indexEntry (puch : Nat → Nat) : Int × Nat × Nat × Nat × Nat :=
  (wrapInt (((puch 0 % 256) ||| ((puch 1 % 256) <<< 8) ||| ((puch 2 % 256) <<< 16)
      ||| ((puch 3 % 256) <<< 24) : Nat) : Int),
    puch 4 % 256, puch 5 % 256, puch 6 % 256, puch 7 % 256)

/-- The "Sanity checks" condition of bearoff.c 1619-1621 (true: the entry is
reported as corrupted and `g_assert( FALSE )` is reached). -/
def sanityFails (nPos : Int) (iOffset : Int) (nz ioff nzg ioffg : Nat) : Bool :=
  decide (iOffset < 0) || (decide (iOffset > wrapInt (64 * nPos)) && decide (wrapInt (64 * nPos) > 0))
    || decide (nz > 32) || decide (ioff > 32) || decide (nzg > 32) || decide (ioffg > 32)

/-- Embedding of `GetDistCompressed`, bearoff.c 1570-1670.  Returns the memory
at `aus` after the call. -/
def GetDistCompressed (w : World) (aus : Nat → Nat) (pbc : bearoffcontext) (nPosID : Nat) :
    Except ReadError (Nat → Nat) :=
  let nPos := Combination (pbc.nPoints + pbc.nChequers) pbc.nPoints
  let entry : Except ReadError (Nat → Nat) :=
    if pbc.fInMemory ≠ 0 then
      match pbc.p with
      | none => .error .nullDatabase
      | some mem => .ok (fun i => mem (40 + (wrapUInt ((nPosID : Int) * 8)).toNat + i))
    else
      match w.seekRead pbc.h (wrapUInt (40 + (nPosID : Int) * 8)) 8 with
      | none => .error .failed
      | some got => if got.length < 8 then .error .failed else .ok (w.buffer got)
  match entry with
  | .error e => .error e
  | .ok puch =>
    let (iOffset, nz, ioff, nzg, ioffg) := indexEntry puch
    if sanityFails nPos iOffset nz ioff nzg ioffg then .error .assertion
    else
      let iOffset2 : Int := wrapInt (40 + wrapInt (nPos * 8)) + 2 * iOffset
      let nBytes : Nat := 2 * (nz + nzg)
      if pbc.fInMemory ≠ 0 then
        match pbc.p with
        | none => .error .nullDatabase
        | some mem => .ok (CopyBytes aus (fun i => mem (iOffset2.toNat + i)) nz ioff nzg ioffg)
      else
        match w.seekRead pbc.h iOffset2 nBytes with
        | none => .error .failed
        | some got =>
          if got.length < nBytes then .error .failed
          else .ok (CopyBytes aus (w.buffer got) nz ioff nzg ioffg)

/-- Embedding of `GetDistUncompressed`, bearoff.c 1673-1700.  On disk the
results of `lseek` and `read` are not checked: bytes that were not delivered
keep the indeterminate content of the local buffer (so does the whole buffer
when the seek fails). -/
def GetDistUncompressed (w : World) (aus : Nat → Nat) (pbc : bearoffcontext) (nPosID : Nat) :
    Except ReadError (Nat → Nat) :=
  let iOffset : Int := wrapInt (wrapUInt (40 + wrapUInt (64 * (nPosID : Int)
    * (if pbc.fGammon ≠ 0 then 2 else 1))))
  if pbc.fInMemory ≠ 0 then
    match pbc.p with
    | none => .error .nullDatabase
    | some mem => .ok (CopyBytes aus (fun i => mem (iOffset.toNat + i)) 32 0 32 0)
  else
    let got := (w.seekRead pbc.h iOffset (if pbc.fGammon ≠ 0 then 128 else 64)).getD []
    .ok (CopyBytes aus (w.buffer got) 32 0 32 0)

/-- Histograms handed back by a distribution read: the two 32-entry float
arrays (as exact rationals) and the two 32-entry 16-bit arrays (only the
entries 0..31 belong to the arrays).  The fifth
output `ar` (mean and standard deviation, which needs a square root) is not
part of the embedding. -/
structure Dist where
  arProb : Nat → ℚ
  arGammonProb : Nat → ℚ
  ausProb : Nat → Nat
  ausGammonProb : Nat → Nat

/-- Embedding of `AssignOneSided`, bearoff.c 1511-1546 (without `ar`):
`arx[ i ] = ausProbx[ i ] / 65535.0f`, `arx[ 32 + i ] = ausGammonProbx[ i ] / 65535.0f`. -/
def AssignOneSided (ausProbx ausGammonProbx : Nat → Nat) : Dist :=
  { arProb := fun i => (ausProbx i : ℚ) / 65535
    arGammonProb := fun i => (ausGammonProbx i : ℚ) / 65535
    ausProb := ausProbx
    ausGammonProb := ausGammonProbx }

/-- Embedding of `ReadBearoffOneSidedExact`, bearoff.c 1703-1736: returns the
context with its read counter incremented, and the histograms. -/
def ReadBearoffOneSidedExact (w : World) (pbc : bearoffcontext) (nPosID : Nat) :
    Except ReadError (bearoffcontext × Dist) :=
  let pus := if pbc.fCompressed ≠ 0 then GetDistCompressed w w.stack pbc nPosID
    else GetDistUncompressed w w.stack pbc nPosID
  match pus with
  | .error e => .error e
  | .ok aus =>
    .ok ({ pbc with nReads := pbc.nReads + 1 },
      AssignOneSided aus (fun i => aus (32 + i)))

/-- Parts of the program that are outside the sources or outside exact
arithmetic, taken as parameters. -/
structure Externals where
  /-- Function `PositionBearoff ( anBoard, nPoints, nChequers )` of positionid.c. -/
  PositionBearoff : (Nat → Int) → Int → Int → Nat
  /-- Function `PositionFromBearoff ( anBoard, usID, nPoints, nChequers )` of
  positionid.c: the board it stores in `anBoard`. -/
  PositionFromBearoff : Nat → Int → Int → (Nat → Int)
  /-- Decoding of 4 bytes as an IEEE-754 `float` (the `memcpy` at bearoff.c 1479). -/
  floatOfBytes : List Nat → ℚ
  /-- The Gaussian branch of `fnd` (bearoff.c 1443-1445), which needs `exp`
  and `sqrt`. -/
  normalDensity : ℚ → ℚ → ℚ → ℚ
  /-- Function `getBearoffGammonProbs` of bearoffgammon.c: the fields
  `( p0, p1, p2 )` of the record it returns. -/
  getBearoffGammonProbs : (Nat → Int) → ℚ × ℚ × ℚ
  /-- The global one-sided context `pbc1` used by `setGammonProb`. -/
  pbc1 : bearoffcontext
  /-- Option bit `BO_IN_MEMORY` of bearoff.h. -/
  BO_IN_MEMORY : Nat
  /-- Option bit `BO_HEURISTIC` of bearoff.h. -/
  BO_HEURISTIC : Nat

/-- Embedding of `fnd`, bearoff.c 1433-1449. -/
def fnd (E : Externals) (x mu sigma : ℚ) : ℚ :=
  let epsilon : ℚ := 1 / 10000000
  if sigma ≤ epsilon then (if |mu - x| < epsilon then 1 else 0)
  else E.normalDensity x mu sigma

/-- Conversion `(unsigned short)( r * 65535.0f )`. -/
def toUShort (r : ℚ) : Nat := (Int.toNat ⌊r * 65535⌋) % 65536

/-- Embedding of `ReadBearoffOneSidedND`, bearoff.c 1453-1508.  The record is
always read through the descriptor `pbc->h`. -/
def ReadBearoffOneSidedND (E : Externals) (w : World) (pbc : bearoffcontext) (nPosID : Nat) :
    Except ReadError (bearoffcontext × Dist) :=
  match w.seekRead pbc.h (wrapUInt (40 + (nPosID : Int) * 16)) 16 with
  | none => .error .failed
  | some got =>
    if got.length < 16 then .error .failed
    else
      let arx : Nat → ℚ := fun k => E.floatOfBytes ((got.drop (4 * k)).take 4)
      .ok ({ pbc with nReads := pbc.nReads + 1 },
        { arProb := fun i => fnd E i (arx 0) (arx 1)
          arGammonProb := fun i => fnd E i (arx 2) (arx 3)
          ausProb := fun i => toUShort (fnd E i (arx 0) (arx 1))
          ausGammonProb := fun i => toUShort (fnd E i (arx 2) (arx 3)) })

/-- Embedding of `BearoffDist`, bearoff.c 1738-1766. -/
def BearoffDist (E : Externals) (w : World) (pbc : bearoffcontext) (nPosID : Nat) :
    Except ReadError (bearoffcontext × Dist) :=
  match pbc.bc with
  | .BEAROFF_GNUBG =>
    if pbc.bt ≠ .BEAROFF_ONESIDED then .error .assertion
    else if pbc.fND ≠ 0 then ReadBearoffOneSidedND E w pbc nPosID
    else ReadBearoffOneSidedExact w pbc nPosID
  | _ => .error .assertion

/-! ## Evaluator -/

/-- The five slots of the output array `arOutput`, named by the `OUTPUT_*`
indices. -/
structure Output where
  WIN : ℚ
  WINGAMMON : ℚ
  WINBACKGAMMON : ℚ
  LOSEGAMMON : ℚ
  LOSEBACKGAMMON : ℚ

/-- The accumulation `for ( i = 0; i < 32; ++i ) for ( j = i + d; j < 32; ++j )
r += a[ i ] * b[ j ]` starting from `r = 0` (bearoff.c 567-570, 587-590 with
`d = 0`, and 596-599 with `d = 1`). -/
def raceSum (d : Nat) (a b : Nat → ℚ) : ℚ :=
  (List.range 32).foldl
    (fun (r : ℚ) (i : Nat) =>
      (List.range (32 - (i + d))).foldl (fun (r : ℚ) (k : Nat) => r + a i * b (i + d + k)) r) 0

/-- Embedding of `setGammonProb`, bearoff.c 65-113: the values stored in
`( *g0, *g1 )`.  A failed read leaves the local array `prob` as it was; the read
counter of the global context `pbc1` is not tracked. -/
def setGammonProb (E : Externals) (w : World) (anBoard : Nat → Nat → Int) (bp0 bp1 : Nat) :
    Except ReadError (ℚ × ℚ) :=
  let tot0 : Int := (List.range 6).foldl (fun (t : Int) (i : Nat) => t + anBoard 0 (5 - i)) 0
  let tot1 : Int := (List.range 6).foldl (fun (t : Int) (i : Nat) => t + anBoard 1 (5 - i)) 0
  if ¬ (tot0 = 15 ∨ tot1 = 15) then .error .assertion
  else
    let make : ℚ × ℚ × ℚ → Nat → ℚ := fun gp k =>
      match k with
      | 0 => gp.1 / 36
      | 1 => gp.1 / 36 + gp.2.1 / (36 * 36)
      | _ => gp.1 / 36 + gp.2.1 / (36 * 36) + gp.2.2 / (36 * 36 * 36)
    let step1 : Except ReadError ((Nat → Nat) × ℚ) :=
      if tot0 = 15 then
        let gp := E.getBearoffGammonProbs (anBoard 0)
        match BearoffDist E w E.pbc1 bp1 with
        | .error .failed => .ok (w.stack,
            (w.stack 1 : ℚ) / 65535 + (1 - make gp 0) * ((w.stack 2 : ℚ) / 65535)
              + (1 - make gp 1) * ((w.stack 3 : ℚ) / 65535)
              + (1 - make gp 2) * ((w.stack 4 : ℚ) / 65535))
        | .error e => .error e
        | .ok (_, d) => .ok (d.ausProb,
            (d.ausProb 1 : ℚ) / 65535 + (1 - make gp 0) * ((d.ausProb 2 : ℚ) / 65535)
              + (1 - make gp 1) * ((d.ausProb 3 : ℚ) / 65535)
              + (1 - make gp 2) * ((d.ausProb 4 : ℚ) / 65535))
      else .ok (w.stack, 0)
    match step1 with
    | .error e => .error e
    | .ok (prob, g1) =>
      if tot1 = 15 then
        let gp := E.getBearoffGammonProbs (anBoard 1)
        let g0of : (Nat → Nat) → ℚ := fun pr =>
          (pr 1 : ℚ) / 65535 * (1 - make gp 0) + (pr 2 : ℚ) / 65535 * (1 - make gp 1)
            + (pr 3 : ℚ) / 65535 * (1 - make gp 2)
        match BearoffDist E w E.pbc1 bp0 with
        | .error .failed => .ok (g0of prob, g1)
        | .error e => .error e
        | .ok (_, d) => .ok (g0of d.ausProb, g1)
      else .ok (0, g1)

/-- Embedding of `BearoffEvalOneSided`, bearoff.c 542-626.  `anBoard i j` is
`anBoard[ i ][ j ]`; side 1 is the side on roll.  Returns the context after the
two reads and the five outputs written. -/
def BearoffEvalOneSided (E : Externals) (w : World) (pbc : bearoffcontext)
    (anBoard : Nat → Nat → Int) : Except ReadError (bearoffcontext × Output) :=
  let an0 := E.PositionBearoff (anBoard 0) pbc.nPoints pbc.nChequers
  match BearoffDist E w pbc an0 with
  | .error e => .error e
  | .ok (pbcA, d0) =>
    let an1 := E.PositionBearoff (anBoard 1) pbcA.nPoints pbcA.nChequers
    match BearoffDist E w pbcA an1 with
    | .error e => .error e
    | .ok (pbcB, d1) =>
      let win := raceSum 0 d1.arProb d0.arProb
      let anOn : Nat → Int := fun i =>
        (List.range 25).foldl (fun (t : Int) (j : Nat) => t + anBoard i j) 0
      if anOn 0 = 15 ∨ anOn 1 = 15 then
        if pbcB.fGammon ≠ 0 then
          .ok (pbcB,
            { WIN := win
              WINGAMMON := raceSum 0 d1.arProb d0.arGammonProb
              LOSEGAMMON := raceSum 1 d0.arProb d1.arGammonProb
              WINBACKGAMMON := 0
              LOSEBACKGAMMON := 0 })
        else
          match setGammonProb E w anBoard an0 an1 with
          | .error e => .error e
          | .ok (g0, g1) =>
            .ok (pbcB,
              { WIN := win, WINGAMMON := g1, LOSEGAMMON := g0
                WINBACKGAMMON := 0, LOSEBACKGAMMON := 0 })
      else
        .ok (pbcB,
          { WIN := win, WINGAMMON := 0, LOSEGAMMON := 0
            WINBACKGAMMON := 0, LOSEBACKGAMMON := 0 })

/-! ## Heuristic generator -/

/-- The scan `for ( n = top - 1; n >= 0 && ! b[ n ]; n-- )`: the highest index
below `top` with a non-zero entry, or `-1`. -/
def rearmost (b : Nat → Int) : Nat → Int
  | 0 => -1
  | n + 1 => if b n ≠ 0 then (n : Int) else rearmost b n

/-- The loop at bearoff.c 180-189: running total of the following dice, first
total below 6 that lands on an occupied point. -/
def comboPoint (anBoard : Nat → Int) : Nat → List Nat → Option Nat
  | _, [] => none
  | nTotal, dj :: rest =>
    if nTotal + dj < 6 ∧ anBoard (nTotal + dj) ≠ 0 then some (nTotal + dj)
    else comboPoint anBoard (nTotal + dj) rest

/-- The loop at bearoff.c 191-195 (vacate a point: source holds at least 2,
destination empty), started with `n = -1`. -/
def vacatePoint (anBoard : Nat → Int) (die : Nat) (nMax : Int) : Int :=
  (List.range (nMax + 1 - (die : Int)).toNat).foldl
    (fun (n : Int) (k : Nat) =>
      let iSearch := die + k
      if anBoard iSearch ≥ 2 ∧ anBoard (iSearch - die) = 0 ∧
          (n = -1 ∨ anBoard iSearch > anBoard n.toNat) then (iSearch : Int) else n) (-1)

/-- The loop at bearoff.c 200-205 (the point with the most chequers, or the
least on the destination), entered with `n = -1`. -/
def sparePoint (anBoard : Nat → Int) (die : Nat) (nMax : Int) : Int :=
  (List.range (nMax + 1 - (die : Int)).toNat).foldl
    (fun (n : Int) (k : Nat) =>
      let iSearch := die + k
      if n = -1 ∨ anBoard iSearch > anBoard n.toNat ∨
          (anBoard iSearch = anBoard n.toNat ∧
            anBoard (iSearch - die) < anBoard (n.toNat - die)) then (iSearch : Int) else n) (-1)

/-- One pass of the loop body of `HeuristicBearoff` (bearoff.c 161-213) for the
die `die`, with `rest` the dice still to be played after it.  `none`: the
bearoff is finished (`break`).  Dice are at least 1. -/
def playDie (anBoard : Nat → Int) (die : Nat) (rest : List Nat) :
    Except ReadError (Option (Nat → Int)) :=
  let nMax := rearmost anBoard 6
  if nMax < 0 then .ok none
  else
    let n : Int :=
      if anBoard (die - 1) ≠ 0 then ((die - 1 : Nat) : Int)
      else if ((die : Int) - 1) > nMax then nMax
      else
        match comboPoint anBoard (die - 1) rest with
        | some t => (t : Int)
        | none =>
          let v := vacatePoint anBoard die nMax
          if v ≥ 0 then v else sparePoint anBoard die nMax
    if n < 0 then .error .assertion
    else if anBoard n.toNat = 0 then .error .assertion
    else
      let b1 := Function.update anBoard n.toNat (anBoard n.toNat - 1)
      if n ≥ (die : Int) then
        .ok (some (Function.update b1 (n.toNat - die) (b1 (n.toNat - die) + 1)))
      else .ok (some b1)

/-- The loop `for ( i = 0; i < c; i++ )` of `HeuristicBearoff` over the dice. -/
def playDice (anBoard : Nat → Int) : List Nat → Except ReadError (Nat → Int)
  | [] => .ok anBoard
  | die :: rest =>
    match playDie anBoard die rest with
    | .error e => .error e
    | .ok none => .ok anBoard
    | .ok (some b) => playDice b rest

/-- Embedding of `HeuristicBearoff`, bearoff.c 138-217: the board after the
move and the id returned. -/
def HeuristicBearoff (E : Externals) (anBoard : Nat → Int) (anRoll0 anRoll1 : Nat) :
    Except ReadError ((Nat → Int) × Int) :=
  if anRoll0 ≠ anRoll1 ∧ ¬ (anRoll0 > anRoll1) then .error .assertion
  else
    let anDice := if anRoll0 = anRoll1 then [anRoll0, anRoll0, anRoll0, anRoll0]
      else [anRoll0, anRoll1]
    match playDice anBoard anDice with
    | .error e => .error e
    | .ok b => .ok (b, wrapInt (E.PositionBearoff b 6 15))

/-- The 21 rolls in the order of the loops at bearoff.c 227-228. -/
def allRolls : List (Nat × Nat) :=
  (List.range 6).flatMap fun a => (List.range (a + 1)).map fun b => (a + 1, b + 1)

/-- Embedding of `GenerateBearoff ( p, nId )`, bearoff.c 219-250.  `p` is the
memory starting at the first record. -/
def GenerateBearoff (E : Externals) (p : Nat → Nat) (nId : Nat) :
    Except ReadError (Nat → Nat) :=
  let acc : Except ReadError (Nat → Int) :=
    allRolls.foldl
      (fun (st : Except ReadError (Nat → Int)) (roll : Nat × Nat) =>
        match st with
        | .error e => .error e
        | .ok aProb =>
          match HeuristicBearoff E (E.PositionFromBearoff nId 6 15) roll.1 roll.2 with
          | .error e => .error e
          | .ok (_, iBest) =>
            if iBest < 0 then .error .assertion
            else if ¬ (iBest < (nId : Int)) then .error .assertion
            else
              let child : Nat → Int := fun i =>
                ((p ((iBest.toNat <<< 6) ||| (i <<< 1)) % 256
                  + ((p ((iBest.toNat <<< 6) ||| (i <<< 1) ||| 1) % 256) <<< 8) : Nat) : Int)
              .ok (fun k =>
                if 1 ≤ k ∧ k < 32 then
                  (if roll.1 = roll.2 then wrapInt (aProb k + child (k - 1))
                   else wrapInt (aProb k + wrapInt (child (k - 1) * 2)))
                else aProb k))
      (.ok (fun _ => 0))
  match acc with
  | .error e => .error e
  | .ok aProb =>
    .ok ((List.range 32).foldl
      (fun (q : Nat → Nat) (i : Nat) =>
        let us : Nat := (Int.toNat (wrapUInt (Int.tdiv (wrapInt (aProb i + 18)) 36))) % 65536
        Function.update
          (Function.update q ((nId <<< 6) ||| (i <<< 1)) (us % 256))
          ((nId <<< 6) ||| (i <<< 1) ||| 1) (us >>> 8)) p)

/-- Embedding of `HeuristicDatabase`, bearoff.c 252-272: `none` when `malloc`
fails, otherwise the memory at `pm` (the 40 header bytes are never written).
The progress callback has no effect on the table. -/
def HeuristicDatabase (E : Externals) (w : World) : Except ReadError (Option (Nat → Nat)) :=
  if ¬ w.bufferAlloc then .ok none
  else
    let p0 : Nat → Nat := fun k =>
      if k < 2 then 255 else if k < 64 then 0 else w.stack (40 + k)
    let r := (List.range 54263).foldl
      (fun (st : Except ReadError (Nat → Nat)) (i : Nat) =>
        match st with
        | .error e => .error e
        | .ok p => GenerateBearoff E p (i + 1)) (.ok p0)
    match r with
    | .error e => .error e
    | .ok p => .ok (some (fun k => if k < 40 then w.stack k else p (k - 40)))

/-! ## Loader and format detector -/

/-- Value of an element of a plain `char` array holding the byte `b`, after
integer promotion.  Whether plain `char` is signed is implementation-defined
(it is on x86 and x86-64); a signed `char` sign-extends bytes from 128 on. -/
def charToInt (charSigned : Bool) (b : Nat) : Int :=
  if charSigned ∧ 128 ≤ b % 256 then ((b % 256 : Nat) : Int) - 256 else ((b % 256 : Nat) : Int)

/-- The 32-bit two's-complement bit pattern of a C `int`. -/
def bits32 (x : Int) : Nat := (x % 4294967296).toNat

/-- Bitwise or of two C `int`s. -/
def orInt (x y : Int) : Int := wrapInt ((bits32 x ||| bits32 y : Nat) : Int)

/-- Left shift of a C `int` by `k` bits (32-bit two's complement). -/
def shlInt (x : Int) (k : Nat) : Int := wrapInt (x * 2 ^ k)

/-- The expression `( ac[ i ] | ac[ i + 1 ] << 8 | ac[ i + 2 ] << 16 |
ac[ i + 3 ] << 24 )` over a plain `char` array (bearoff.c 1100-1101, 1344-1345). -/
def leInt32 (charSigned : Bool) (ac : Nat → Nat) (i : Nat) : Int :=
  orInt (orInt (orInt (charToInt charSigned (ac i))
      (shlInt (charToInt charSigned (ac (i + 1))) 8))
    (shlInt (charToInt charSigned (ac (i + 2))) 16))
    (shlInt (charToInt charSigned (ac (i + 3))) 24)

/-- Embedding of `isExactBearoff`, bearoff.c 1097-1105. -/
def isExactBearoff (charSigned : Bool) (ac : Nat → Nat) : Bool :=
  decide (leInt32 charSigned ac 0 = 73457356) && decide (leInt32 charSigned ac 4 = 100)

/-- Embedding of `BearoffAlloc`, bearoff.c 1108-1139 (the fields that are
modelled); `nReads` is not initialised there. -/
def BearoffAlloc (w : World) : bearoffcontext :=
  { h := -1, bt := .unset, bc := .unset, nPoints := -1, nChequers := -1
    fInMemory := 0, fMalloc := 0, fCompressed := 1, fGammon := 1, fND := 0
    fHeuristic := 0, fCubeful := 1, nReads := w.heap, p := none }

/-- The C library function `atoi` on the bytes from the pointer on: white
space, an optional sign, then decimal digits up to the first other byte.  The
end of the list stands for a terminator; the result is a C `int`. -/
def atoi (s : List Nat) : Int :=
  let s1 := s.dropWhile (fun c => c = 32 ∨ (9 ≤ c ∧ c ≤ 13))
  let (neg, s2) : Bool × List Nat :=
    match s1 with
    | 45 :: t => (true, t)
    | 43 :: t => (false, t)
    | t => (false, t)
  let v : Nat := (s2.takeWhile (fun c => 48 ≤ c ∧ c ≤ 57)).foldl (fun a c => 10 * a + (c - 48)) 0
  wrapInt (if neg then - (v : Int) else (v : Int))

/-- Embedding of `ReadIntoMemory ( pbc, 0, nSize )`, bearoff.c 1043-1087, with
`nSize` the size of the file: `none` when it returns `-1`. -/
def ReadIntoMemory (w : World) (pbc : bearoffcontext) : Option bearoffcontext :=
  match (if pbc.h < 0 then none else w.files pbc.h) with
  | none => none
  | some bytes =>
    if w.mmapOk then some { pbc with fMalloc := 0, p := some (fun i => bytes.getD i 0) }
    else if ¬ w.bufferAlloc then none
    else some { pbc with fMalloc := 1, p := some (fun i => bytes.getD i 0) }

/-- The tail of `BearoffInit`, bearoff.c 1395-1428: read the database into
memory if requested, reset the read counter, return the context. -/
def finishInit (w : World) (pbc : bearoffcontext) : Option bearoffcontext :=
  if pbc.fInMemory ≠ 0 then
    match (if pbc.h < 0 then none else w.files pbc.h) with
    | none => none
    | some _ =>
      match ReadIntoMemory w pbc with
      | none => none
      | some pbc2 => some { pbc2 with h := -1, nReads := 0 }
  else some { pbc with nReads := 0 }

/-- The case `BEAROFF_GNUBG` of the switch in `BearoffInit`, bearoff.c 1253-1338,
followed by the tail of the function: subtype from the tag at offset 6,
geometry, option flags.  `pbc` is the context with the open descriptor, `hdr`
the 40 header bytes (`sz[ 40 ]` is not initialised by the source and is read
as a terminator). -/
def initNative (w : World) (pbc : bearoffcontext) (hdr : List Nat) : Option bearoffcontext :=
  let sz : Nat → Nat := fun i => hdr.getD i 0
  let pbc1 := { pbc with bc := .BEAROFF_GNUBG }
  let typed : Option bearoffcontext :=
    if sz 6 % 256 = 84 ∧ sz 7 % 256 = 83 then
      some { pbc1 with bt := .BEAROFF_TWOSIDED }
    else if sz 6 % 256 = 79 ∧ sz 7 % 256 = 83 then
      some { pbc1 with bt := .BEAROFF_ONESIDED }
    else if sz 6 % 256 = 72 then
      some { pbc1 with bt := .BEAROFF_HYPERGAMMON }
    else none
  match typed with
  | none => none
  | some pbc2 =>
    let geom : Option bearoffcontext :=
      if pbc2.bt = .BEAROFF_TWOSIDED ∨ pbc2.bt = .BEAROFF_ONESIDED then
        let nPoints := atoi (hdr.drop 9)
        if nPoints < 1 ∨ nPoints ≥ 24 then none
        else
          let nChequers := atoi (hdr.drop 12)
          if nChequers < 1 ∨ nChequers > 15 then none
          else some { pbc2 with nPoints := nPoints, nChequers := nChequers }
      else some { pbc2 with nPoints := 25, nChequers := atoi (hdr.drop 7) }
    match geom with
    | none => none
    | some pbc3 =>
      let pbc4 := { pbc3 with
        fCompressed := 0, fGammon := 0, fCubeful := 0, fND := 0, fHeuristic := 0 }
      let pbc5 : bearoffcontext :=
        match pbc4.bt with
        | .BEAROFF_TWOSIDED => { pbc4 with fCubeful := atoi (hdr.drop 15) }
        | .BEAROFF_ONESIDED =>
          { pbc4 with
            fGammon := atoi (hdr.drop 15)
            fCompressed := atoi (hdr.drop 17)
            fND := atoi (hdr.drop 19) }
        | _ => pbc4
      finishInit w pbc5

/-- The case `BEAROFF_EXACT_BEAROFF` of the switch in `BearoffInit`, bearoff.c
1340-1382, followed by the tail of the function.  The context is allocated a
second time there, so its descriptor is `-1` again. -/
def initExact (charSigned : Bool) (w : World) (sz : Nat → Nat) : Option bearoffcontext :=
  if ¬ w.contextAlloc 1 then none
  else
    let l := leInt32 charSigned sz 8
    finishInit w { BearoffAlloc w with
      bc := .BEAROFF_EXACT_BEAROFF, fInMemory := 1, nPoints := 6, nChequers := l
      bt := .BEAROFF_TWOSIDED, fCompressed := 0, fGammon := 0, fND := 0
      fCubeful := 1, nReads := 0, fHeuristic := 0, fMalloc := 0, p := none }

/-- Embedding of `BearoffInit ( szFilename, bo, p )`, bearoff.c 1158-1430.
`.ok none` is the NULL return; an error is an assertion failing in the
generator. -/
def BearoffInit (charSigned : Bool) (E : Externals) (w : World)
    (szFilename : Option String) (bo : Nat) : Except ReadError (Option bearoffcontext) :=
  if bo &&& E.BO_HEURISTIC ≠ 0 then
    if ¬ w.contextAlloc 0 then .ok none
    else
      match HeuristicDatabase E w with
      | .error e => .error e
      | .ok db =>
        .ok (some { BearoffAlloc w with
          bc := .BEAROFF_GNUBG, bt := .BEAROFF_ONESIDED, fInMemory := 1, h := -1
          nPoints := 6, nChequers := 6, fCompressed := 0, fGammon := 0, fND := 0
          fCubeful := 0, nReads := 0, fHeuristic := 1, fMalloc := 1, p := db })
  else
    match szFilename with
    | none => .ok none
    | some name =>
      if name = "" then .ok none
      else if ¬ w.contextAlloc 0 then .ok none
      else
        let h := w.openFile name
        match (if h < 0 then none else w.files h) with
        | none => .ok none
        | some bytes =>
          if bytes.length < 40 then .ok none
          else
            let hdr := bytes.take 40
            let sz : Nat → Nat := fun i => hdr.getD i 0
            let pbc0 : bearoffcontext :=
              { BearoffAlloc w with fInMemory := ((bo &&& E.BO_IN_MEMORY : Nat) : Int), h := h }
            if sz 0 % 256 = 103 ∧ sz 1 % 256 = 110 ∧ sz 2 % 256 = 117 ∧ sz 3 % 256 = 98
                ∧ sz 4 % 256 = 103 then
              .ok (initNative w pbc0 hdr)
            else if isExactBearoff charSigned sz then
              .ok (initExact charSigned w sz)
            else
              .ok none

/-- Embedding of `isBearoff`, bearoff.c 1769-1807.  `btValue` gives the integer
values of the enumerators of `bearofftype` (declared in bearoff.h, which is
not part of the sources); the test at line 1791 is
`! pbc->bt == BEAROFF_HYPERGAMMON`, in which `!` applies to `pbc->bt`. -/
def isBearoff (btValue : bearofftype → Int) (pbc : Option bearoffcontext)
    (anBoard : Nat → Nat → Int) : Bool :=
  match pbc with
  | none => false
  | some pbc =>
    let nOppBack := rearmost (anBoard 0) 25
    let nBack := rearmost (anBoard 1) 25
    if nBack < 0 ∨ nOppBack < 0 then false
    else if nBack + nOppBack > 22 ∧
        (if btValue pbc.bt = 0 then (1 : Int) else 0) = btValue .BEAROFF_HYPERGAMMON then false
    else
      let nOpp : Int := (List.range (nOppBack + 1).toNat).foldl
        (fun (t : Int) (i : Nat) => t + anBoard 0 i) 0
      let n : Int := (List.range (nBack + 1).toNat).foldl
        (fun (t : Int) (i : Nat) => t + anBoard 1 i) 0
      decide (n ≤ pbc.nChequers ∧ nOpp ≤ pbc.nChequers ∧
        nBack < pbc.nPoints ∧ nOppBack < pbc.nPoints)

/-- The values of the enumerators of `bearofftype` when they are declared in the
order one-sided, two-sided, hypergammon (`unset` is `-1`).  In the order
two-sided, one-sided, hypergammon of the switch statements the value of
`BEAROFF_HYPERGAMMON` is 2 as well. -/
def btDeclared : bearofftype → Int
  | .BEAROFF_ONESIDED => 0
  | .BEAROFF_TWOSIDED => 1
  | .BEAROFF_HYPERGAMMON => 2
  | .unset => -1

/-! ## Two-sided databases -/

/-- The number `k` of 16-bit values of a two-sided record: `( pbc->fCubeful ) ? 4 : 1`. -/
def cubeCount (pbc : bearoffcontext) : Nat := if pbc.fCubeful ≠ 0 then 4 else 1

/-- The offset `40 + 2 * iPos * k` added to the database pointer at bearoff.c 296;
the product is computed in `unsigned int`. -/
def twoSidedOffset (pbc : bearoffcontext) (iPos : Nat) : Nat :=
  40 + (wrapUInt (2 * (iPos : Int) * (cubeCount pbc : Int))).toNat

/-- Embedding of `ReadTwoSidedBearoff`, bearoff.c 282-320.  `ar0` and `aus0` are
the caller's arrays before the call; the entries `i < k` are stored
(`us / 32767.5f - 1.0f` and `us`), the others are left as they were.  On disk
the results of `lseek` and `read` are not checked.  The function has no error
return. -/
def ReadTwoSidedBearoff (w : World) (pbc : bearoffcontext) (iPos : Nat)
    (ar0 : Nat → ℚ) (aus0 : Nat → Nat) :
    Except ReadError (bearoffcontext × (Nat → ℚ) × (Nat → Nat)) :=
  let k : Nat := cubeCount pbc
  let src : Except ReadError (Nat → Nat) :=
    if pbc.fInMemory ≠ 0 then
      match pbc.p with
      | none => .error .nullDatabase
      | some mem => .ok (fun i => mem (twoSidedOffset pbc iPos + i))
    else
      .ok (w.buffer
        ((w.seekRead pbc.h (wrapUInt (40 + 2 * (iPos : Int) * (k : Int))) (k * 2)).getD []))
  match src with
  | .error e => .error e
  | .ok pc =>
    .ok ({ pbc with nReads := pbc.nReads + 1 },
      fun i => if i < k then ((leWord pc (2 * i) % 65536 : Nat) : ℚ) / (65535 / 2) - 1 else ar0 i,
      fun i => if i < k then leWord pc (2 * i) % 65536 else aus0 i)

/-- The C `int` `iPos = nUs * n + nThem` of `BearoffEvalTwoSided`, bearoff.c
484-487, with `nUs` the index of `anBoard[ 1 ]` and `nThem` that of
`anBoard[ 0 ]`. -/
def twoSidedPos (E : Externals) (pbc : bearoffcontext) (anBoard : Nat → Nat → Int) : Int :=
  let nUs : Int := wrapInt (E.PositionBearoff (anBoard 1) pbc.nPoints pbc.nChequers)
  let nThem : Int := wrapInt (E.PositionBearoff (anBoard 0) pbc.nPoints pbc.nChequers)
  let n : Int := Combination (pbc.nPoints + pbc.nChequers) pbc.nPoints
  wrapInt (wrapInt (nUs * n) + nThem)

/-- Embedding of `BearoffEvalTwoSided`, bearoff.c 480-498.  The local array
`ar` is not initialised; `iPos` is passed as `unsigned int`. -/
def BearoffEvalTwoSided (E : Externals) (w : World) (pbc : bearoffcontext)
    (anBoard : Nat → Nat → Int) : Except ReadError (bearoffcontext × Output) :=
  match ReadTwoSidedBearoff w pbc (wrapUInt (twoSidedPos E pbc anBoard)).toNat
      (fun i => (w.stack i : ℚ)) (fun _ => 0) with
  | .error e => .error e
  | .ok (pbc2, ar, _) =>
    .ok (pbc2,
      { WIN := ar 0 / 2 + 1 / 2, WINGAMMON := 0, WINBACKGAMMON := 0
        LOSEGAMMON := 0, LOSEBACKGAMMON := 0 })

/-- The byte offset `nUs * n + nThem + 16` of `ReadExactBearoff`, bearoff.c
381-420, computed in `unsigned int`: `iPos` is split by `n`, the two boards are
materialised with `PositionFromBearoff` and re-indexed with `boardNr`. -/
def exactOffset (E : Externals) (pbc : bearoffcontext) (iPos : Nat) : Int :=
  let n : Int := Combination (pbc.nChequers + pbc.nPoints) pbc.nPoints
  let nUs : Nat := iPos / (wrapUInt n).toNat
  let nThem : Nat := iPos % (wrapUInt n).toNat
  let nThem2 : Int := boardNr (E.PositionFromBearoff nThem pbc.nPoints pbc.nChequers)
    pbc.nPoints.toNat pbc.nPoints.toNat pbc.nChequers
  let nUs2 : Int := boardNr (E.PositionFromBearoff nUs pbc.nPoints pbc.nChequers)
    pbc.nPoints.toNat pbc.nPoints.toNat pbc.nChequers
  wrapUInt (nUs2 * n + nThem2 + 16)

/-- Embedding of `ReadExactBearoff`, bearoff.c 370-444: the context after the
read, `ar[ i ] = ul / 4194000.0f - 2.0f` and `aus[ i ] = ul >> 8` for the four
3-byte values `ul` of the 12 bytes read at `exactOffset`. -/
def ReadExactBearoff (E : Externals) (w : World) (pbc : bearoffcontext) (iPos : Nat) :
    Except ReadError (bearoffcontext × (Nat → ℚ) × (Nat → Nat)) :=
  match w.seekRead pbc.h (exactOffset E pbc iPos) 12 with
  | none => .error .failed
  | some got =>
    if got.length < 12 then .error .failed
    else
      let ac := w.buffer got
      let ul : Nat → Nat := fun i =>
        (ac (3 * i) % 256) ||| ((ac (3 * i + 1) % 256) <<< 8) ||| ((ac (3 * i + 2) % 256) <<< 16)
      .ok ({ pbc with nReads := pbc.nReads + 1 },
        fun i => (ul i : ℚ) / 4194000 - 2,
        fun i => (ul i >>> 8) % 65536)

/-- Embedding of `ReadHypergammon`, bearoff.c 501-539, with `NUM_OUTPUTS = 5`:
the context with its read counter incremented, `arOutput` and `arEquity`.
`arOutput0` and `arEquity0` are the arrays before the call (entries from 5
and from 4 on are not written).  On disk the results of `lseek` and `read` are
not checked.  Both arrays are computed, as when neither pointer is NULL. -/
def ReadHypergammon (w : World) (pbc : bearoffcontext) (iPos : Nat)
    (arOutput0 arEquity0 : Nat → ℚ) :
    Except ReadError (bearoffcontext × (Nat → ℚ) × (Nat → ℚ)) :=
  let src : Except ReadError (Nat → Nat) :=
    if pbc.fInMemory ≠ 0 then
      match pbc.p with
      | none => .error .nullDatabase
      | some mem => .ok (fun i => mem (40 + (wrapUInt (28 * (iPos : Int))).toNat + i))
    else
      .ok (w.buffer ((w.seekRead pbc.h (wrapUInt (40 + 28 * (iPos : Int))) 28).getD []))
  match src with
  | .error e => .error e
  | .ok pc =>
    let us : Nat → Nat := fun j =>
      (pc j % 256) ||| ((pc (j + 1) % 256) <<< 8) ||| ((pc (j + 2) % 256) <<< 16)
    .ok ({ pbc with nReads := pbc.nReads + 1 },
      fun i => if i < 5 then (us (3 * i) : ℚ) / 16777215 else arOutput0 i,
      fun i => if i < 4 then ((us (15 + 3 * i) : ℚ) / 16777215 - 1 / 2) * 6 else arEquity0 i)

/-- Embedding of `BearoffHyper`, bearoff.c 629-636. -/
def BearoffHyper (w : World) (pbc : bearoffcontext) (iPos : Nat)
    (arOutput0 arEquity0 : Nat → ℚ) :
    Except ReadError (bearoffcontext × (Nat → ℚ) × (Nat → ℚ)) :=
  ReadHypergammon w pbc iPos arOutput0 arEquity0

/-- Return value, context and output arrays after a call of a reader whose
embedding gave `r`: 0 with the new context and arrays on success; on an error
return (`-1` or NULL) the value `-1` with the context `pbc` and the arrays
`out0` of before the call, since every such `return` of the readers of
bearoff.c comes before `++pbc->nReads` and before the first store into the
caller's arrays.  A failed assertion or a NULL dereference does not return. -/
def returned {α : Type} (pbc : bearoffcontext) (out0 : α)
    (r : Except ReadError (bearoffcontext × α)) : Except ReadError (Int × bearoffcontext × α) :=
  match r with
  | .ok (pbc2, out) => .ok (0, pbc2, out)
  | .error .failed => .ok (-1, pbc, out0)
  | .error e => .error e

/-- Embedding of `BearoffCubeful`, bearoff.c 446-477: the return value, the
context and the arrays `ar`, `aus` after the call (`ar0`, `aus0` before it).
`ReadExactBearoff` stores the entries 0..3 only. -/
def BearoffCubeful (E : Externals) (w : World) (pbc : bearoffcontext) (iPos : Nat)
    (ar0 : Nat → ℚ) (aus0 : Nat → Nat) :
    Except ReadError (Int × bearoffcontext × (Nat → ℚ) × (Nat → Nat)) :=
  match pbc.bc with
  | .BEAROFF_GNUBG =>
    if pbc.fCubeful = 0 then .ok (-1, pbc, ar0, aus0)
    else returned pbc (ar0, aus0) (ReadTwoSidedBearoff w pbc iPos ar0 aus0)
  | .BEAROFF_EXACT_BEAROFF =>
    returned pbc (ar0, aus0)
      (match ReadExactBearoff E w pbc iPos with
       | .error e => .error e
       | .ok (pbc2, ar, aus) =>
         .ok (pbc2, fun i => if i < 4 then ar i else ar0 i,
           fun i => if i < 4 then aus i else aus0 i))
  | _ => .error .assertion

/-! ## Native index convention -/

/-- The largest `k <= n` with `belowCount m c k <= id` (0 when there is none
above 0): the count on the farthest point of the board of rank `id`. -/
def bucketOf (m c id : Nat) : Nat → Nat
  | 0 => 0
  | n + 1 => if belowCount m c (n + 1) ≤ id then n + 1 else bucketOf m c id n

/-- The count vector on `m` points with total at most `c` whose rank is `id`. -/
def unrankN : Nat → Nat → Nat → Nat → Nat
  | 0, _, _ => fun _ => 0
  | m + 1, c, id =>
    let k := bucketOf m c id c
    Function.update (unrankN m (c - k) (id - belowCount m c k)) m k

/-- Modelled from the spec: `PositionBearoff` of positionid.c, which is not part of
the sources.  The id of a board is the number of legal boards (counts on
`nPoints` points, total at most `nChequers`) that come before it when boards
are compared from the farthest point inward: the prefix sum of the counts of
the recursive enumeration of section 4.1, whose total is
`C(nPoints + nChequers, nPoints)`. -/
def PositionBearoffSpec (anBoard : Nat → Int) (nPoints nChequers : Int) : Nat :=
  rankN (fun i => (anBoard i).toNat) nPoints.toNat nChequers.toNat

/-- Modelled from the spec: `PositionFromBearoff` of positionid.c, which is not
part of the sources: the board whose id under `PositionBearoffSpec` is `usID`
(the index is a bijection), 0 beyond the points. -/
def PositionFromBearoffSpec (usID : Nat) (nPoints nChequers : Int) : Nat → Int :=
  fun i => (unrankN nPoints.toNat nChequers.toNat usID i : Int)

/-- Weight of a roll in the generator: 1 for a double, 2 for a non-double. -/
def rollWeight (r : Nat × Nat) : Nat := if r.1 = r.2 then 1 else 2

/-- The 16-bit value stored for bucket `k` of the record of `id`, in the table
memory `p` that starts at the first record (64 bytes per record, little
endian). -/
def bucket (p : Nat → Nat) (id k : Nat) : Nat := leWord p (64 * id + 2 * k)

/-- The weighted sum `S_k` over the 21 rolls of the children's bucket `k`, `ids`
giving the child id of each roll. -/
def childSum (p : Nat → Nat) (ids : Nat × Nat → Nat) (k : Nat) : Nat :=
  (allRolls.map (fun r => rollWeight r * bucket p (ids r) k)).sum

/-- The child id `iBest` that `GenerateBearoff ( p, nId )` obtains for a roll
(bearoff.c 229-230), as a natural number; 0 when the move generator stops on an
assertion. -/
def childId (E : Externals) (nId : Nat) (r : Nat × Nat) : Nat :=
  match HeuristicBearoff E (E.PositionFromBearoff nId 6 15) r.1 r.2 with
  | .ok (_, iBest) => iBest.toNat
  | .error _ => 0

/-- The point `n` chosen by one pass of the loop of `HeuristicBearoff`
(bearoff.c 168-205) when the highest occupied point is `nMax`: the same
expression as in `playDie`. -/
def sourcePoint (anBoard : Nat → Int) (die : Nat) (rest : List Nat) (nMax : Int) : Int :=
  if anBoard (die - 1) ≠ 0 then ((die - 1 : Nat) : Int)
  else if ((die : Int) - 1) > nMax then nMax
  else
    match comboPoint anBoard (die - 1) rest with
    | some t => (t : Int)
    | none =>
      let v := vacatePoint anBoard die nMax
      if v ≥ 0 then v else sparePoint anBoard die nMax

/-- The part of `playDie` after `lbl_move` (bearoff.c 207-213): the two
assertions, then the chequer leaves point `n` and lands on `n - die` when that
is on the board. -/
def moveChequer (anBoard : Nat → Int) (die : Nat) (n : Int) :
    Except ReadError (Option (Nat → Int)) :=
  if n < 0 then .error .assertion
  else if anBoard n.toNat = 0 then .error .assertion
  else
    let b1 := Function.update anBoard n.toNat (anBoard n.toNat - 1)
    if n ≥ (die : Int) then
      .ok (some (Function.update b1 (n.toNat - die) (b1 (n.toNat - die) + 1)))
    else .ok (some b1)

/-- The accumulation loop of `GenerateBearoff ( p, nId )` (bearoff.c 227-243)
run over the rolls of `L` from `aProb = 0`: the same loop body as in
`GenerateBearoff`. -/
def accumulateRolls (E : Externals) (p : Nat → Nat) (nId : Nat) (L : List (Nat × Nat)) :
    Except ReadError (Nat → Int) :=
  L.foldl
    (fun (st : Except ReadError (Nat → Int)) (roll : Nat × Nat) =>
      match st with
      | .error e => .error e
      | .ok aProb =>
        match HeuristicBearoff E (E.PositionFromBearoff nId 6 15) roll.1 roll.2 with
        | .error e => .error e
        | .ok (_, iBest) =>
          if iBest < 0 then .error .assertion
          else if ¬ (iBest < (nId : Int)) then .error .assertion
          else
            let child : Nat → Int := fun i =>
              ((p ((iBest.toNat <<< 6) ||| (i <<< 1)) % 256
                + ((p ((iBest.toNat <<< 6) ||| (i <<< 1) ||| 1) % 256) <<< 8) : Nat) : Int)
            .ok (fun k =>
              if 1 ≤ k ∧ k < 32 then
                (if roll.1 = roll.2 then wrapInt (aProb k + child (k - 1))
                 else wrapInt (aProb k + wrapInt (child (k - 1) * 2)))
              else aProb k))
    (.ok (fun _ => 0))

/-- Indices of `anBoard` read by the scan
`for ( nMax = top - 1; nMax >= 0 && ! anBoard[ nMax ]; nMax-- )` (bearoff.c
161-162 with `top = 6`), in the order of the reads. -/
def scanAccesses (anBoard : Nat → Int) : Nat → List Int
  | 0 => []
  | n + 1 => (n : Int) :: (if anBoard n ≠ 0 then [] else scanAccesses anBoard n)

/-- Indices of `anBoard` read by the loop at bearoff.c 180-189: `anBoard[ nTotal ]`
is read only when `nTotal < 6`, and the loop is left at the first occupied
point. -/
def comboAccesses (anBoard : Nat → Int) : Nat → List Nat → List Int
  | _, [] => []
  | nTotal, dj :: rest =>
    (if nTotal + dj < 6 then [((nTotal + dj : Nat) : Int)] else []) ++
      (if nTotal + dj < 6 ∧ anBoard (nTotal + dj) ≠ 0 then []
       else comboAccesses anBoard (nTotal + dj) rest)

/-- Indices of `anBoard` used by the loop at bearoff.c 191-195, for `iSearch`
from `die` to `nMax`: `anBoard[ iSearch ]`, then `anBoard[ iSearch - die ]` when
the first test holds, then `anBoard[ iSearch ]` and `anBoard[ n ]` when the
second holds and `n` is not `-1`.  The value of `n` when `iSearch` is reached
is the result of the loop run up to `iSearch - 1`. -/
def vacateAccesses (anBoard : Nat → Int) (die : Nat) (nMax : Int) : List Int :=
  (List.range (nMax + 1 - (die : Int)).toNat).flatMap fun k =>
    let iSearch := die + k
    let n := vacatePoint anBoard die ((iSearch : Int) - 1)
    (iSearch : Int) ::
      (if anBoard iSearch ≥ 2 then
        ((iSearch : Int) - (die : Int)) ::
          (if anBoard (iSearch - die) = 0 ∧ n ≠ -1 then [(iSearch : Int), n] else [])
       else [])

/-- Indices of `anBoard` used by the loop at bearoff.c 200-205: nothing while
`n` is `-1`; otherwise `anBoard[ iSearch ]` and `anBoard[ n ]`, the same two
again when the first comparison fails, and `anBoard[ iSearch - die ]` and
`anBoard[ n - die ]` when the counts are equal. -/
def spareAccesses (anBoard : Nat → Int) (die : Nat) (nMax : Int) : List Int :=
  (List.range (nMax + 1 - (die : Int)).toNat).flatMap fun k =>
    let iSearch := die + k
    let n := sparePoint anBoard die ((iSearch : Int) - 1)
    if n = -1 then []
    else
      [(iSearch : Int), n] ++
        (if anBoard iSearch > anBoard n.toNat then []
         else
          [(iSearch : Int), n] ++
            (if anBoard iSearch = anBoard n.toNat then
              [(iSearch : Int) - (die : Int), n - (die : Int)]
             else []))

/-- Indices of `anBoard` used after `lbl_move` (bearoff.c 207-213): none when
`g_assert( n >= 0 )` fails, `anBoard[ n ]` for the second assertion and for
the decrement, and `anBoard[ n - die ]` when `n >= die`. -/
def moveAccesses (anBoard : Nat → Int) (die : Nat) (n : Int) : List Int :=
  if n < 0 then []
  else
    n :: (if anBoard n.toNat = 0 then []
      else n :: (if n ≥ (die : Int) then [n - (die : Int)] else []))

/-- Indices of `anBoard` used by one pass of the loop body of
`HeuristicBearoff` (bearoff.c 161-213) for the die `die`, in program order. -/
def dieAccesses (anBoard : Nat → Int) (die : Nat) (rest : List Nat) : List Int :=
  let nMax := rearmost anBoard 6
  scanAccesses anBoard 6 ++
    (if nMax < 0 then []
     else
      ((die : Int) - 1) ::
        ((if anBoard (die - 1) ≠ 0 then []
          else if ((die : Int) - 1) > nMax then []
          else
            comboAccesses anBoard (die - 1) rest ++
              (match comboPoint anBoard (die - 1) rest with
               | some _ => []
               | none =>
                 vacateAccesses anBoard die nMax ++
                   (if vacatePoint anBoard die nMax ≥ 0 then []
                    else spareAccesses anBoard die nMax)))
          ++ moveAccesses anBoard die (sourcePoint anBoard die rest nMax)))

/-- Indices of `anBoard` used by the loop of `HeuristicBearoff` over the dice. -/
def diceAccesses (anBoard : Nat → Int) : List Nat → List Int
  | [] => []
  | die :: rest =>
    dieAccesses anBoard die rest ++
      (match playDie anBoard die rest with
       | .ok (some b) => diceAccesses b rest
       | _ => [])

/-- The dice played by the loop of `HeuristicBearoff`: for each, the board
before, the die, the point `n` played from and the board after. -/
def plays (anBoard : Nat → Int) : List Nat → List ((Nat → Int) × Nat × Int × (Nat → Int))
  | [] => []
  | die :: rest =>
    match playDie anBoard die rest with
    | .ok (some b) =>
      (anBoard, die, sourcePoint anBoard die rest (rearmost anBoard 6), b) :: plays b rest
    | _ => []

/-- The dice array `anDice` of `HeuristicBearoff` (bearoff.c 147-158). -/
def diceOfRoll (anRoll0 anRoll1 : Nat) : List Nat :=
  if anRoll0 = anRoll1 then [anRoll0, anRoll0, anRoll0, anRoll0] else [anRoll0, anRoll1]

/-- Property of one entry `( board before, die, n, board after )` of `plays`:
the counts before are non-negative, the point `n` is one of `0 .. 5` and holds
a chequer, and the chequer either moves exactly `die` points towards home, to
the point `n - die >= 0`, or (when `n < die`) is borne off; no other count
changes. -/
def bearsOffOrMoves (t : (Nat → Int) × Nat × Int × (Nat → Int)) : Prop :=
  (∀ i, i < 6 → 0 ≤ t.1 i) ∧ 0 ≤ t.2.2.1 ∧ t.2.2.1 ≤ 5 ∧ 1 ≤ t.1 t.2.2.1.toNat ∧
    (((t.2.1 : Int) ≤ t.2.2.1 ∧ 0 ≤ t.2.2.1 - (t.2.1 : Int) ∧
        t.2.2.2 t.2.2.1.toNat = t.1 t.2.2.1.toNat - 1 ∧
        t.2.2.2 (t.2.2.1.toNat - t.2.1) = t.1 (t.2.2.1.toNat - t.2.1) + 1 ∧
        ∀ i, i ≠ t.2.2.1.toNat → i ≠ t.2.2.1.toNat - t.2.1 → t.2.2.2 i = t.1 i) ∨
      (t.2.2.1 < (t.2.1 : Int) ∧ t.2.2.2 t.2.2.1.toNat = t.1 t.2.2.1.toNat - 1 ∧
        ∀ i, i ≠ t.2.2.1.toNat → t.2.2.2 i = t.1 i))

/-! ## Concrete inputs used in evaluations -/

/-- Memory or buffer holding the listed bytes, 0 elsewhere. -/
def bytesOfList (l : List Nat) : Nat → Nat := fun i => l.getD i 0

/-- A world in which the only file, open on descriptor 3 under every name,
holds the given bytes; allocations succeed and `mmap` is available. -/
def worldWithFile (bytes : List Nat) : World :=
  { files := fun h => if h = 3 then some bytes else none
    stack := fun _ => 0
    heap := 0
    openFile := fun _ => 3
    contextAlloc := fun _ => true
    mmapOk := true
    bufferAlloc := true }

/-- An in-memory native one-sided context over the given database bytes. -/
def memoryContext (nPoints nChequers : Int) (fCompressed fGammon : Int) (db : List Nat) :
    bearoffcontext :=
  { h := -1, bt := .BEAROFF_ONESIDED, bc := .BEAROFF_GNUBG
    nPoints := nPoints, nChequers := nChequers
    fInMemory := 1, fMalloc := 0, fCompressed := fCompressed, fGammon := fGammon, fND := 0
    fHeuristic := 0, fCubeful := 0, nReads := 0, p := some (bytesOfList db) }

/-- Externals for evaluations: every board has position id 0; the remaining
parts are not reached. -/
def idZeroExternals : Externals :=
  { PositionBearoff := fun _ _ _ => 0
    PositionFromBearoff := fun _ _ _ => fun _ => 0
    floatOfBytes := fun _ => 0
    normalDensity := fun _ _ _ => 0
    getBearoffGammonProbs := fun _ => (0, 0, 0)
    pbc1 := memoryContext 6 15 0 0 []
    BO_IN_MEMORY := 1
    BO_HEURISTIC := 16 }

/-- A compressed 1-point, 1-chequer database (2 positions): 40 header bytes,
the index entry of id 0 with `nz = 1, ioff = 32, nzg = 1, ioffg = 32` and pool
offset 0, the entry of id 1, then the pool holding the values 0x1234 and
0x5678. -/
def overlongEntryDb : List Nat :=
  List.replicate 40 0 ++ [0, 0, 0, 0, 1, 32, 1, 32] ++ List.replicate 8 0 ++ [52, 18, 120, 86]

/-- A two-sided board with one chequer per side, both on the point of index
`k`. -/
def oneChequerEach (k : Nat) : Nat → Nat → Int := fun _ j => if j = k then 1 else 0

/-- Header of a native database with the given two-byte tag at offset 6 and
the given text from offset 8 on, padded with NUL bytes to 40 bytes:
`"gnubg-"`, the tag, the text. -/
def nativeHeader (t0 t1 : Nat) (rest : List Nat) : List Nat :=
  ([103, 110, 117, 98, 103, 45, t0, t1] ++ rest ++ List.replicate 40 0).take 40

/-- Header `"gnubg-TS-06-06-1"`: two-sided, 6 points, 6 chequers, cubeful. -/
def headerTS : List Nat := nativeHeader 84 83 [45, 48, 54, 45, 48, 54, 45, 49]

/-- Header `"gnubg-H3"`: hypergammon with 3 chequers. -/
def headerH3 : List Nat := nativeHeader 72 51 []

/-- The file starts with the five bytes `"gnubg"`. -/
def startsWithGnubg (bytes : List Nat) : Prop :=
  bytes.getD 0 0 % 256 = 103 ∧ bytes.getD 1 0 % 256 = 110 ∧ bytes.getD 2 0 % 256 = 117 ∧
    bytes.getD 3 0 % 256 = 98 ∧ bytes.getD 4 0 % 256 = 103

/-- The file starts with the little-endian 32-bit encodings of 73457356
(CC DE 60 04) and of 100. -/
def hasExactMagic (bytes : List Nat) : Prop :=
  (bytes.getD 0 0 % 256 = 204 ∧ bytes.getD 1 0 % 256 = 222 ∧ bytes.getD 2 0 % 256 = 96 ∧
    bytes.getD 3 0 % 256 = 4) ∧
  (bytes.getD 4 0 % 256 = 100 ∧ bytes.getD 5 0 % 256 = 0 ∧ bytes.getD 6 0 % 256 = 0 ∧
    bytes.getD 7 0 % 256 = 0)

/-- An uncompressed database with gammon data whose record 0 (at byte 40) holds
the finish histogram with 65535 in bucket 1 and the gammon-save histogram with
65535 in bucket 2. -/
def impulseDb : List Nat :=
  List.replicate 40 0 ++ [0, 0, 255, 255] ++ List.replicate 60 0
    ++ [0, 0, 0, 0, 255, 255] ++ List.replicate 58 0

/-- The board on which each side has its 15 chequers on the point of index 0. -/
def fifteenOnAce : Nat → Nat → Int := fun _ j => if j = 0 then 15 else 0

/-- Externals with the native index convention as modelled from the spec; the
remaining parts are not reached. -/
def nativeExternals : Externals :=
  { PositionBearoff := PositionBearoffSpec
    PositionFromBearoff := PositionFromBearoffSpec
    floatOfBytes := fun _ => 0
    normalDensity := fun _ _ _ => 0
    getBearoffGammonProbs := fun _ => (0, 0, 0)
    pbc1 := memoryContext 6 15 0 0 []
    BO_IN_MEMORY := 1
    BO_HEURISTIC := 16 }

/-- An in-memory native two-sided cubeful context over the given database bytes. -/
def twoSidedContext (nPoints nChequers : Int) (db : List Nat) : bearoffcontext :=
  { h := -1, bt := .BEAROFF_TWOSIDED, bc := .BEAROFF_GNUBG
    nPoints := nPoints, nChequers := nChequers
    fInMemory := 1, fMalloc := 0, fCompressed := 0, fGammon := 0, fND := 0
    fHeuristic := 0, fCubeful := 1, nReads := 0, p := some (bytesOfList db) }

/-- A two-sided database whose record 0 starts with the 16-bit value 0x1234. -/
def twoSidedDb : List Nat := List.replicate 40 0 ++ [52, 18, 0, 0, 0, 0, 0, 0]

/-- A third-party context (6 points, 1 chequer) reading through descriptor 3. -/
def exactContext : bearoffcontext :=
  { h := 3, bt := .BEAROFF_TWOSIDED, bc := .BEAROFF_EXACT_BEAROFF
    nPoints := 6, nChequers := 1
    fInMemory := 0, fMalloc := 0, fCompressed := 0, fGammon := 0, fND := 0
    fHeuristic := 0, fCubeful := 1, nReads := 0, p := none }

/-! # Theorems -/

/-! ## Index mapper (third-party convention) -/

theorem wrapInt_of_range (x : Int) (h0 : 0 ≤ x) (h1 : x < 2147483648) : wrapInt x = x := by
  unfold wrapInt; omega

theorem wrapUInt_of_range (x : Int) (h0 : 0 ≤ x) (h1 : x < 4294967296) : wrapUInt x = x := by
  unfold wrapUInt; omega

/-- A wrapped accumulation loop computes the plain sum while the total stays in range. -/
theorem foldl_wrap_eq (w : Int → Int) (B : Int) (hw : ∀ x, 0 ≤ x → x < B → w x = x)
    (f : Nat → Int) (g : Nat → Nat) (a : Nat) :
    ∀ n : Nat, (∀ i, i < n → f i = g i) →
      (a : Int) + ∑ i ∈ Finset.range n, (g i : Int) < B →
      (List.range n).foldl (fun id i => w (id + f i)) (a : Int)
        = a + ∑ i ∈ Finset.range n, (g i : Int) := by
  intro n
  induction n with
  | zero => intro _ _; simp
  | succ n ih =>
    intro hfg hb
    rw [Finset.sum_range_succ] at hb ⊢
    have hg : (0 : Int) ≤ (g n : Int) := Int.ofNat_nonneg _
    have hs : (0 : Int) ≤ ∑ i ∈ Finset.range n, (g i : Int) :=
      Finset.sum_nonneg (fun i _ => Int.ofNat_nonneg _)
    have ha : (0 : Int) ≤ (a : Int) := Int.ofNat_nonneg _
    rw [List.range_succ, List.foldl_append, ih (fun i hi => hfg i (Nat.lt_succ_of_lt hi)) (by omega)]
    simp only [List.foldl_cons, List.foldl_nil]
    rw [hfg n (Nat.lt_succ_self n), hw _ (by omega) (by omega)]
    ring

theorem boardCount_pos (m c : Nat) : 0 < boardCount m c :=
  Nat.choose_pos (Nat.le_add_left m c)

theorem boardCount_succ_succ (m c : Nat) :
    boardCount (m + 1) (c + 1) = boardCount m (c + 1) + boardCount (m + 1) c := by
  unfold boardCount
  have : c + 1 + (m + 1) = (c + 1 + m) + 1 := by omega
  rw [this, Nat.choose_succ_succ]
  have : c + (m + 1) = c + 1 + m := by omega
  rw [this]

theorem boardCount_zero_right (m : Nat) : boardCount m 0 = 1 := by
  unfold boardCount; simp

theorem boardCount_zero_left (c : Nat) : boardCount 0 c = 1 := by
  unfold boardCount; simp

theorem belowCount_add (m c : Nat) :
    ∀ k, k ≤ c → belowCount m c k + boardCount (m + 1) (c - k) = boardCount (m + 1) c := by
  intro k
  induction k with
  | zero => intro _; simp [belowCount]
  | succ k ih =>
    intro hk
    have h1 := ih (by omega)
    have h2 : c - k = (c - (k + 1)) + 1 := by omega
    have h3 := boardCount_succ_succ m (c - (k + 1))
    rw [← h2] at h3
    unfold belowCount at h1 ⊢
    rw [Finset.sum_range_succ]
    omega

theorem belowCount_full (m c : Nat) : belowCount m c (c + 1) = boardCount (m + 1) c := by
  have h := belowCount_add m c c le_rfl
  unfold belowCount at h ⊢
  rw [Finset.sum_range_succ]
  simp only [Nat.sub_self, boardCount_zero_right] at h ⊢
  exact h

theorem belowCount_mono (m c : Nat) {k k' : Nat} (h : k ≤ k') :
    belowCount m c k ≤ belowCount m c k' := by
  unfold belowCount
  exact Finset.sum_le_sum_of_subset (Finset.range_mono h)

theorem boardCount_le_succ (m c : Nat) : boardCount m c ≤ boardCount (m + 1) c := by
  cases c with
  | zero => simp [boardCount_zero_right]
  | succ c => rw [boardCount_succ_succ]; omega

theorem boardCount_mono_right (m : Nat) {c c' : Nat} (h : c ≤ c') :
    boardCount m c ≤ boardCount m c' := by
  unfold boardCount
  exact Nat.choose_le_choose m (by omega)



theorem rankN_lt (b : Nat → Nat) :
    ∀ m c, (∑ i ∈ Finset.range m, b i) ≤ c → rankN b m c < boardCount m c := by
  intro m
  induction m with
  | zero => intro c _; simp [rankN, boardCount_zero_left]
  | succ m ih =>
    intro c h
    rw [Finset.sum_range_succ] at h
    have h1 := ih (c - b m) (by omega)
    have h2 := belowCount_add m c (b m) (by omega)
    have h3 := boardCount_le_succ m (c - b m)
    simp only [rankN]
    omega

theorem rankN_congr (b b' : Nat → Nat) :
    ∀ m c, (∀ i, i < m → b i = b' i) → rankN b m c = rankN b' m c := by
  intro m
  induction m with
  | zero => intro c _; rfl
  | succ m ih =>
    intro c h
    simp only [rankN]
    rw [h m (Nat.lt_succ_self m), ih _ (fun i hi => h i (Nat.lt_succ_of_lt hi))]

theorem rankN_injective (b b' : Nat → Nat) :
    ∀ m c, (∑ i ∈ Finset.range m, b i) ≤ c → (∑ i ∈ Finset.range m, b' i) ≤ c →
      rankN b m c = rankN b' m c → ∀ i, i < m → b i = b' i := by
  intro m
  induction m with
  | zero => intro c _ _ _ i hi; omega
  | succ m ih =>
    intro c h h' heq i hi
    rw [Finset.sum_range_succ] at h h'
    simp only [rankN] at heq
    have hlt := rankN_lt b m (c - b m) (by omega)
    have hlt' := rankN_lt b' m (c - b' m) (by omega)
    have hp := belowCount_add m c (b m) (by omega)
    have hp' := belowCount_add m c (b' m) (by omega)
    have hs : ∀ k, belowCount m c (k + 1) = belowCount m c k + boardCount m (c - k) := by
      intro k; unfold belowCount; rw [Finset.sum_range_succ]
    have hlast : b m = b' m := by
      rcases Nat.lt_trichotomy (b m) (b' m) with hlt0 | heq0 | hgt0
      · have := belowCount_mono m c (show b m + 1 ≤ b' m from hlt0)
        have := hs (b m)
        omega
      · exact heq0
      · have := belowCount_mono m c (show b' m + 1 ≤ b m from hgt0)
        have := hs (b' m)
        omega
    rcases Nat.lt_succ_iff_lt_or_eq.mp hi with hi' | hi'
    · rw [hlast] at heq
      exact ih (c - b' m) (by omega) (by omega) (by omega) i hi'
    · rw [hi']; exact hlast

theorem exists_bucket (m c id : Nat) :
    ∀ n, id < belowCount m c n →
      ∃ k, k < n ∧ belowCount m c k ≤ id ∧ id < belowCount m c (k + 1) := by
  intro n
  induction n with
  | zero => intro h; simp [belowCount] at h
  | succ n ih =>
    intro h
    by_cases hn : id < belowCount m c n
    · obtain ⟨k, hk, h1, h2⟩ := ih hn
      exact ⟨k, Nat.lt_succ_of_lt hk, h1, h2⟩
    · exact ⟨n, Nat.lt_succ_self n, by omega, h⟩

theorem rankN_surjective :
    ∀ m c id, id < boardCount m c →
      ∃ b : Nat → Nat, (∑ i ∈ Finset.range m, b i) ≤ c ∧ rankN b m c = id := by
  intro m
  induction m with
  | zero => intro c id h; exact ⟨fun _ => 0, by simp, by simp [rankN, boardCount_zero_left] at h ⊢; omega⟩
  | succ m ih =>
    intro c id h
    rw [← belowCount_full] at h
    obtain ⟨k, hk, h1, h2⟩ := exists_bucket m c id (c + 1) h
    have hs : belowCount m c (k + 1) = belowCount m c k + boardCount m (c - k) := by
      unfold belowCount; rw [Finset.sum_range_succ]
    obtain ⟨b, hb, hr⟩ := ih (c - k) (id - belowCount m c k) (by omega)
    refine ⟨Function.update b m k, ?_, ?_⟩
    · rw [Finset.sum_range_succ]
      have : ∑ i ∈ Finset.range m, Function.update b m k i = ∑ i ∈ Finset.range m, b i := by
        apply Finset.sum_congr rfl
        intro i hi
        have : i ≠ m := by have := Finset.mem_range.mp hi; omega
        simp [Function.update_noteq this]
      rw [this]; simp; omega
    · simp only [rankN, Function.update_same]
      rw [rankN_congr (Function.update b m k) b m (c - k)
        (fun i hi => Function.update_noteq (by omega) _ _), hr]
      omega



theorem boardCount_mono_left {m m' : Nat} (c : Nat) (h : m ≤ m') :
    boardCount m c ≤ boardCount m' c := by
  induction h with
  | refl => exact le_rfl
  | step _ ih => exact le_trans ih (boardCount_le_succ _ c)

/-- Without overflow, `countBoard (m+1) c` is the binomial coefficient `C(c+m, m)`. -/
theorem countBoard_eq :
    ∀ m c : Nat, boardCount m c < 2147483648 →
      countBoard (m + 1) (c : Int) = (boardCount m c : Int) := by
  intro m
  induction m with
  | zero => intro c _; simp [countBoard, boardCount_zero_left]
  | succ m ih =>
    intro c hb
    unfold countBoard
    by_cases hc : c = 0
    · subst hc; simp [boardCount_zero_right]
    · have hc' : ¬ (m + 1 + 1 = 1 ∨ (c : Int) = 0) := by omega
      rw [if_neg hc']
      have htn : ((c : Int) + 1).toNat = c + 1 := by omega
      rw [htn]
      have key := foldl_wrap_eq wrapInt 2147483648 wrapInt_of_range
        (fun i => countBoard (m + 1) ((c : Int) - (i : Int)))
        (fun i => boardCount m (c - i)) 0 (c + 1)
        (by
          intro i hi
          have h1 : ((c : Int) - (i : Int)) = ((c - i : Nat) : Int) := by omega
          simp only [h1]
          apply ih
          have h2 := boardCount_mono_right m (show c - i ≤ c by omega)
          have h3 := boardCount_le_succ m c
          omega)
        (by
          have := belowCount_full m c
          unfold belowCount at this
          push_cast
          rw [← Nat.cast_sum, this]
          simpa using hb)
      simp only [Nat.cast_zero, zero_add] at key
      rw [key, ← Nat.cast_sum]
      have := belowCount_full m c
      unfold belowCount at this
      rw [this]

/-- On a legal board and without overflow, `boardNr` is the reference ranking. -/
theorem boardNr_eq_rankN (nPoints : Nat) (b : Nat → Int) (bn : Nat → Nat) :
    ∀ m c : Nat, (∀ i, i < m → b i = (bn i : Int)) →
      (∑ i ∈ Finset.range m, bn i) ≤ c → boardCount m c < 2147483648 →
      boardNr b (m + 1) nPoints (c : Int) = (rankN bn m c : Int) := by
  intro m
  induction m with
  | zero => intro c _ _ _; simp [boardNr, rankN]
  | succ m ih =>
    intro c hb hsum hov
    have hsum' := hsum
    rw [Finset.sum_range_succ] at hsum'
    have hlt := rankN_lt bn (m + 1) c hsum
    unfold boardNr
    by_cases hc : c = 0
    · subst hc
      simp only [boardCount_zero_right] at hlt
      simp
      omega
    · have hc' : ¬ (m + 1 + 1 = 1 ∨ (c : Int) = 0) := by omega
      rw [if_neg hc']
      simp only [Nat.add_sub_cancel]
      rw [hb m (Nat.lt_succ_self m)]
      have hcast : ((c : Int) - (bn m : Int)) = ((c - bn m : Nat) : Int) := by omega
      rw [hcast, ih (c - bn m) (fun i hi => hb i (Nat.lt_succ_of_lt hi)) (by omega)
        (by
          have h2 := boardCount_mono_right m (show c - bn m ≤ c by omega)
          have h3 := boardCount_le_succ m c
          omega)]
      simp only [Int.toNat_ofNat]
      simp only [rankN] at hlt
      have key := foldl_wrap_eq wrapUInt 4294967296 wrapUInt_of_range
        (fun i => countBoard (m + 1) ((c : Int) - (i : Int)))
        (fun i => boardCount m (c - i)) (rankN bn m (c - bn m)) (bn m)
        (by
          intro i hi
          have h1 : ((c : Int) - (i : Int)) = ((c - i : Nat) : Int) := by omega
          simp only [h1]
          apply countBoard_eq
          have h2 := boardCount_mono_right m (show c - i ≤ c by omega)
          have h3 := boardCount_le_succ m c
          omega)
        (by
          rw [← Nat.cast_sum]
          unfold belowCount at hlt
          omega)
      rw [key, ← Nat.cast_sum]
      simp only [rankN, belowCount]
      push_cast
      rfl

/-- Function `boardNr` never reads the board at or beyond index `nDistance - 1`. -/
theorem boardNr_congr (nPoints : Nat) (b b' : Nat → Int) :
    ∀ d (c : Int), (∀ i, i + 1 < d → b i = b' i) →
      boardNr b d nPoints c = boardNr b' d nPoints c := by
  intro d
  induction d with
  | zero => intro c _; rfl
  | succ d ih =>
    intro c h
    unfold boardNr
    by_cases hc : d + 1 = 1 ∨ c = 0
    · rw [if_pos hc, if_pos hc]
    · rw [if_neg hc, if_neg hc]
      have hd : d - 1 + 1 < d + 1 := by omega
      rw [h (d - 1) hd, ih _ (fun i hi => h i (by omega))]



theorem legal_toNat (m c : Nat) (b : Nat → Int) (h : LegalBoard m c b) :
    (∀ i, i < m → b i = (((b i).toNat : Nat) : Int)) ∧
      (∑ i ∈ Finset.range m, (b i).toNat) ≤ c := by
  obtain ⟨h0, hs⟩ := h
  have hc : ∀ i, i < m → b i = (((b i).toNat : Nat) : Int) := by
    intro i hi
    have := h0 i hi
    omega
  refine ⟨hc, ?_⟩
  have : (∑ i ∈ Finset.range m, b i) = ((∑ i ∈ Finset.range m, (b i).toNat : Nat) : Int) := by
    rw [Nat.cast_sum]
    apply Finset.sum_congr rfl
    intro i hi
    exact hc i (Finset.mem_range.mp hi)
  rw [this] at hs
  exact_mod_cast hs

/-- C1 (as implemented): for `p >= 1` and `C(p+c-1, p-1)` below `2^31` (no 32-bit
overflow), `boardNr(board, p, p, c)` never reads point `p-1`, and it is a
bijection between the vectors of non-negative counts on points `0 .. p-2` with
total at most `c` and the ids `[0, countBoard(p, c))`, where
`countBoard(p, c) = C(p+c-1, p-1)`. -/
theorem boardNr_bijection (p c : Nat) (hp : 1 ≤ p)
    (hov : Nat.choose (p + c - 1) (p - 1) < 2147483648) :
    countBoard p (c : Int) = (Nat.choose (p + c - 1) (p - 1) : Int) ∧
    (∀ b b' : Nat → Int, (∀ i, i + 1 < p → b i = b' i) →
        boardNr b p p (c : Int) = boardNr b' p p (c : Int)) ∧
    (∀ b, LegalBoard (p - 1) c b →
        0 ≤ boardNr b p p (c : Int) ∧ boardNr b p p (c : Int) < countBoard p (c : Int)) ∧
    (∀ b b', LegalBoard (p - 1) c b → LegalBoard (p - 1) c b' →
        boardNr b p p (c : Int) = boardNr b' p p (c : Int) → ∀ i, i < p - 1 → b i = b' i) ∧
    (∀ id : Int, 0 ≤ id → id < countBoard p (c : Int) →
        ∃ b, LegalBoard (p - 1) c b ∧ boardNr b p p (c : Int) = id) := by
  obtain ⟨m, rfl⟩ : ∃ m, p = m + 1 := ⟨p - 1, by omega⟩
  have hbc : boardCount m c < 2147483648 := by
    unfold boardCount
    have : m + 1 + c - 1 = c + m := by omega
    rw [this] at hov
    simpa using hov
  have hcnt : countBoard (m + 1) (c : Int) = (boardCount m c : Int) := countBoard_eq m c hbc
  have hch : (Nat.choose (m + 1 + c - 1) (m + 1 - 1) : Int) = (boardCount m c : Int) := by
    unfold boardCount
    have : m + 1 + c - 1 = c + m := by omega
    rw [this]; simp
  simp only [Nat.add_sub_cancel]
  refine ⟨by rw [hcnt, ← hch]; simp, ?_, ?_, ?_, ?_⟩
  · intro b b' h
    exact boardNr_congr (m + 1) b b' (m + 1) c h
  · intro b hb
    obtain ⟨h1, h2⟩ := legal_toNat m c b hb
    rw [boardNr_eq_rankN (m + 1) b (fun i => (b i).toNat) m c h1 h2 hbc, hcnt]
    have := rankN_lt (fun i => (b i).toNat) m c h2
    omega
  · intro b b' hb hb' heq i hi
    obtain ⟨h1, h2⟩ := legal_toNat m c b hb
    obtain ⟨h1', h2'⟩ := legal_toNat m c b' hb'
    rw [boardNr_eq_rankN (m + 1) b (fun i => (b i).toNat) m c h1 h2 hbc,
      boardNr_eq_rankN (m + 1) b' (fun i => (b' i).toNat) m c h1' h2' hbc] at heq
    have heq' : rankN (fun i => (b i).toNat) m c = rankN (fun i => (b' i).toNat) m c := by
      exact_mod_cast heq
    have := rankN_injective _ _ m c h2 h2' heq' i hi
    rw [h1 i hi, h1' i hi]
    exact_mod_cast this
  · intro id h0 hlt
    rw [hcnt] at hlt
    obtain ⟨bn, hs, hr⟩ := rankN_surjective m c id.toNat (by omega)
    refine ⟨fun i => (bn i : Int), ⟨fun i _ => Int.ofNat_nonneg _, ?_⟩, ?_⟩
    · rw [← Nat.cast_sum]; exact_mod_cast hs
    · rw [boardNr_eq_rankN (m + 1) _ bn m c (fun i _ => rfl) hs hbc, hr]
      omega

/-- Non-vacuity of `boardNr_bijection`: the 6-point, 15-chequer geometry used for
third-party databases satisfies its hypotheses. -/
theorem boardNr_bijection_witness :
    countBoard 6 ((15 : Nat) : Int) = (Nat.choose (6 + 15 - 1) (6 - 1) : Int) ∧
    (∀ b b' : Nat → Int, (∀ i, i + 1 < 6 → b i = b' i) →
        boardNr b 6 6 ((15 : Nat) : Int) = boardNr b' 6 6 ((15 : Nat) : Int)) ∧
    (∀ b, LegalBoard (6 - 1) ((15 : Nat) : Int) b →
        0 ≤ boardNr b 6 6 ((15 : Nat) : Int) ∧
          boardNr b 6 6 ((15 : Nat) : Int) < countBoard 6 ((15 : Nat) : Int)) ∧
    (∀ b b', LegalBoard (6 - 1) ((15 : Nat) : Int) b → LegalBoard (6 - 1) ((15 : Nat) : Int) b' →
        boardNr b 6 6 ((15 : Nat) : Int) = boardNr b' 6 6 ((15 : Nat) : Int) →
        ∀ i, i < 6 - 1 → b i = b' i) ∧
    (∀ id : Int, 0 ≤ id → id < countBoard 6 ((15 : Nat) : Int) →
        ∃ b, LegalBoard (6 - 1) ((15 : Nat) : Int) b ∧ boardNr b 6 6 ((15 : Nat) : Int) = id) :=
  boardNr_bijection 6 15 (by decide) (by norm_num [Nat.choose])

/-- C1 (as stated) fails: with `p = 2` points and `c = 1` chequer the legal boards
`[0,0]` and `[0,1]` differ on point 1 yet get the same id, and id 2, which lies in
`[0, C(3,2))`, is the id of no legal board. -/
theorem boardNr_not_bijection_on_all_points :
    LegalBoard 2 1 (boardOfList [0, 0]) ∧ LegalBoard 2 1 (boardOfList [0, 1]) ∧
    boardOfList [0, 0] 1 ≠ boardOfList [0, 1] 1 ∧
    boardNr (boardOfList [0, 0]) 2 2 1 = boardNr (boardOfList [0, 1]) 2 2 1 ∧
    (2 : Int) < (Nat.choose (2 + 1) 2 : Int) ∧
    ∀ b, LegalBoard 2 1 b → boardNr b 2 2 1 ≠ 2 := by
  refine ⟨?_, ?_, by decide, by decide, by decide, ?_⟩
  · constructor
    · intro i hi; interval_cases i <;> decide
    · decide
  · constructor
    · intro i hi; interval_cases i <;> decide
    · decide
  · intro b hb
    obtain ⟨h0, hs⟩ := hb
    have h00 := h0 0 (by decide)
    have h01 := h0 1 (by decide)
    simp only [Finset.sum_range_succ, Finset.sum_range_zero, zero_add] at hs
    have hcase : b 0 = 0 ∨ b 0 = 1 := by omega
    rcases hcase with h | h
    · simp [boardNr, h]
    · simp [boardNr, countBoard, h, wrapUInt, List.range_succ]

/-! ## Sparse decode -/

theorem leWord_eq (ac : Nat → Nat) (i : Nat) :
    leWord ac i = ac i % 256 + 256 * (ac (i + 1) % 256) := by
  unfold leWord
  have h : ac i % 256 < 2 ^ 8 := by
    have := Nat.mod_lt (ac i) (show 256 > 0 by decide)
    simpa using this
  rw [Nat.lor_comm, Nat.shiftLeft_eq, Nat.mul_comm, ← Nat.mul_add_lt_is_or h]
  norm_num
  omega

theorem leWord_lt (ac : Nat → Nat) (i : Nat) : leWord ac i < 65536 := by
  rw [leWord_eq]
  have := Nat.mod_lt (ac i) (show 256 > 0 by decide)
  have := Nat.mod_lt (ac (i + 1)) (show 256 > 0 by decide)
  omega

/-- State of a store loop of `CopyBytes` after `n` iterations. -/
theorem copyLoop_spec (ac : Nat → Nat) (base : Nat) (a0 : Nat → Nat) (i0 : Nat) :
    ∀ n, ((List.range n).foldl
      (fun (s : (Nat → Nat) × Nat) (j : Nat) =>
        (Function.update s.1 (base + j) (leWord ac s.2 % 65536), s.2 + 2)) (a0, i0))
      = (fun k => if base ≤ k ∧ k < base + n then leWord ac (i0 + 2 * (k - base)) else a0 k,
          i0 + 2 * n) := by
  intro n
  induction n with
  | zero =>
    simp only [List.range_zero, List.foldl_nil, Nat.mul_zero, Nat.add_zero]
    congr 1
    funext k
    have : ¬ (base ≤ k ∧ k < base) := by omega
    simp [this]
  | succ n ih =>
    rw [List.range_succ, List.foldl_append, ih]
    simp only [List.foldl_cons, List.foldl_nil]
    congr 1
    · funext k
      by_cases hk : k = base + n
      · subst hk
        have : base ≤ base + n ∧ base + n < base + (n + 1) := by omega
        simp only [Function.update_same, this, and_self, if_true]
        rw [Nat.mod_eq_of_lt (leWord_lt _ _)]
        congr 2
        omega
      · rw [Function.update_noteq hk]
        by_cases h1 : base ≤ k ∧ k < base + n
        · have h2 : base ≤ k ∧ k < base + (n + 1) := by omega
          simp only [h1, h2, and_self, if_true]
        · have h2 : ¬ (base ≤ k ∧ k < base + (n + 1)) := by omega
          simp only [h1, h2, if_false]

theorem CopyBytes_eq (aus ac : Nat → Nat) (nz ioff nzg ioffg : Nat) :
    CopyBytes aus ac nz ioff nzg ioffg = fun k =>
      if 32 + ioffg ≤ k ∧ k < 32 + ioffg + nzg then leWord ac (2 * nz + 2 * (k - (32 + ioffg)))
      else if ioff ≤ k ∧ k < ioff + nz then leWord ac (2 * (k - ioff))
      else if k < 64 then 0 else aus k := by
  unfold CopyBytes
  simp only []
  rw [copyLoop_spec ac ioff _ 0 nz, copyLoop_spec ac (32 + ioffg) _ _ nzg]
  simp only [Nat.zero_add]

/-- C2: when both windows fit their sub-histogram (`ioff + nz <= 32`,
`ioffg + nzg <= 32`), `CopyBytes` leaves `aus[ioff+j] = ac[2j] + 256*ac[2j+1]`
for `j < nz`, `aus[32+ioffg+j] = ac[2(nz+j)] + 256*ac[2(nz+j)+1]` for `j < nzg`,
and 0 in every other one of the 64 entries; nothing beyond the 64 entries is
written. -/
theorem CopyBytes_sparse_decode (aus ac : Nat → Nat) (nz ioff nzg ioffg : Nat)
    (hf : ioff + nz ≤ 32) (hg : ioffg + nzg ≤ 32) :
    (∀ j, j < nz → CopyBytes aus ac nz ioff nzg ioffg (ioff + j)
        = ac (2 * j) % 256 + 256 * (ac (2 * j + 1) % 256)) ∧
    (∀ j, j < nzg → CopyBytes aus ac nz ioff nzg ioffg (32 + ioffg + j)
        = ac (2 * (nz + j)) % 256 + 256 * (ac (2 * (nz + j) + 1) % 256)) ∧
    (∀ k, k < 64 → ¬ (ioff ≤ k ∧ k < ioff + nz) →
        ¬ (32 + ioffg ≤ k ∧ k < 32 + ioffg + nzg) →
        CopyBytes aus ac nz ioff nzg ioffg k = 0) ∧
    (∀ k, 64 ≤ k → CopyBytes aus ac nz ioff nzg ioffg k = aus k) := by
  rw [CopyBytes_eq]
  refine ⟨?_, ?_, ?_, ?_⟩
  · intro j hj
    have h1 : ¬ (32 + ioffg ≤ ioff + j ∧ ioff + j < 32 + ioffg + nzg) := by omega
    have h2 : ioff ≤ ioff + j ∧ ioff + j < ioff + nz := by omega
    simp only [h1, h2, if_false, and_self, if_true, Nat.add_sub_cancel_left]
    exact leWord_eq ac (2 * j)
  · intro j hj
    have h1 : 32 + ioffg ≤ 32 + ioffg + j ∧ 32 + ioffg + j < 32 + ioffg + nzg := by omega
    simp only [h1, and_self, if_true, Nat.add_sub_cancel_left]
    rw [leWord_eq]
    have : 2 * nz + 2 * j = 2 * (nz + j) := by ring
    rw [this]
  · intro k hk h1 h2
    simp only [h1, h2, hk, if_false, if_true]
  · intro k hk
    have h1 : ¬ (32 + ioffg ≤ k ∧ k < 32 + ioffg + nzg) := by omega
    have h2 : ¬ (ioff ≤ k ∧ k < ioff + nz) := by omega
    have h3 : ¬ (k < 64) := by omega
    simp only [h1, h2, h3, if_false]

/-- C2, the instance of the specification: a finish record with `nz = 3` stored
values starting at bucket 5 (and no gammon values) populates exactly buckets
5, 6, 7. -/
theorem CopyBytes_sparse_decode_witness :
    (∀ j, j < 3 → CopyBytes (fun _ => 9) (fun i => [1, 2, 3, 4, 5, 6].getD i 0) 3 5 0 0 (5 + j)
        = (fun i => [1, 2, 3, 4, 5, 6].getD i 0) (2 * j) % 256
          + 256 * ((fun i => [1, 2, 3, 4, 5, 6].getD i 0) (2 * j + 1) % 256)) ∧
    (∀ j, j < 0 → CopyBytes (fun _ => 9) (fun i => [1, 2, 3, 4, 5, 6].getD i 0) 3 5 0 0 (32 + 0 + j)
        = (fun i => [1, 2, 3, 4, 5, 6].getD i 0) (2 * (3 + j)) % 256
          + 256 * ((fun i => [1, 2, 3, 4, 5, 6].getD i 0) (2 * (3 + j) + 1) % 256)) ∧
    (∀ k, k < 64 → ¬ (5 ≤ k ∧ k < 5 + 3) → ¬ (32 + 0 ≤ k ∧ k < 32 + 0 + 0) →
        CopyBytes (fun _ => 9) (fun i => [1, 2, 3, 4, 5, 6].getD i 0) 3 5 0 0 k = 0) ∧
    (∀ k, 64 ≤ k →
        CopyBytes (fun _ => 9) (fun i => [1, 2, 3, 4, 5, 6].getD i 0) 3 5 0 0 k
          = (fun _ => 9) k) :=
  CopyBytes_sparse_decode (fun _ => 9) (fun i => [1, 2, 3, 4, 5, 6].getD i 0) 3 5 0 0
    (by decide) (by decide)

/-! ## Compressed records -/

/-- C3: an index entry whose start bucket plus count exceeds 32 (`nz = 1` at
`ioff = 32`, `nzg = 1` at `ioffg = 32`) passes the sanity check, the lookup
succeeds, the finish value lands in `aus[32]` (bucket 0 of the gammon-save
histogram) and the gammon-save value in `aus[64]`, one past the 64-entry array. -/
theorem GetDistCompressed_accepts_overlong_window :
    indexEntry (fun i => bytesOfList overlongEntryDb (40 + i)) = (0, 1, 32, 1, 32) ∧
    sanityFails 2 0 1 32 1 32 = false ∧
    (GetDistCompressed (worldWithFile []) (fun _ => 0)
        (memoryContext 1 1 1 1 overlongEntryDb) 0).toOption.map
      (fun aus => (aus 32, aus 64)) = some (4660, 22136) := by
  refine ⟨by decide, by decide, by decide⟩

/-! ## Format detection -/

theorem bits32_lt (x : Int) : bits32 x < 4294967296 := by
  unfold bits32; omega

theorem bits32_wrapInt (z : Int) : bits32 (wrapInt z) = bits32 z := by
  unfold bits32 wrapInt; omega

theorem wrapInt_bits32 (z : Int) : wrapInt ((bits32 z : Nat) : Int) = wrapInt z := by
  unfold bits32 wrapInt; omega

theorem or_lt_32 (a b : Nat) (ha : a < 4294967296) (hb : b < 4294967296) :
    a ||| b < 4294967296 := by
  have := @Nat.or_lt_two_pow a b 32 (by simpa using ha) (by simpa using hb)
  simpa using this

theorem bits32_orInt (x y : Int) : bits32 (orInt x y) = bits32 x ||| bits32 y := by
  unfold orInt
  rw [bits32_wrapInt]
  have := or_lt_32 _ _ (bits32_lt x) (bits32_lt y)
  unfold bits32 at this ⊢
  omega

/-- The 32-bit pattern assembled by `leInt32`, as an or of the four shifted patterns. -/
theorem leInt32_eq (s : Bool) (ac : Nat → Nat) (i : Nat) :
    leInt32 s ac i = wrapInt ((bits32 (charToInt s (ac i))
      ||| bits32 (charToInt s (ac (i + 1)) * 256)
      ||| bits32 (charToInt s (ac (i + 2)) * 65536)
      ||| bits32 (charToInt s (ac (i + 3)) * 16777216) : Nat) : Int) := by
  unfold leInt32
  conv_lhs => rw [orInt]
  rw [bits32_orInt, bits32_orInt]
  simp only [shlInt, bits32_wrapInt]
  norm_num

theorem charToInt_unsigned (b : Nat) : charToInt false b = ((b % 256 : Nat) : Int) := by
  simp [charToInt]

theorem charToInt_signed_low (b : Nat) (h : ¬ 128 ≤ b % 256) :
    charToInt true b = ((b % 256 : Nat) : Int) := by
  simp [charToInt, h]

theorem charToInt_signed_high (b : Nat) (h : 128 ≤ b % 256) :
    charToInt true b = ((b % 256 : Nat) : Int) - 256 := by
  simp [charToInt, h]

theorem or_eq_add_of_lt (i a b : Nat) (h : b < 2 ^ i) : b ||| 2 ^ i * a = 2 ^ i * a + b := by
  rw [Nat.lor_comm, Nat.mul_add_lt_is_or h]

/-- With unsigned `char`, `leInt32` is the little-endian value wrapped to `int`. -/
theorem leInt32_unsigned (ac : Nat → Nat) (i : Nat) :
    leInt32 false ac i = wrapInt ((ac i % 256 + 256 * (ac (i + 1) % 256)
      + 65536 * (ac (i + 2) % 256) + 16777216 * (ac (i + 3) % 256) : Nat) : Int) := by
  rw [leInt32_eq]
  have h0 := Nat.mod_lt (ac i) (show 256 > 0 by decide)
  have h1 := Nat.mod_lt (ac (i + 1)) (show 256 > 0 by decide)
  have h2 := Nat.mod_lt (ac (i + 2)) (show 256 > 0 by decide)
  have h3 := Nat.mod_lt (ac (i + 3)) (show 256 > 0 by decide)
  have e0 : bits32 (charToInt false (ac i)) = ac i % 256 := by
    rw [charToInt_unsigned]; unfold bits32; omega
  have e1 : bits32 (charToInt false (ac (i + 1)) * 256) = 2 ^ 8 * (ac (i + 1) % 256) := by
    rw [charToInt_unsigned]; unfold bits32; omega
  have e2 : bits32 (charToInt false (ac (i + 2)) * 65536) = 2 ^ 16 * (ac (i + 2) % 256) := by
    rw [charToInt_unsigned]; unfold bits32; omega
  have e3 : bits32 (charToInt false (ac (i + 3)) * 16777216) = 2 ^ 24 * (ac (i + 3) % 256) := by
    rw [charToInt_unsigned]; unfold bits32; omega
  rw [e0, e1, e2, e3, or_eq_add_of_lt 8 _ _ (by norm_num; omega),
    or_eq_add_of_lt 16 _ _ (by norm_num; omega), or_eq_add_of_lt 24 _ _ (by norm_num; omega)]
  congr 1
  push_cast
  ring

/-- With unsigned plain `char`, `isExactBearoff` accepts exactly the headers whose
first eight bytes are the little-endian encodings of 73457356 and 100. -/
theorem isExactBearoff_unsigned_iff (ac : Nat → Nat) :
    isExactBearoff false ac = true ↔
      (ac 0 % 256 = 204 ∧ ac 1 % 256 = 222 ∧ ac 2 % 256 = 96 ∧ ac 3 % 256 = 4) ∧
      (ac 4 % 256 = 100 ∧ ac 5 % 256 = 0 ∧ ac 6 % 256 = 0 ∧ ac 7 % 256 = 0) := by
  unfold isExactBearoff
  rw [leInt32_unsigned, leInt32_unsigned]
  simp only [Bool.and_eq_true, decide_eq_true_eq, wrapInt, Nat.zero_add, Nat.reduceAdd]
  have h0 := Nat.mod_lt (ac 0) (show 256 > 0 by decide)
  have h1 := Nat.mod_lt (ac 1) (show 256 > 0 by decide)
  have h2 := Nat.mod_lt (ac 2) (show 256 > 0 by decide)
  have h3 := Nat.mod_lt (ac 3) (show 256 > 0 by decide)
  have h4 := Nat.mod_lt (ac 4) (show 256 > 0 by decide)
  have h5 := Nat.mod_lt (ac 5) (show 256 > 0 by decide)
  have h6 := Nat.mod_lt (ac 6) (show 256 > 0 by decide)
  have h7 := Nat.mod_lt (ac 7) (show 256 > 0 by decide)
  constructor
  · rintro ⟨ha, hb⟩
    constructor <;> omega
  · rintro ⟨⟨a0, a1, a2, a3⟩, ⟨a4, a5, a6, a7⟩⟩
    simp only [a0, a1, a2, a3, a4, a5, a6, a7]
    constructor <;> decide

theorem testBit_div (x i : Nat) : x.testBit i = decide (x / 2 ^ i % 2 = 1) :=
  Nat.testBit_to_div_mod

/-- With signed plain `char`, the first comparison of `isExactBearoff` never holds:
the low byte 0xCC of 73457356 is a negative `char`, and its sign extension sets
every higher bit of the assembled value. -/
theorem leInt32_signed_ne_magic (ac : Nat → Nat) : leInt32 true ac 0 ≠ 73457356 := by
  intro h
  rw [leInt32_eq] at h
  set V := bits32 (charToInt true (ac 0)) ||| bits32 (charToInt true (ac (0 + 1)) * 256)
      ||| bits32 (charToInt true (ac (0 + 2)) * 65536)
      ||| bits32 (charToInt true (ac (0 + 3)) * 16777216) with hV
  have hlt : V < 4294967296 :=
    or_lt_32 _ _ (or_lt_32 _ _ (or_lt_32 _ _ (bits32_lt _) (bits32_lt _)) (bits32_lt _))
      (bits32_lt _)
  have hVeq : V = 73457356 := by unfold wrapInt at h; omega
  have hb := Nat.mod_lt (ac 0) (show 256 > 0 by decide)
  by_cases hs : 128 ≤ ac 0 % 256
  · have e0 : bits32 (charToInt true (ac 0)) = 4294967040 + ac 0 % 256 := by
      rw [charToInt_signed_high _ hs]; unfold bits32; omega
    have ht : V.testBit 31 = true := by
      rw [hV]
      simp only [Nat.testBit_or, e0]
      simp only [Bool.or_eq_true]
      left; left; left
      rw [testBit_div]
      simp only [decide_eq_true_eq]
      omega
    have := Nat.testBit_implies_ge ht
    norm_num at this
    omega
  · have e0 : bits32 (charToInt true (ac 0)) = ac 0 % 256 := by
      rw [charToInt_signed_low _ hs]; unfold bits32; omega
    have ht : V.testBit 7 = false := by
      rw [hV]
      simp only [Nat.testBit_or, e0]
      simp only [Bool.or_eq_false_iff, testBit_div, decide_eq_false_iff_not, bits32]
      refine ⟨⟨⟨?_, ?_⟩, ?_⟩, ?_⟩ <;> omega
    rw [hVeq] at ht
    exact absurd ht (by decide)

theorem isExactBearoff_signed (ac : Nat → Nat) : isExactBearoff true ac = false := by
  unfold isExactBearoff
  have := leInt32_signed_ne_magic ac
  simp [this]

/-- C4: on a platform whose plain `char` is signed, `isExactBearoff` rejects the
header that holds the little-endian encodings of 73457356 (CC DE 60 04) and of
100: the bytes CC and DE are negative `char`s, the assembled `id` is -52. -/
theorem isExactBearoff_rejects_magic_signed_char :
    leInt32 true (fun i => [204, 222, 96, 4, 100, 0, 0, 0].getD i 0) 0 = -52 ∧
    isExactBearoff true (fun i => [204, 222, 96, 4, 100, 0, 0, 0].getD i 0) = false := by
  constructor <;> decide

theorem ReadIntoMemory_fields (w : World) (pbc q : bearoffcontext)
    (h : ReadIntoMemory w pbc = some q) :
    q.bt = pbc.bt ∧ q.bc = pbc.bc ∧ q.nPoints = pbc.nPoints ∧ q.nChequers = pbc.nChequers := by
  unfold ReadIntoMemory at h
  split at h
  · simp at h
  · split_ifs at h <;> (simp at h; subst h; simp)

theorem finishInit_fields (w : World) (pbc q : bearoffcontext)
    (h : finishInit w pbc = some q) :
    q.bt = pbc.bt ∧ q.bc = pbc.bc ∧ q.nPoints = pbc.nPoints ∧ q.nChequers = pbc.nChequers := by
  unfold finishInit at h
  split_ifs at h
  · split at h
    · simp at h
    · split at h
      · simp at h
      · rename_i pbc2 hr
        simp at h
        subst h
        exact ReadIntoMemory_fields w pbc pbc2 hr
  · simp at h
    subst h
    simp

/-- A context whose descriptor is `-1` cannot be read into memory: `fstat` fails. -/
theorem finishInit_closed_descriptor (w : World) (pbc : bearoffcontext)
    (hh : pbc.h = -1) (hm : pbc.fInMemory ≠ 0) : finishInit w pbc = none := by
  unfold finishInit
  simp [hh, hm]

/-- What the native case returns: the creator is GNU Backgammon, the subtype is the
one selected by the tag at offset 6, and the geometry is either validated
(two-sided, one-sided) or that of hypergammon (25 points). -/
theorem initNative_some (w : World) (pbc q : bearoffcontext) (hdr : List Nat)
    (h : initNative w pbc hdr = some q) :
    q.bc = .BEAROFF_GNUBG ∧
    (((hdr.getD 6 0 % 256 = 84 ∧ hdr.getD 7 0 % 256 = 83) ∧ q.bt = .BEAROFF_TWOSIDED ∧
        q.nPoints = atoi (hdr.drop 9) ∧ q.nChequers = atoi (hdr.drop 12) ∧
        1 ≤ q.nPoints ∧ q.nPoints < 24 ∧ 1 ≤ q.nChequers ∧ q.nChequers ≤ 15) ∨
     (¬ (hdr.getD 6 0 % 256 = 84 ∧ hdr.getD 7 0 % 256 = 83) ∧
        (hdr.getD 6 0 % 256 = 79 ∧ hdr.getD 7 0 % 256 = 83) ∧ q.bt = .BEAROFF_ONESIDED ∧
        q.nPoints = atoi (hdr.drop 9) ∧ q.nChequers = atoi (hdr.drop 12) ∧
        1 ≤ q.nPoints ∧ q.nPoints < 24 ∧ 1 ≤ q.nChequers ∧ q.nChequers ≤ 15) ∨
     (¬ (hdr.getD 6 0 % 256 = 84 ∧ hdr.getD 7 0 % 256 = 83) ∧
        ¬ (hdr.getD 6 0 % 256 = 79 ∧ hdr.getD 7 0 % 256 = 83) ∧
        hdr.getD 6 0 % 256 = 72 ∧ q.bt = .BEAROFF_HYPERGAMMON ∧
        q.nPoints = 25 ∧ q.nChequers = atoi (hdr.drop 7))) := by
  unfold initNative at h
  by_cases hp : atoi (hdr.drop 9) < 1 ∨ atoi (hdr.drop 9) ≥ 24
  · by_cases hTS : hdr.getD 6 0 % 256 = 84 ∧ hdr.getD 7 0 % 256 = 83
    · simp [hTS, hp, -List.getD_eq_getElem?_getD] at h
    · by_cases hOS : hdr.getD 6 0 % 256 = 79 ∧ hdr.getD 7 0 % 256 = 83
      · simp [hTS, hOS, hp, -List.getD_eq_getElem?_getD] at h
      · by_cases hH : hdr.getD 6 0 % 256 = 72
        · simp [hTS, hOS, hH, -List.getD_eq_getElem?_getD] at h
          obtain ⟨e1, e2, e3, e4⟩ := finishInit_fields w _ q h
          exact ⟨e2, Or.inr (Or.inr ⟨hTS, hOS, hH, e1, e3, e4⟩)⟩
        · simp [hTS, hOS, hH, -List.getD_eq_getElem?_getD] at h
  · by_cases hq : atoi (hdr.drop 12) < 1 ∨ atoi (hdr.drop 12) > 15
    · by_cases hTS : hdr.getD 6 0 % 256 = 84 ∧ hdr.getD 7 0 % 256 = 83
      · simp [hTS, hp, hq, -List.getD_eq_getElem?_getD] at h
      · by_cases hOS : hdr.getD 6 0 % 256 = 79 ∧ hdr.getD 7 0 % 256 = 83
        · simp [hTS, hOS, hp, hq, -List.getD_eq_getElem?_getD] at h
        · by_cases hH : hdr.getD 6 0 % 256 = 72
          · simp [hTS, hOS, hH, -List.getD_eq_getElem?_getD] at h
            obtain ⟨e1, e2, e3, e4⟩ := finishInit_fields w _ q h
            exact ⟨e2, Or.inr (Or.inr ⟨hTS, hOS, hH, e1, e3, e4⟩)⟩
          · simp [hTS, hOS, hH, -List.getD_eq_getElem?_getD] at h
    · by_cases hTS : hdr.getD 6 0 % 256 = 84 ∧ hdr.getD 7 0 % 256 = 83
      · simp [hTS, hp, hq, -List.getD_eq_getElem?_getD] at h
        obtain ⟨e1, e2, e3, e4⟩ := finishInit_fields w _ q h
        simp only [] at e1 e2 e3 e4
        refine ⟨e2, Or.inl ⟨hTS, e1, e3, e4, ?_, ?_, ?_, ?_⟩⟩ <;> omega
      · by_cases hOS : hdr.getD 6 0 % 256 = 79 ∧ hdr.getD 7 0 % 256 = 83
        · simp [hTS, hOS, hp, hq, -List.getD_eq_getElem?_getD] at h
          obtain ⟨e1, e2, e3, e4⟩ := finishInit_fields w _ q h
          simp only [] at e1 e2 e3 e4
          refine ⟨e2, Or.inr (Or.inl ⟨hTS, hOS, e1, e3, e4, ?_, ?_, ?_, ?_⟩)⟩ <;> omega
        · by_cases hH : hdr.getD 6 0 % 256 = 72
          · simp [hTS, hOS, hH, -List.getD_eq_getElem?_getD] at h
            obtain ⟨e1, e2, e3, e4⟩ := finishInit_fields w _ q h
            exact ⟨e2, Or.inr (Or.inr ⟨hTS, hOS, hH, e1, e3, e4⟩)⟩
          · simp [hTS, hOS, hH, -List.getD_eq_getElem?_getD] at h

/-- The third-party case never yields a context: the context is re-allocated, so
its descriptor is `-1` when the file is to be read into memory. -/
theorem initExact_none (s : Bool) (w : World) (sz : Nat → Nat) : initExact s w sz = none := by
  unfold initExact
  split_ifs
  · apply finishInit_closed_descriptor
    · rfl
    · simp
  · rfl

theorem take_getD (bytes : List Nat) (i : Nat) (hi : i < 40) :
    (bytes.take 40).getD i 0 = bytes.getD i 0 := by
  simp [List.getD_eq_getElem?_getD, List.getElem?_take, hi]

/-- A successful open without the heuristic option comes from the native case. -/
theorem BearoffInit_file (s : Bool) (E : Externals) (w : World) (name : String) (bo : Nat)
    (q : bearoffcontext) (hbo : bo &&& E.BO_HEURISTIC = 0)
    (h : BearoffInit s E w (some name) bo = .ok (some q)) :
    ∃ bytes pbc0, (if w.openFile name < 0 then none else w.files (w.openFile name)) = some bytes ∧
      40 ≤ bytes.length ∧ startsWithGnubg bytes ∧ initNative w pbc0 (bytes.take 40) = some q := by
  unfold BearoffInit at h
  simp only [hbo, ne_eq, not_true_eq_false, if_false] at h
  by_cases h1 : name = ""
  · simp [h1] at h
  by_cases h2 : w.contextAlloc 0 = true
  swap
  · simp [h1, h2] at h
  simp only [h1, h2, not_true_eq_false, if_false] at h
  split at h
  · simp at h
  · rename_i bytes hb
    by_cases h3 : bytes.length < 40
    · simp [h3] at h
    simp only [h3, if_false] at h
    split_ifs at h with h4 h5
    · simp only [Except.ok.injEq] at h
      refine ⟨bytes, _, hb, by omega, ?_, h⟩
      unfold startsWithGnubg
      rw [← take_getD bytes 0 (by decide), ← take_getD bytes 1 (by decide),
        ← take_getD bytes 2 (by decide), ← take_getD bytes 3 (by decide),
        ← take_getD bytes 4 (by decide)]
      exact h4
    · simp only [Except.ok.injEq, initExact_none] at h
      simp at h
    · simp at h

/-- What the open returns when the file is not recognised or the tag is illegal. -/
theorem BearoffInit_file_none (s : Bool) (E : Externals) (w : World) (name : String) (bo : Nat)
    (bytes : List Nat) (hbo : bo &&& E.BO_HEURISTIC = 0)
    (hopen : (if w.openFile name < 0 then none else w.files (w.openFile name)) = some bytes)
    (hno : ∀ pbc0, startsWithGnubg bytes → initNative w pbc0 (bytes.take 40) = none) :
    BearoffInit s E w (some name) bo = .ok none := by
  unfold BearoffInit
  simp only [hbo, ne_eq, not_true_eq_false, if_false, hopen]
  by_cases h1 : name = ""
  · simp [h1]
  by_cases h2 : w.contextAlloc 0 = true
  swap
  · simp [h1, h2]
  simp only [h1, h2, not_true_eq_false, if_false]
  by_cases h3 : bytes.length < 40
  · simp [h3]
  simp only [h3, if_false]
  split_ifs with h4 h5
  · rw [hno]
    unfold startsWithGnubg
    rw [← take_getD bytes 0 (by decide), ← take_getD bytes 1 (by decide),
      ← take_getD bytes 2 (by decide), ← take_getD bytes 3 (by decide),
      ← take_getD bytes 4 (by decide)]
    exact h4
  · rw [initExact_none]
  · rfl

theorem initNative_none_of_tag (w : World) (pbc : bearoffcontext) (hdr : List Nat)
    (hTS : ¬ (hdr.getD 6 0 % 256 = 84 ∧ hdr.getD 7 0 % 256 = 83))
    (hOS : ¬ (hdr.getD 6 0 % 256 = 79 ∧ hdr.getD 7 0 % 256 = 83))
    (hH : hdr.getD 6 0 % 256 ≠ 72) : initNative w pbc hdr = none := by
  cases h : initNative w pbc hdr with
  | none => rfl
  | some q =>
    exfalso
    obtain ⟨_, h1 | h1 | h1⟩ := initNative_some w pbc q hdr h
    · exact hTS h1.1
    · exact hOS h1.2.1
    · exact hH h1.2.2.1

theorem initNative_none_of_geometry (w : World) (pbc : bearoffcontext) (hdr : List Nat)
    (htag : (hdr.getD 6 0 % 256 = 84 ∨ hdr.getD 6 0 % 256 = 79) ∧ hdr.getD 7 0 % 256 = 83)
    (hbad : ¬ (1 ≤ atoi (hdr.drop 9) ∧ atoi (hdr.drop 9) < 24 ∧
      1 ≤ atoi (hdr.drop 12) ∧ atoi (hdr.drop 12) ≤ 15)) : initNative w pbc hdr = none := by
  cases h : initNative w pbc hdr with
  | none => rfl
  | some q =>
    exfalso
    obtain ⟨_, h1 | h1 | h1⟩ := initNative_some w pbc q hdr h
    · obtain ⟨_, _, e3, e4, b1, b2, b3, b4⟩ := h1
      rw [e3] at b1 b2; rw [e4] at b3 b4
      exact hbad ⟨b1, b2, b3, b4⟩
    · obtain ⟨_, _, _, e3, e4, b1, b2, b3, b4⟩ := h1
      rw [e3] at b1 b2; rw [e4] at b3 b4
      exact hbad ⟨b1, b2, b3, b4⟩
    · obtain ⟨_, _, hH, _⟩ := h1
      omega

/-- C5: for a file opened without the heuristic option whose first bytes are
`bytes`: if the header starts with "gnubg", every context returned is native,
two-sided when bytes 6..7 are "TS", one-sided when they are "OS", hypergammon
when byte 6 is 'H', and the open fails (NULL) for any other tag; if the header
does not start with "gnubg" and does not carry the third-party magic, the open
fails. -/
theorem BearoffInit_header_detection (s : Bool) (E : Externals) (w : World) (name : String)
    (bo : Nat) (bytes : List Nat) (hbo : bo &&& E.BO_HEURISTIC = 0)
    (hopen : (if w.openFile name < 0 then none else w.files (w.openFile name)) = some bytes) :
    (startsWithGnubg bytes →
      (∀ pbc, BearoffInit s E w (some name) bo = .ok (some pbc) →
        pbc.bc = .BEAROFF_GNUBG ∧
        (bytes.getD 6 0 % 256 = 84 ∧ bytes.getD 7 0 % 256 = 83 → pbc.bt = .BEAROFF_TWOSIDED) ∧
        (bytes.getD 6 0 % 256 = 79 ∧ bytes.getD 7 0 % 256 = 83 → pbc.bt = .BEAROFF_ONESIDED) ∧
        (bytes.getD 6 0 % 256 = 72 → pbc.bt = .BEAROFF_HYPERGAMMON)) ∧
      (¬ (bytes.getD 6 0 % 256 = 84 ∧ bytes.getD 7 0 % 256 = 83) →
        ¬ (bytes.getD 6 0 % 256 = 79 ∧ bytes.getD 7 0 % 256 = 83) →
        bytes.getD 6 0 % 256 ≠ 72 → BearoffInit s E w (some name) bo = .ok none)) ∧
    (¬ startsWithGnubg bytes → ¬ hasExactMagic bytes →
      BearoffInit s E w (some name) bo = .ok none) := by
  refine ⟨fun _ => ⟨?_, ?_⟩, ?_⟩
  · intro pbc h
    obtain ⟨bytes2, pbc0, hopen2, _, _, hn⟩ := BearoffInit_file s E w name bo pbc hbo h
    rw [hopen] at hopen2
    cases hopen2
    obtain ⟨hbc, h1 | h1 | h1⟩ := initNative_some w pbc0 pbc _ hn
    all_goals
      rw [take_getD bytes 6 (by decide), take_getD bytes 7 (by decide)] at h1
    · refine ⟨hbc, fun _ => h1.2.1, fun h2 => ?_, fun h2 => ?_⟩ <;> omega
    · refine ⟨hbc, fun h2 => absurd h2 h1.1, fun _ => h1.2.2.1, fun h2 => ?_⟩
      omega
    · exact ⟨hbc, fun h2 => absurd h2 h1.1, fun h2 => absurd h2 h1.2.1, fun _ => h1.2.2.2.1⟩
  · intro hTS hOS hH
    apply BearoffInit_file_none s E w name bo bytes hbo hopen
    intro pbc0 _
    apply initNative_none_of_tag
    · rwa [take_getD bytes 6 (by decide), take_getD bytes 7 (by decide)]
    · rwa [take_getD bytes 6 (by decide), take_getD bytes 7 (by decide)]
    · rwa [take_getD bytes 6 (by decide)]
  · intro hg _
    apply BearoffInit_file_none s E w name bo bytes hbo hopen
    intro pbc0 hg2
    exact absurd hg2 hg

/-- C5, instance: the header "gnubg-TS-06-06-1" is opened as a native two-sided
database. -/
theorem BearoffInit_header_detection_witness :
    ∃ pbc, BearoffInit true idZeroExternals (worldWithFile headerTS) (some "f") 0
        = .ok (some pbc) ∧
      pbc.bc = .BEAROFF_GNUBG ∧
      (headerTS.getD 6 0 % 256 = 84 ∧ headerTS.getD 7 0 % 256 = 83 →
        pbc.bt = .BEAROFF_TWOSIDED) ∧
      (headerTS.getD 6 0 % 256 = 79 ∧ headerTS.getD 7 0 % 256 = 83 →
        pbc.bt = .BEAROFF_ONESIDED) ∧
      (headerTS.getD 6 0 % 256 = 72 → pbc.bt = .BEAROFF_HYPERGAMMON) :=
  ⟨_, rfl,
    ((BearoffInit_header_detection true idZeroExternals (worldWithFile headerTS) "f" 0 headerTS
      (by decide) (by decide)).1 (by unfold startsWithGnubg; decide)).1 _ rfl⟩

/-- C6 (as implemented): every context returned by `BearoffInit` is either
two-sided or one-sided with `nPoints` in [1,24) and `nChequers` in [1,15]
(native two-sided and one-sided headers, and the heuristic option), or a
hypergammon context with `nPoints = 25`; a native two-sided or one-sided
header whose points or chequers field is outside these bounds makes the open
fail. -/
theorem BearoffInit_geometry (s : Bool) (E : Externals) (w : World)
    (szFilename : Option String) (bo : Nat) :
    (∀ pbc, BearoffInit s E w szFilename bo = .ok (some pbc) →
      ((pbc.bt = .BEAROFF_TWOSIDED ∨ pbc.bt = .BEAROFF_ONESIDED) ∧
        1 ≤ pbc.nPoints ∧ pbc.nPoints < 24 ∧ 1 ≤ pbc.nChequers ∧ pbc.nChequers ≤ 15) ∨
      (pbc.bt = .BEAROFF_HYPERGAMMON ∧ pbc.nPoints = 25)) ∧
    (∀ name bytes, szFilename = some name → bo &&& E.BO_HEURISTIC = 0 →
      (if w.openFile name < 0 then none else w.files (w.openFile name)) = some bytes →
      startsWithGnubg bytes →
      (bytes.getD 6 0 % 256 = 84 ∨ bytes.getD 6 0 % 256 = 79) ∧ bytes.getD 7 0 % 256 = 83 →
      ¬ (1 ≤ atoi ((bytes.take 40).drop 9) ∧ atoi ((bytes.take 40).drop 9) < 24 ∧
        1 ≤ atoi ((bytes.take 40).drop 12) ∧ atoi ((bytes.take 40).drop 12) ≤ 15) →
      BearoffInit s E w szFilename bo = .ok none) := by
  constructor
  · intro pbc h
    by_cases hbo : bo &&& E.BO_HEURISTIC = 0
    · cases szFilename with
      | none => simp [BearoffInit, hbo] at h
      | some name =>
        obtain ⟨bytes, pbc0, _, _, _, hn⟩ := BearoffInit_file s E w name bo pbc hbo h
        obtain ⟨_, h1 | h1 | h1⟩ := initNative_some w pbc0 pbc _ hn
        · exact Or.inl ⟨Or.inl h1.2.1, h1.2.2.2.2⟩
        · exact Or.inl ⟨Or.inr h1.2.2.1, h1.2.2.2.2.2⟩
        · exact Or.inr ⟨h1.2.2.2.1, h1.2.2.2.2.1⟩
    · unfold BearoffInit at h
      simp only [ne_eq, hbo, not_false_eq_true, if_true] at h
      split_ifs at h
      · split at h
        · simp at h
        · simp only [Except.ok.injEq, Option.some.injEq] at h
          subst h
          left
          simp
      · simp at h
  · intro name bytes hname hbo hopen _ htag hbad
    subst hname
    apply BearoffInit_file_none s E w name bo bytes hbo hopen
    intro pbc0 _
    apply initNative_none_of_geometry
    · rwa [take_getD bytes 6 (by decide), take_getD bytes 7 (by decide)]
    · exact hbad

/-- C6, instance: the header "gnubg-TS-06-06-1" is opened with 6 points and 6
chequers. -/
theorem BearoffInit_geometry_witness :
    ∃ pbc, BearoffInit true idZeroExternals (worldWithFile headerTS) (some "f") 0
        = .ok (some pbc) ∧
      (((pbc.bt = .BEAROFF_TWOSIDED ∨ pbc.bt = .BEAROFF_ONESIDED) ∧
        1 ≤ pbc.nPoints ∧ pbc.nPoints < 24 ∧ 1 ≤ pbc.nChequers ∧ pbc.nChequers ≤ 15) ∨
      (pbc.bt = .BEAROFF_HYPERGAMMON ∧ pbc.nPoints = 25)) :=
  ⟨_, rfl,
    (BearoffInit_geometry true idZeroExternals (worldWithFile headerTS) (some "f") 0).1 _ rfl⟩

/-- C6 (as stated) fails: the native hypergammon header "gnubg-H3" is opened
successfully with `nPoints = 25`, outside [1,24). -/
theorem BearoffInit_hypergammon_25_points :
    ∃ pbc, BearoffInit true idZeroExternals (worldWithFile headerH3) (some "f") 0
        = .ok (some pbc) ∧
      pbc.bt = .BEAROFF_HYPERGAMMON ∧ pbc.nPoints = 25 ∧ ¬ (pbc.nPoints < 24) :=
  ⟨_, rfl, rfl, rfl, by decide⟩

/-! ## Applicability -/

/-- C7: for a one-sided context with 23 points and 15 chequers, and the
enumerators in declaration order, `isBearoff` accepts the board on which each
side has one chequer on the point of index 12, although the two rearmost
indices sum to 24 > 22 (a contact position). -/
theorem isBearoff_accepts_contact_position :
    rearmost (oneChequerEach 12 0) 25 + rearmost (oneChequerEach 12 1) 25 = 24 ∧
    isBearoff btDeclared (some (memoryContext 23 15 0 0 [])) (oneChequerEach 12) = true := by
  constructor <;> decide

/-! ## One-sided evaluation -/

theorem foldl_add_eq_sum (f : Nat → ℚ) :
    ∀ (n : Nat) (r0 : ℚ),
      (List.range n).foldl (fun (r : ℚ) (k : Nat) => r + f k) r0
        = r0 + ∑ k ∈ Finset.range n, f k := by
  intro n
  induction n with
  | zero => intro r0; simp
  | succ n ih =>
    intro r0
    rw [List.range_succ, List.foldl_append, ih, Finset.sum_range_succ]
    simp only [List.foldl_cons, List.foldl_nil]
    ring

theorem foldl_acc_eq_sum (g : Nat → ℚ) (step : ℚ → Nat → ℚ)
    (hstep : ∀ r i, step r i = r + g i) :
    ∀ (n : Nat) (r0 : ℚ),
      (List.range n).foldl step r0 = r0 + ∑ i ∈ Finset.range n, g i := by
  intro n
  induction n with
  | zero => intro r0; simp
  | succ n ih =>
    intro r0
    rw [List.range_succ, List.foldl_append, ih, Finset.sum_range_succ]
    simp only [List.foldl_cons, List.foldl_nil, hstep]
    ring

/-- The accumulation loops compute the sum of `a[i] * b[j]` over `i + d <= j <= 31`. -/
theorem raceSum_eq (d : Nat) (a b : Nat → ℚ) :
    raceSum d a b = ∑ i ∈ Finset.range 32, ∑ j ∈ Finset.Ico (i + d) 32, a i * b j := by
  unfold raceSum
  rw [foldl_acc_eq_sum (fun i => ∑ j ∈ Finset.Ico (i + d) 32, a i * b j)]
  · simp
  · intro r i
    rw [foldl_add_eq_sum, Finset.sum_Ico_eq_sum_range]

theorem raceSum_zero_eq (a b : Nat → ℚ) :
    raceSum 0 a b = ∑ i ∈ Finset.range 32, ∑ j ∈ Finset.Icc i 31, a i * b j := by
  rw [raceSum_eq]
  apply Finset.sum_congr rfl
  intro i _
  apply Finset.sum_congr _ (fun _ _ => rfl)
  ext j
  simp only [Finset.mem_Ico, Finset.mem_Icc]
  omega

theorem raceSum_one_eq (a b : Nat → ℚ) :
    raceSum 1 a b = ∑ i ∈ Finset.range 32, ∑ j ∈ Finset.Ioc i 31, a i * b j := by
  rw [raceSum_eq]
  apply Finset.sum_congr rfl
  intro i _
  apply Finset.sum_congr _ (fun _ _ => rfl)
  ext j
  simp only [Finset.mem_Ico, Finset.mem_Ioc]
  omega

theorem foldl_int_eq_sum (f : Nat → Int) :
    ∀ (n : Nat) (r0 : Int),
      (List.range n).foldl (fun (t : Int) (j : Nat) => t + f j) r0
        = r0 + ∑ k ∈ Finset.range n, f k := by
  intro n
  induction n with
  | zero => intro r0; simp
  | succ n ih =>
    intro r0
    rw [List.range_succ, List.foldl_append, ih, Finset.sum_range_succ]
    simp only [List.foldl_cons, List.foldl_nil]
    ring

/-- A distribution read changes nothing in the context but the read counter. -/
theorem BearoffDist_fields (E : Externals) (w : World) (pbc q : bearoffcontext) (n : Nat)
    (d : Dist) (h : BearoffDist E w pbc n = .ok (q, d)) :
    q = { pbc with nReads := pbc.nReads + 1 } := by
  unfold BearoffDist at h
  split at h
  · split_ifs at h
    · unfold ReadBearoffOneSidedND at h
      split at h
      · simp at h
      · split_ifs at h
        simp only [Except.ok.injEq, Prod.mk.injEq] at h
        exact h.1.symm
    · unfold ReadBearoffOneSidedExact at h
      simp only [] at h
      split at h
      · simp at h
      · simp only [Except.ok.injEq, Prod.mk.injEq] at h
        exact h.1.symm
  · simp at h

/-- In an exact (not normal-approximated) context each histogram entry is the
16-bit value divided by 65535. -/
theorem BearoffDist_exact_hist (E : Externals) (w : World) (pbc q : bearoffcontext) (n : Nat)
    (d : Dist) (hnd : pbc.fND = 0) (h : BearoffDist E w pbc n = .ok (q, d)) :
    (∀ k, d.arProb k = (d.ausProb k : ℚ) / 65535) ∧
    (∀ k, d.arGammonProb k = (d.ausGammonProb k : ℚ) / 65535) := by
  unfold BearoffDist at h
  split at h
  · split_ifs at h with hbt hnd2
    · exact absurd hnd hnd2
    · unfold ReadBearoffOneSidedExact at h
      simp only [] at h
      split at h
      · simp at h
      · simp only [Except.ok.injEq, Prod.mk.injEq] at h
        rw [← h.2]
        exact ⟨fun _ => rfl, fun _ => rfl⟩
  · simp at h

/-- C8: when the two distribution reads succeed, with `d1` the histograms of the
side on roll (`anBoard[1]`) and `d0` those of the other side (`anBoard[0]`),
`BearoffEvalOneSided` can only stop inside `setGammonProb` (context without
gammon data), and whenever it returns, and always in a context with gammon
data, WIN is the sum over `0 <= i <= j <= 31` of `A[i] * B[j]`, `A` and `B`
being the finish histograms of `d1` and `d0`; in an exact context each entry is
the 16-bit value divided by 65535. -/
theorem BearoffEvalOneSided_win (E : Externals) (w : World) (pbc pbcA pbcB : bearoffcontext)
    (anBoard : Nat → Nat → Int) (d0 d1 : Dist)
    (h0 : BearoffDist E w pbc (E.PositionBearoff (anBoard 0) pbc.nPoints pbc.nChequers)
      = .ok (pbcA, d0))
    (h1 : BearoffDist E w pbcA (E.PositionBearoff (anBoard 1) pbcA.nPoints pbcA.nChequers)
      = .ok (pbcB, d1)) :
    (∀ q out, BearoffEvalOneSided E w pbc anBoard = .ok (q, out) →
      out.WIN = ∑ i ∈ Finset.range 32, ∑ j ∈ Finset.Icc i 31, d1.arProb i * d0.arProb j) ∧
    (pbc.fGammon ≠ 0 → ∃ out, BearoffEvalOneSided E w pbc anBoard = .ok (pbcB, out) ∧
      out.WIN = ∑ i ∈ Finset.range 32, ∑ j ∈ Finset.Icc i 31, d1.arProb i * d0.arProb j) ∧
    (∀ e, BearoffEvalOneSided E w pbc anBoard = .error e →
      pbc.fGammon = 0 ∧
      setGammonProb E w anBoard (E.PositionBearoff (anBoard 0) pbc.nPoints pbc.nChequers)
        (E.PositionBearoff (anBoard 1) pbcA.nPoints pbcA.nChequers) = .error e) ∧
    (pbc.fND = 0 →
      (∀ k, d1.arProb k = (d1.ausProb k : ℚ) / 65535) ∧
      (∀ k, d0.arProb k = (d0.ausProb k : ℚ) / 65535)) := by
  have hA := BearoffDist_fields E w pbc pbcA _ d0 h0
  have hB := BearoffDist_fields E w pbcA pbcB _ d1 h1
  have hgB : pbcB.fGammon = pbc.fGammon := by rw [hB, hA]
  have hndA : pbcA.fND = pbc.fND := by rw [hA]
  refine ⟨?_, ?_, ?_, ?_⟩
  · intro q out h
    unfold BearoffEvalOneSided at h
    simp only [h0, h1] at h
    rw [← raceSum_zero_eq]
    split_ifs at h
    · simp only [Except.ok.injEq, Prod.mk.injEq] at h
      rw [← h.2]
    · split at h
      · simp at h
      · simp only [Except.ok.injEq, Prod.mk.injEq] at h
        rw [← h.2]
    · simp only [Except.ok.injEq, Prod.mk.injEq] at h
      rw [← h.2]
  · intro hg
    rw [← hgB] at hg
    unfold BearoffEvalOneSided
    simp only [h0, h1, hg, ne_eq, not_false_eq_true, if_true]
    rw [← raceSum_zero_eq]
    split_ifs
    · exact ⟨_, rfl, rfl⟩
    · exact ⟨_, rfl, rfl⟩
  · intro e h
    unfold BearoffEvalOneSided at h
    simp only [h0, h1] at h
    split_ifs at h with hon hg
    rw [hgB] at hg
    split at h
    · rename_i e2 he
      simp only [Except.error.injEq] at h
      subst h
      exact ⟨by simpa using hg, he⟩
    · simp at h
  · intro hnd
    exact ⟨(BearoffDist_exact_hist E w pbcA pbcB _ d1 (by rw [hndA]; exact hnd) h1).1,
      (BearoffDist_exact_hist E w pbc pbcA _ d0 hnd h0).1⟩

/-- C8, instance: an in-memory database with gammon data, both sides on record 0. -/
theorem BearoffEvalOneSided_win_witness :
    ∃ q d out,
      BearoffDist idZeroExternals (worldWithFile []) (memoryContext 6 15 0 1 impulseDb) 0
        = .ok (q, d) ∧
      BearoffEvalOneSided idZeroExternals (worldWithFile []) (memoryContext 6 15 0 1 impulseDb)
        fifteenOnAce = .ok ({ q with nReads := q.nReads + 1 }, out) ∧
      out.WIN = ∑ i ∈ Finset.range 32, ∑ j ∈ Finset.Icc i 31, d.arProb i * d.arProb j := by
  have h := BearoffEvalOneSided_win idZeroExternals (worldWithFile [])
    (memoryContext 6 15 0 1 impulseDb) _ _ fifteenOnAce _ _ rfl rfl
  obtain ⟨out, ho, hw⟩ := h.2.1 (by decide)
  exact ⟨_, _, out, rfl, ho, hw⟩

/-- The outputs of `BearoffEvalOneSided` in a context with gammon data when a side
has all 15 chequers on the board. -/
theorem evalOneSided_gammon (E : Externals) (w : World) (pbc pbcA pbcB : bearoffcontext)
    (anBoard : Nat → Nat → Int) (d0 d1 : Dist)
    (h0 : BearoffDist E w pbc (E.PositionBearoff (anBoard 0) pbc.nPoints pbc.nChequers)
      = .ok (pbcA, d0))
    (h1 : BearoffDist E w pbcA (E.PositionBearoff (anBoard 1) pbcA.nPoints pbcA.nChequers)
      = .ok (pbcB, d1))
    (hg : pbc.fGammon ≠ 0)
    (hon : (∑ j ∈ Finset.range 25, anBoard 0 j) = 15 ∨ (∑ j ∈ Finset.range 25, anBoard 1 j) = 15) :
    BearoffEvalOneSided E w pbc anBoard = .ok (pbcB,
      { WIN := raceSum 0 d1.arProb d0.arProb
        WINGAMMON := raceSum 0 d1.arProb d0.arGammonProb
        LOSEGAMMON := raceSum 1 d0.arProb d1.arGammonProb
        WINBACKGAMMON := 0
        LOSEBACKGAMMON := 0 }) := by
  have hA := BearoffDist_fields E w pbc pbcA _ d0 h0
  have hB := BearoffDist_fields E w pbcA pbcB _ d1 h1
  have hgB : pbcB.fGammon ≠ 0 := by rw [hB, hA]; exact hg
  unfold BearoffEvalOneSided
  simp only [h0, h1, hgB, ne_eq, not_false_eq_true, if_true, foldl_int_eq_sum, zero_add, hon]

/-- C9: in a context with gammon data, when the two reads succeed and at least one
side has all 15 chequers on the board, `BearoffEvalOneSided` returns with
WIN_GAMMON equal to the sum over `0 <= i <= j <= 31` of `A[i] * Bgammon[j]`,
`A` the finish histogram of the side on roll (`anBoard[1]`) and `Bgammon` the
gammon-save histogram of the other side (`anBoard[0]`). -/
theorem BearoffEvalOneSided_wingammon (E : Externals) (w : World)
    (pbc pbcA pbcB : bearoffcontext) (anBoard : Nat → Nat → Int) (d0 d1 : Dist)
    (h0 : BearoffDist E w pbc (E.PositionBearoff (anBoard 0) pbc.nPoints pbc.nChequers)
      = .ok (pbcA, d0))
    (h1 : BearoffDist E w pbcA (E.PositionBearoff (anBoard 1) pbcA.nPoints pbcA.nChequers)
      = .ok (pbcB, d1))
    (hg : pbc.fGammon ≠ 0)
    (hon : (∑ j ∈ Finset.range 25, anBoard 0 j) = 15 ∨ (∑ j ∈ Finset.range 25, anBoard 1 j) = 15) :
    ∃ out, BearoffEvalOneSided E w pbc anBoard = .ok (pbcB, out) ∧
      out.WINGAMMON
        = ∑ i ∈ Finset.range 32, ∑ j ∈ Finset.Icc i 31, d1.arProb i * d0.arGammonProb j :=
  ⟨_, evalOneSided_gammon E w pbc pbcA pbcB anBoard d0 d1 h0 h1 hg hon,
    raceSum_zero_eq d1.arProb d0.arGammonProb⟩

/-- C9, instance: an in-memory database with gammon data, both sides with 15
chequers on the board and on record 0. -/
theorem BearoffEvalOneSided_wingammon_witness :
    ∃ q d out,
      BearoffDist idZeroExternals (worldWithFile []) (memoryContext 6 15 0 1 impulseDb) 0
        = .ok (q, d) ∧
      BearoffEvalOneSided idZeroExternals (worldWithFile []) (memoryContext 6 15 0 1 impulseDb)
        fifteenOnAce = .ok ({ q with nReads := q.nReads + 1 }, out) ∧
      out.WINGAMMON
        = ∑ i ∈ Finset.range 32, ∑ j ∈ Finset.Icc i 31, d.arProb i * d.arGammonProb j := by
  obtain ⟨out, ho, hw⟩ := BearoffEvalOneSided_wingammon idZeroExternals (worldWithFile [])
    (memoryContext 6 15 0 1 impulseDb) _ _ fifteenOnAce _ _ rfl rfl (by decide)
    (Or.inl (by decide))
  exact ⟨_, _, out, rfl, ho, hw⟩

/-- C10 (as implemented): in a context with gammon data, when the two reads
succeed and at least one side has all 15 chequers on the board,
`BearoffEvalOneSided` returns with LOSE_GAMMON equal to the sum over
`0 <= i < j <= 31` of `B[i] * Agammon[j]`, `B` the finish histogram of the
off-roll side (`anBoard[0]`) and `Agammon` the gammon-save histogram of the side
on roll (`anBoard[1]`). -/
theorem BearoffEvalOneSided_losegammon (E : Externals) (w : World)
    (pbc pbcA pbcB : bearoffcontext) (anBoard : Nat → Nat → Int) (d0 d1 : Dist)
    (h0 : BearoffDist E w pbc (E.PositionBearoff (anBoard 0) pbc.nPoints pbc.nChequers)
      = .ok (pbcA, d0))
    (h1 : BearoffDist E w pbcA (E.PositionBearoff (anBoard 1) pbcA.nPoints pbcA.nChequers)
      = .ok (pbcB, d1))
    (hg : pbc.fGammon ≠ 0)
    (hon : (∑ j ∈ Finset.range 25, anBoard 0 j) = 15 ∨ (∑ j ∈ Finset.range 25, anBoard 1 j) = 15) :
    ∃ out, BearoffEvalOneSided E w pbc anBoard = .ok (pbcB, out) ∧
      out.LOSEGAMMON
        = ∑ i ∈ Finset.range 32, ∑ j ∈ Finset.Ioc i 31, d0.arProb i * d1.arGammonProb j :=
  ⟨_, evalOneSided_gammon E w pbc pbcA pbcB anBoard d0 d1 h0 h1 hg hon,
    raceSum_one_eq d0.arProb d1.arGammonProb⟩

/-- C10, instance: an in-memory database with gammon data, both sides with 15
chequers on the board and on record 0. -/
theorem BearoffEvalOneSided_losegammon_witness :
    ∃ q d out,
      BearoffDist idZeroExternals (worldWithFile []) (memoryContext 6 15 0 1 impulseDb) 0
        = .ok (q, d) ∧
      BearoffEvalOneSided idZeroExternals (worldWithFile []) (memoryContext 6 15 0 1 impulseDb)
        fifteenOnAce = .ok ({ q with nReads := q.nReads + 1 }, out) ∧
      out.LOSEGAMMON
        = ∑ i ∈ Finset.range 32, ∑ j ∈ Finset.Ioc i 31, d.arProb i * d.arGammonProb j := by
  obtain ⟨out, ho, hw⟩ := BearoffEvalOneSided_losegammon idZeroExternals (worldWithFile [])
    (memoryContext 6 15 0 1 impulseDb) _ _ fifteenOnAce _ _ rfl rfl (by decide)
    (Or.inl (by decide))
  exact ⟨_, _, out, rfl, ho, hw⟩

/-- Sum over `i < j` of the product of two unit impulses on the 32 buckets. -/
theorem impulse_sum (f g : Nat → ℚ) (a b : Nat) (ha : a < 32) (hb : b < 32)
    (hf : ∀ i, i < 32 → f i = if i = a then 1 else 0)
    (hg : ∀ i, i < 32 → g i = if i = b then 1 else 0) :
    (∑ i ∈ Finset.range 32, ∑ j ∈ Finset.Ioc i 31, f i * g j) = if a < b then 1 else 0 := by
  rw [Finset.sum_eq_single a]
  · rw [hf a ha, if_pos rfl]
    by_cases hab : a < b
    · rw [if_pos hab, Finset.sum_eq_single b]
      · rw [hg b hb, if_pos rfl]; norm_num
      · intro j hj hne
        have : j < 32 := by have := Finset.mem_Ioc.mp hj; omega
        rw [hg j this, if_neg hne]; norm_num
      · intro hnb
        exact absurd (Finset.mem_Ioc.mpr ⟨hab, by omega⟩) hnb
    · rw [if_neg hab]
      apply Finset.sum_eq_zero
      intro j hj
      have hj2 := Finset.mem_Ioc.mp hj
      rw [hg j (by omega), if_neg (by omega)]; norm_num
  · intro i hi hne
    rw [hf i (Finset.mem_range.mp hi), if_neg hne]
    simp
  · intro hna
    exact absurd (Finset.mem_range.mpr ha) hna

/-- C10 (as stated) fails: with the finish histogram an impulse at bucket 1 and the
gammon-save histogram an impulse at bucket 2 for both sides, the code stores
LOSE_GAMMON = 1, while the sum over `i < j` of `Agammon[i] * B[j]` is 0. -/
theorem BearoffEvalOneSided_losegammon_not_as_stated :
    ∃ q d out,
      BearoffDist idZeroExternals (worldWithFile []) (memoryContext 6 15 0 1 impulseDb) 0
        = .ok (q, d) ∧
      BearoffEvalOneSided idZeroExternals (worldWithFile []) (memoryContext 6 15 0 1 impulseDb)
        fifteenOnAce = .ok ({ q with nReads := q.nReads + 1 }, out) ∧
      out.LOSEGAMMON = 1 ∧
      (∑ i ∈ Finset.range 32, ∑ j ∈ Finset.Ioc i 31, d.arGammonProb i * d.arProb j) = 0 := by
  obtain ⟨q, d, hd, hd2, hf, hg⟩ : ∃ q d,
      BearoffDist idZeroExternals (worldWithFile []) (memoryContext 6 15 0 1 impulseDb) 0
        = .ok (q, d) ∧
      BearoffDist idZeroExternals (worldWithFile []) q
        (idZeroExternals.PositionBearoff (fifteenOnAce 1) q.nPoints q.nChequers)
        = .ok ({ q with nReads := q.nReads + 1 }, d) ∧
      (∀ i, i < 32 → d.ausProb i = if i = 1 then 65535 else 0) ∧
      (∀ i, i < 32 → d.ausGammonProb i = if i = 2 then 65535 else 0) :=
    ⟨_, _, rfl, rfl, by decide, by decide⟩
  obtain ⟨hp, hgp⟩ := BearoffDist_exact_hist _ _ _ _ _ d rfl hd
  have hf2 : ∀ i, i < 32 → d.arProb i = if i = 1 then 1 else 0 := by
    intro i hi
    rw [hp, hf i hi]
    split_ifs <;> norm_num
  have hg2 : ∀ i, i < 32 → d.arGammonProb i = if i = 2 then 1 else 0 := by
    intro i hi
    rw [hgp, hg i hi]
    split_ifs <;> norm_num
  have he := evalOneSided_gammon idZeroExternals (worldWithFile [])
    (memoryContext 6 15 0 1 impulseDb) q _ fifteenOnAce d d hd hd2 (by decide)
    (Or.inl (by decide))
  refine ⟨q, d, _, hd, he, ?_, ?_⟩
  · show raceSum 1 d.arProb d.arGammonProb = 1
    rw [raceSum_one_eq, impulse_sum d.arProb d.arGammonProb 1 2 (by decide) (by decide) hf2 hg2]
    norm_num
  · rw [impulse_sum d.arGammonProb d.arProb 2 1 (by decide) (by decide) hg2 hf2]
    norm_num

/-! ## Checks that are performed -/

theorem rearmost_lt (b : Nat → Int) : ∀ n, rearmost b n < n ∧ -1 ≤ rearmost b n := by
  intro n
  induction n with
  | zero => simp [rearmost]
  | succ n ih =>
    unfold rearmost
    split_ifs
    · constructor <;> push_cast <;> omega
    · constructor <;> push_cast <;> omega

/-- The chequers counted up to the rearmost occupied point are all the chequers. -/
theorem sum_to_rearmost (b : Nat → Int) :
    ∀ n, (∑ i ∈ Finset.range (rearmost b n + 1).toNat, b i) = ∑ i ∈ Finset.range n, b i := by
  intro n
  induction n with
  | zero => simp [rearmost]
  | succ n ih =>
    unfold rearmost
    split_ifs with h
    · have : ((n : Int) + 1).toNat = n + 1 := by omega
      rw [this]
    · rw [Finset.sum_range_succ, ← ih]
      simp only [ne_eq, not_not] at h
      rw [h, add_zero]

/-- The checks that `isBearoff` does perform: when it returns true, each side's
total chequer count is at most `nChequers` and each side's rearmost occupied
point index is below `nPoints`. -/
theorem isBearoff_true_bounds (btValue : bearofftype → Int) (pbc : bearoffcontext)
    (anBoard : Nat → Nat → Int) (h : isBearoff btValue (some pbc) anBoard = true) :
    (∑ j ∈ Finset.range 25, anBoard 1 j) ≤ pbc.nChequers ∧
    (∑ j ∈ Finset.range 25, anBoard 0 j) ≤ pbc.nChequers ∧
    0 ≤ rearmost (anBoard 1) 25 ∧ rearmost (anBoard 1) 25 < pbc.nPoints ∧
    0 ≤ rearmost (anBoard 0) 25 ∧ rearmost (anBoard 0) 25 < pbc.nPoints := by
  unfold isBearoff at h
  simp only [] at h
  split_ifs at h with h1 h2
  all_goals
    simp only [foldl_int_eq_sum, zero_add, decide_eq_true_eq, sum_to_rearmost] at h
    obtain ⟨a, b, c, d⟩ := h
    refine ⟨a, b, ?_, c, ?_, d⟩ <;> omega

/-- The contact test of `isBearoff` has no effect unless
`! pbc->bt == BEAROFF_HYPERGAMMON` holds as C parses it, i.e. unless the
enumerator is 1 and the subtype is the one with value 0, or the enumerator is 0
and the subtype has a non-zero value. -/
theorem isBearoff_contact_test_skipped (btValue : bearofftype → Int) (pbc : bearoffcontext)
    (hne : (if btValue pbc.bt = 0 then (1 : Int) else 0) ≠ btValue .BEAROFF_HYPERGAMMON)
    (hc : 1 ≤ pbc.nChequers) (hp : 12 < pbc.nPoints) :
    isBearoff btValue (some pbc) (oneChequerEach 12) = true := by
  unfold isBearoff
  have h0 : rearmost (oneChequerEach 12 0) 25 = 12 := by decide
  have h1 : rearmost (oneChequerEach 12 1) 25 = 12 := by decide
  have s0 : (∑ j ∈ Finset.range 25, oneChequerEach 12 0 j) = 1 := by decide
  have s1 : (∑ j ∈ Finset.range 25, oneChequerEach 12 1 j) = 1 := by decide
  simp only [foldl_int_eq_sum, zero_add, sum_to_rearmost]
  simp only [s0, s1, h0, h1, hne, and_false, if_false]
  simp
  omega

/-- The sanity check does reject the entries it tests for: the lookup stops at the
assertion. -/
theorem GetDistCompressed_rejects (w : World) (aus : Nat → Nat) (pbc : bearoffcontext)
    (nPosID : Nat) (mem : Nat → Nat) (hm : pbc.fInMemory ≠ 0) (hp : pbc.p = some mem)
    (hs : sanityFails (Combination (pbc.nPoints + pbc.nChequers) pbc.nPoints)
      (indexEntry (fun i => mem (40 + (wrapUInt ((nPosID : Int) * 8)).toNat + i))).1
      (indexEntry (fun i => mem (40 + (wrapUInt ((nPosID : Int) * 8)).toNat + i))).2.1
      (indexEntry (fun i => mem (40 + (wrapUInt ((nPosID : Int) * 8)).toNat + i))).2.2.1
      (indexEntry (fun i => mem (40 + (wrapUInt ((nPosID : Int) * 8)).toNat + i))).2.2.2.1
      (indexEntry (fun i => mem (40 + (wrapUInt ((nPosID : Int) * 8)).toNat + i))).2.2.2.2
      = true) :
    GetDistCompressed w aus pbc nPosID = .error .assertion := by
  unfold GetDistCompressed
  simp only [hm, hp, ne_eq, not_false_eq_true, if_true]
  simp [hs]

/-! ## One-sided evaluation with gammon data: range of the outputs -/

theorem raceSum_nonneg (d : Nat) (a b : Nat → ℚ)
    (ha : ∀ i, i < 32 → 0 ≤ a i) (hb : ∀ i, i < 32 → 0 ≤ b i) : 0 ≤ raceSum d a b := by
  rw [raceSum_eq]
  apply Finset.sum_nonneg
  intro i hi
  apply Finset.sum_nonneg
  intro j hj
  have hj2 := Finset.mem_Ico.mp hj
  exact mul_nonneg (ha i (Finset.mem_range.mp hi)) (hb j hj2.2)

theorem raceSum_le_one (d : Nat) (a b : Nat → ℚ)
    (ha : ∀ i, i < 32 → 0 ≤ a i) (hb : ∀ i, i < 32 → 0 ≤ b i)
    (sa : (∑ i ∈ Finset.range 32, a i) ≤ 1) (sb : (∑ i ∈ Finset.range 32, b i) ≤ 1) :
    raceSum d a b ≤ 1 := by
  rw [raceSum_eq]
  have h1 : (∑ i ∈ Finset.range 32, ∑ j ∈ Finset.Ico (i + d) 32, a i * b j)
      ≤ ∑ i ∈ Finset.range 32, ∑ j ∈ Finset.range 32, a i * b j := by
    apply Finset.sum_le_sum
    intro i hi
    apply Finset.sum_le_sum_of_subset_of_nonneg
    · intro j hj
      have hj2 := Finset.mem_Ico.mp hj
      exact Finset.mem_range.mpr hj2.2
    · intro j hj _
      exact mul_nonneg (ha i (Finset.mem_range.mp hi)) (hb j (Finset.mem_range.mp hj))
  have h2 : (∑ i ∈ Finset.range 32, ∑ j ∈ Finset.range 32, a i * b j)
      = (∑ i ∈ Finset.range 32, a i) * (∑ j ∈ Finset.range 32, b j) := by
    rw [Finset.sum_mul_sum]
  have h3 : 0 ≤ ∑ i ∈ Finset.range 32, a i :=
    Finset.sum_nonneg (fun i hi => ha i (Finset.mem_range.mp hi))
  have h4 : 0 ≤ ∑ i ∈ Finset.range 32, b i :=
    Finset.sum_nonneg (fun i hi => hb i (Finset.mem_range.mp hi))
  calc (∑ i ∈ Finset.range 32, ∑ j ∈ Finset.Ico (i + d) 32, a i * b j)
      ≤ (∑ i ∈ Finset.range 32, a i) * (∑ j ∈ Finset.range 32, b j) := by rw [← h2]; exact h1
    _ ≤ 1 * 1 := mul_le_mul sa sb h4 (by norm_num)
    _ = 1 := by norm_num

/-- The outputs of `BearoffEvalOneSided` in a context with gammon data. -/
theorem evalOneSided_with_gammon (E : Externals) (w : World) (pbc pbcA pbcB : bearoffcontext)
    (anBoard : Nat → Nat → Int) (d0 d1 : Dist)
    (h0 : BearoffDist E w pbc (E.PositionBearoff (anBoard 0) pbc.nPoints pbc.nChequers)
      = .ok (pbcA, d0))
    (h1 : BearoffDist E w pbcA (E.PositionBearoff (anBoard 1) pbcA.nPoints pbcA.nChequers)
      = .ok (pbcB, d1))
    (hg : pbc.fGammon ≠ 0) :
    BearoffEvalOneSided E w pbc anBoard = .ok (pbcB,
      if (∑ j ∈ Finset.range 25, anBoard 0 j) = 15 ∨ (∑ j ∈ Finset.range 25, anBoard 1 j) = 15
      then
        { WIN := raceSum 0 d1.arProb d0.arProb
          WINGAMMON := raceSum 0 d1.arProb d0.arGammonProb
          LOSEGAMMON := raceSum 1 d0.arProb d1.arGammonProb
          WINBACKGAMMON := 0
          LOSEBACKGAMMON := 0 }
      else
        { WIN := raceSum 0 d1.arProb d0.arProb
          WINGAMMON := 0
          LOSEGAMMON := 0
          WINBACKGAMMON := 0
          LOSEBACKGAMMON := 0 }) := by
  have hA := BearoffDist_fields E w pbc pbcA _ d0 h0
  have hB := BearoffDist_fields E w pbcA pbcB _ d1 h1
  have hgB : pbcB.fGammon ≠ 0 := by rw [hB, hA]; exact hg
  unfold BearoffEvalOneSided
  simp only [h0, h1, hgB, ne_eq, not_false_eq_true, if_true, foldl_int_eq_sum, zero_add]
  split_ifs <;> rfl

/-- C11: in a context with gammon data, when the two reads succeed and each of the
four histograms read has non-negative entries summing to at most 1 over the 32
buckets, `BearoffEvalOneSided` returns, each of the five outputs lies in [0,1],
and both backgammon outputs are 0. -/
theorem BearoffEvalOneSided_outputs_in_unit_interval (E : Externals) (w : World)
    (pbc pbcA pbcB : bearoffcontext) (anBoard : Nat → Nat → Int) (d0 d1 : Dist)
    (h0 : BearoffDist E w pbc (E.PositionBearoff (anBoard 0) pbc.nPoints pbc.nChequers)
      = .ok (pbcA, d0))
    (h1 : BearoffDist E w pbcA (E.PositionBearoff (anBoard 1) pbcA.nPoints pbcA.nChequers)
      = .ok (pbcB, d1))
    (hg : pbc.fGammon ≠ 0)
    (p0 : ∀ i, i < 32 → 0 ≤ d0.arProb i) (p1 : ∀ i, i < 32 → 0 ≤ d1.arProb i)
    (g0 : ∀ i, i < 32 → 0 ≤ d0.arGammonProb i) (g1 : ∀ i, i < 32 → 0 ≤ d1.arGammonProb i)
    (sp0 : (∑ i ∈ Finset.range 32, d0.arProb i) ≤ 1)
    (sp1 : (∑ i ∈ Finset.range 32, d1.arProb i) ≤ 1)
    (sg0 : (∑ i ∈ Finset.range 32, d0.arGammonProb i) ≤ 1)
    (sg1 : (∑ i ∈ Finset.range 32, d1.arGammonProb i) ≤ 1) :
    ∃ out, BearoffEvalOneSided E w pbc anBoard = .ok (pbcB, out) ∧
      (0 ≤ out.WIN ∧ out.WIN ≤ 1) ∧ (0 ≤ out.WINGAMMON ∧ out.WINGAMMON ≤ 1) ∧
      (0 ≤ out.LOSEGAMMON ∧ out.LOSEGAMMON ≤ 1) ∧
      (0 ≤ out.WINBACKGAMMON ∧ out.WINBACKGAMMON ≤ 1) ∧
      (0 ≤ out.LOSEBACKGAMMON ∧ out.LOSEBACKGAMMON ≤ 1) ∧
      out.WINBACKGAMMON = 0 ∧ out.LOSEBACKGAMMON = 0 := by
  refine ⟨_, evalOneSided_with_gammon E w pbc pbcA pbcB anBoard d0 d1 h0 h1 hg, ?_⟩
  have w1 := raceSum_nonneg 0 d1.arProb d0.arProb p1 p0
  have w2 := raceSum_le_one 0 d1.arProb d0.arProb p1 p0 sp1 sp0
  have a1 := raceSum_nonneg 0 d1.arProb d0.arGammonProb p1 g0
  have a2 := raceSum_le_one 0 d1.arProb d0.arGammonProb p1 g0 sp1 sg0
  have b1 := raceSum_nonneg 1 d0.arProb d1.arGammonProb p0 g1
  have b2 := raceSum_le_one 1 d0.arProb d1.arGammonProb p0 g1 sp0 sg1
  split_ifs
  · exact ⟨⟨w1, w2⟩, ⟨a1, a2⟩, ⟨b1, b2⟩, by norm_num, by norm_num, rfl, rfl⟩
  · exact ⟨⟨w1, w2⟩, by norm_num, by norm_num, by norm_num, by norm_num, rfl, rfl⟩

/-- The record 0 of `impulseDb`, as read twice in a row: impulses at buckets 1 and 2. -/
theorem impulseDb_reads :
    ∃ q d,
      BearoffDist idZeroExternals (worldWithFile []) (memoryContext 6 15 0 1 impulseDb) 0
        = .ok (q, d) ∧
      BearoffDist idZeroExternals (worldWithFile []) q
        (idZeroExternals.PositionBearoff (fifteenOnAce 1) q.nPoints q.nChequers)
        = .ok ({ q with nReads := q.nReads + 1 }, d) ∧
      (∀ i, i < 32 → d.arProb i = if i = 1 then 1 else 0) ∧
      (∀ i, i < 32 → d.arGammonProb i = if i = 2 then 1 else 0) := by
  obtain ⟨q, d, hd, hd2, hf, hg⟩ : ∃ q d,
      BearoffDist idZeroExternals (worldWithFile []) (memoryContext 6 15 0 1 impulseDb) 0
        = .ok (q, d) ∧
      BearoffDist idZeroExternals (worldWithFile []) q
        (idZeroExternals.PositionBearoff (fifteenOnAce 1) q.nPoints q.nChequers)
        = .ok ({ q with nReads := q.nReads + 1 }, d) ∧
      (∀ i, i < 32 → d.ausProb i = if i = 1 then 65535 else 0) ∧
      (∀ i, i < 32 → d.ausGammonProb i = if i = 2 then 65535 else 0) :=
    ⟨_, _, rfl, rfl, by decide, by decide⟩
  obtain ⟨hp, hgp⟩ := BearoffDist_exact_hist _ _ _ _ _ d rfl hd
  refine ⟨q, d, hd, hd2, ?_, ?_⟩
  · intro i hi
    rw [hp, hf i hi]
    split_ifs <;> norm_num
  · intro i hi
    rw [hgp, hg i hi]
    split_ifs <;> norm_num

theorem impulse_total (f : Nat → ℚ) (a : Nat) (ha : a < 32)
    (hf : ∀ i, i < 32 → f i = if i = a then 1 else 0) :
    (∀ i, i < 32 → 0 ≤ f i) ∧ (∑ i ∈ Finset.range 32, f i) ≤ 1 := by
  constructor
  · intro i hi
    rw [hf i hi]
    split_ifs <;> norm_num
  · rw [Finset.sum_eq_single a]
    · rw [hf a ha, if_pos rfl]
    · intro i hi hne
      rw [hf i (Finset.mem_range.mp hi), if_neg hne]
    · intro hna
      exact absurd (Finset.mem_range.mpr ha) hna

/-- C11, instance: the database whose record 0 holds a finish impulse at bucket 1
and a gammon-save impulse at bucket 2, both sides on record 0. -/
theorem BearoffEvalOneSided_outputs_in_unit_interval_witness :
    ∃ q d out,
      BearoffDist idZeroExternals (worldWithFile []) (memoryContext 6 15 0 1 impulseDb) 0
        = .ok (q, d) ∧
      BearoffEvalOneSided idZeroExternals (worldWithFile []) (memoryContext 6 15 0 1 impulseDb)
        fifteenOnAce = .ok ({ q with nReads := q.nReads + 1 }, out) ∧
      (0 ≤ out.WIN ∧ out.WIN ≤ 1) ∧ (0 ≤ out.WINGAMMON ∧ out.WINGAMMON ≤ 1) ∧
      (0 ≤ out.LOSEGAMMON ∧ out.LOSEGAMMON ≤ 1) ∧
      (0 ≤ out.WINBACKGAMMON ∧ out.WINBACKGAMMON ≤ 1) ∧
      (0 ≤ out.LOSEBACKGAMMON ∧ out.LOSEBACKGAMMON ≤ 1) ∧
      out.WINBACKGAMMON = 0 ∧ out.LOSEBACKGAMMON = 0 := by
  obtain ⟨q, d, hd, hd2, hf, hg⟩ := impulseDb_reads
  obtain ⟨n1, s1⟩ := impulse_total d.arProb 1 (by decide) hf
  obtain ⟨n2, s2⟩ := impulse_total d.arGammonProb 2 (by decide) hg
  obtain ⟨out, ho, hb⟩ := BearoffEvalOneSided_outputs_in_unit_interval idZeroExternals
    (worldWithFile []) (memoryContext 6 15 0 1 impulseDb) q _ fifteenOnAce d d hd hd2
    (by decide) n1 n1 n2 n2 s1 s1 s2 s2
  exact ⟨q, d, out, hd, ho, hb⟩

/-! ## Two-sided evaluation -/

theorem leWord_shift (mem : Nat → Nat) (a j : Nat) :
    leWord (fun i => mem (a + i)) j = leWord mem (a + j) := by
  unfold leWord
  rfl

theorem cubeCount_cases (pbc : bearoffcontext) : cubeCount pbc = 4 ∨ cubeCount pbc = 1 := by
  unfold cubeCount; split_ifs <;> simp

/-- Without overflow the C value of `iPos` is `nUs * n + nThem`. -/
theorem twoSidedPos_exact (E : Externals) (pbc : bearoffcontext) (anBoard : Nat → Nat → Int)
    (hn : 0 ≤ Combination (pbc.nPoints + pbc.nChequers) pbc.nPoints)
    (hu : (E.PositionBearoff (anBoard 1) pbc.nPoints pbc.nChequers : Int) < 2147483648)
    (hb : (E.PositionBearoff (anBoard 1) pbc.nPoints pbc.nChequers : Int)
        * Combination (pbc.nPoints + pbc.nChequers) pbc.nPoints
        + (E.PositionBearoff (anBoard 0) pbc.nPoints pbc.nChequers : Int) < 2147483648) :
    twoSidedPos E pbc anBoard
      = (E.PositionBearoff (anBoard 1) pbc.nPoints pbc.nChequers : Int)
        * Combination (pbc.nPoints + pbc.nChequers) pbc.nPoints
        + (E.PositionBearoff (anBoard 0) pbc.nPoints pbc.nChequers : Int) := by
  unfold twoSidedPos
  have hprod : 0 ≤ (E.PositionBearoff (anBoard 1) pbc.nPoints pbc.nChequers : Int)
      * Combination (pbc.nPoints + pbc.nChequers) pbc.nPoints :=
    mul_nonneg (Int.ofNat_nonneg _) hn
  have h0 : (0 : Int) ≤ (E.PositionBearoff (anBoard 0) pbc.nPoints pbc.nChequers : Int) :=
    Int.ofNat_nonneg _
  have h1 : (0 : Int) ≤ (E.PositionBearoff (anBoard 1) pbc.nPoints pbc.nChequers : Int) :=
    Int.ofNat_nonneg _
  simp only []
  rw [wrapInt_of_range _ h1 hu, wrapInt_of_range _ h0 (by omega),
    wrapInt_of_range _ hprod (by omega), wrapInt_of_range _ (by omega) hb]

/-- C12: for an in-memory two-sided context, `BearoffEvalTwoSided` returns after one
read; with `iPos` the C value of `nUs * n + nThem` (`twoSidedPos`), `k = 4` if
cubeful else 1, and `v` the little-endian 16-bit value of the database at byte
`40 + 2 * iPos * k` (`twoSidedOffset`), the cubeless equity `v / 32767.5 - 1`
lies in [-1,1], WIN is `(cubeless + 1) / 2 = v / 65535`, and the four gammon and
backgammon outputs are 0.  When nothing overflows, `iPos` and the byte offset
are exactly `nUs * n + nThem` and `40 + 2 * iPos * k`. -/
theorem BearoffEvalTwoSided_win (E : Externals) (w : World) (pbc : bearoffcontext)
    (anBoard : Nat → Nat → Int) (mem : Nat → Nat)
    (hm : pbc.fInMemory ≠ 0) (hp : pbc.p = some mem) :
    ∃ (win cubeless : ℚ) (v : Nat),
      v = leWord mem (twoSidedOffset pbc (wrapUInt (twoSidedPos E pbc anBoard)).toNat) ∧
      cubeless = (v : ℚ) / (65535 / 2) - 1 ∧ -1 ≤ cubeless ∧ cubeless ≤ 1 ∧
      BearoffEvalTwoSided E w pbc anBoard
        = .ok ({ pbc with nReads := pbc.nReads + 1 },
            { WIN := win, WINGAMMON := 0, WINBACKGAMMON := 0
              LOSEGAMMON := 0, LOSEBACKGAMMON := 0 }) ∧
      win = (cubeless + 1) / 2 ∧ win = (v : ℚ) / 65535 ∧
      (0 ≤ Combination (pbc.nPoints + pbc.nChequers) pbc.nPoints →
        (E.PositionBearoff (anBoard 1) pbc.nPoints pbc.nChequers : Int) < 2147483648 →
        8 * ((E.PositionBearoff (anBoard 1) pbc.nPoints pbc.nChequers : Int)
          * Combination (pbc.nPoints + pbc.nChequers) pbc.nPoints
          + (E.PositionBearoff (anBoard 0) pbc.nPoints pbc.nChequers : Int)) < 2147483648 →
        twoSidedPos E pbc anBoard
          = (E.PositionBearoff (anBoard 1) pbc.nPoints pbc.nChequers : Int)
            * Combination (pbc.nPoints + pbc.nChequers) pbc.nPoints
            + (E.PositionBearoff (anBoard 0) pbc.nPoints pbc.nChequers : Int) ∧
        (twoSidedOffset pbc (wrapUInt (twoSidedPos E pbc anBoard)).toNat : Int)
          = 40 + 2 * twoSidedPos E pbc anBoard * (cubeCount pbc : Int)) := by
  set v := leWord mem (twoSidedOffset pbc (wrapUInt (twoSidedPos E pbc anBoard)).toNat) with hvdef
  have hv : v < 65536 := leWord_lt _ _
  have hv2 : (v : ℚ) ≤ 65535 := by exact_mod_cast Nat.lt_succ_iff.mp hv
  have hv0 : (0 : ℚ) ≤ (v : ℚ) := Nat.cast_nonneg _
  have hk : 0 < cubeCount pbc := by rcases cubeCount_cases pbc with h | h <;> omega
  refine ⟨((v : ℚ) / (65535 / 2) - 1) / 2 + 1 / 2, (v : ℚ) / (65535 / 2) - 1, v,
    rfl, rfl, ?_, ?_, ?_, ?_, ?_, ?_⟩
  · have : (0 : ℚ) ≤ (v : ℚ) / (65535 / 2) := div_nonneg hv0 (by norm_num)
    show -1 ≤ (v : ℚ) / (65535 / 2) - 1
    linarith
  · have : (v : ℚ) / (65535 / 2) ≤ 2 := by
      rw [div_le_iff₀ (by norm_num)]
      linarith
    show (v : ℚ) / (65535 / 2) - 1 ≤ 1
    linarith
  · unfold BearoffEvalTwoSided ReadTwoSidedBearoff
    simp only [hm, hp, ne_eq, not_false_eq_true, if_true, hk, Nat.mul_zero, leWord_shift,
      Nat.add_zero, ← hvdef, Nat.mod_eq_of_lt hv]
  · show ((v : ℚ) / (65535 / 2) - 1) / 2 + 1 / 2 = ((v : ℚ) / (65535 / 2) - 1 + 1) / 2
    ring
  · show ((v : ℚ) / (65535 / 2) - 1) / 2 + 1 / 2 = (v : ℚ) / 65535
    ring
  · intro hn hu hb
    have h0 : (0 : Int) ≤ (E.PositionBearoff (anBoard 0) pbc.nPoints pbc.nChequers : Int) :=
      Int.ofNat_nonneg _
    have hprod : 0 ≤ (E.PositionBearoff (anBoard 1) pbc.nPoints pbc.nChequers : Int)
        * Combination (pbc.nPoints + pbc.nChequers) pbc.nPoints :=
      mul_nonneg (Int.ofNat_nonneg _) hn
    have hpos := twoSidedPos_exact E pbc anBoard hn hu (by omega)
    refine ⟨hpos, ?_⟩
    unfold twoSidedOffset
    rw [hpos]
    set P := (E.PositionBearoff (anBoard 1) pbc.nPoints pbc.nChequers : Int)
        * Combination (pbc.nPoints + pbc.nChequers) pbc.nPoints
        + (E.PositionBearoff (anBoard 0) pbc.nPoints pbc.nChequers : Int) with hP
    have hP0 : 0 ≤ P := by omega
    have e1 : ((wrapUInt P).toNat : Int) = P := by
      rw [wrapUInt_of_range P hP0 (by omega)]; omega
    rw [e1]
    push_cast
    rcases cubeCount_cases pbc with h4 | h4 <;> rw [h4] <;> push_cast <;>
      rw [wrapUInt_of_range _ (by omega) (by omega)] <;> omega

/-- C12, instance: a cubeful database whose record 0 starts with 0x1234; both
boards have index 0. -/
theorem BearoffEvalTwoSided_win_witness :
    ∃ (win cubeless : ℚ) (v : Nat),
      v = 4660 ∧ cubeless = (v : ℚ) / (65535 / 2) - 1 ∧ -1 ≤ cubeless ∧ cubeless ≤ 1 ∧
      BearoffEvalTwoSided idZeroExternals (worldWithFile []) (twoSidedContext 6 6 twoSidedDb)
          fifteenOnAce
        = .ok ({ twoSidedContext 6 6 twoSidedDb with nReads := 0 + 1 },
            { WIN := win, WINGAMMON := 0, WINBACKGAMMON := 0
              LOSEGAMMON := 0, LOSEBACKGAMMON := 0 }) ∧
      win = (cubeless + 1) / 2 ∧ win = (v : ℚ) / 65535 := by
  obtain ⟨win, cubeless, v, h1, h2, h3, h4, h5, h6, h7, _⟩ :=
    BearoffEvalTwoSided_win idZeroExternals (worldWithFile []) (twoSidedContext 6 6 twoSidedDb)
      fifteenOnAce (bytesOfList twoSidedDb) (by decide) rfl
  have hv : leWord (bytesOfList twoSidedDb)
      (twoSidedOffset (twoSidedContext 6 6 twoSidedDb)
        (wrapUInt (twoSidedPos idZeroExternals (twoSidedContext 6 6 twoSidedDb)
          fifteenOnAce)).toNat) = 4660 := by decide
  exact ⟨win, cubeless, v, by rw [h1, hv], h2, h3, h4, h5, h6, h7⟩

/-! ## Generator: one record -/

theorem recordIndex_eq (a i : Nat) (hi : i < 32) :
    (a <<< 6) ||| (i <<< 1) = 64 * a + 2 * i := by
  rw [Nat.shiftLeft_eq, Nat.shiftLeft_eq]
  have h : i * 2 ^ 1 < 2 ^ 6 := by norm_num; omega
  have := Nat.mul_add_lt_is_or h a
  rw [Nat.mul_comm a (2 ^ 6), ← this]
  norm_num
  ring

theorem recordIndex_succ_eq (a i : Nat) (hi : i < 32) :
    (a <<< 6) ||| (i <<< 1) ||| 1 = 64 * a + 2 * i + 1 := by
  rw [recordIndex_eq a i hi]
  have h : (1 : Nat) < 2 ^ 1 := by norm_num
  have := Nat.mul_add_lt_is_or h (32 * a + i)
  have e : 2 ^ 1 * (32 * a + i) = 64 * a + 2 * i := by ring
  rw [e] at this
  exact this.symm

theorem bucket_lt (p : Nat → Nat) (id k : Nat) : bucket p id k < 65536 := leWord_lt _ _

theorem bucket_eq (p : Nat → Nat) (id k : Nat) :
    bucket p id k = p (64 * id + 2 * k) % 256 + 256 * (p (64 * id + 2 * k + 1) % 256) :=
  leWord_eq _ _

/-- The child value read by the accumulation loop is the stored bucket. -/
theorem child_eq_bucket (p : Nat → Nat) (a i : Nat) (hi : i < 32) :
    p ((a <<< 6) ||| (i <<< 1)) % 256 + ((p ((a <<< 6) ||| (i <<< 1) ||| 1) % 256) <<< 8)
      = bucket p a i := by
  rw [recordIndex_succ_eq a i hi, recordIndex_eq a i hi, bucket_eq, Nat.shiftLeft_eq]
  norm_num
  ring

/-- The accumulation loop of `GenerateBearoff` over a list of rolls whose children
are given by `ids`: every accumulator `aProb[k]`, `1 <= k < 32`, grows by the
weighted sum of the children's bucket `k - 1`. -/
theorem accumulate_eq (E : Externals) (p : Nat → Nat) (nId : Nat) (ids : Nat × Nat → Nat) :
    ∀ (L : List (Nat × Nat)) (a0 : Nat → Int),
      (∀ r, r ∈ L → ∃ b, HeuristicBearoff E (E.PositionFromBearoff nId 6 15) r.1 r.2
          = .ok (b, (ids r : Int)) ∧ ids r < nId) →
      (∀ k, 0 ≤ a0 k ∧ a0 k + 2 * 65535 * (L.length : Int) < 2147483648) →
      L.foldl
        (fun (st : Except ReadError (Nat → Int)) (roll : Nat × Nat) =>
          match st with
          | .error e => .error e
          | .ok aProb =>
            match HeuristicBearoff E (E.PositionFromBearoff nId 6 15) roll.1 roll.2 with
            | .error e => .error e
            | .ok (_, iBest) =>
              if iBest < 0 then .error .assertion
              else if ¬ (iBest < (nId : Int)) then .error .assertion
              else
                let child : Nat → Int := fun i =>
                  ((p ((iBest.toNat <<< 6) ||| (i <<< 1)) % 256
                    + ((p ((iBest.toNat <<< 6) ||| (i <<< 1) ||| 1) % 256) <<< 8) : Nat) : Int)
                .ok (fun k =>
                  if 1 ≤ k ∧ k < 32 then
                    (if roll.1 = roll.2 then wrapInt (aProb k + child (k - 1))
                     else wrapInt (aProb k + wrapInt (child (k - 1) * 2)))
                  else aProb k))
        (.ok a0)
      = .ok (fun k => if 1 ≤ k ∧ k < 32 then
          a0 k + ((L.map (fun r => rollWeight r * bucket p (ids r) (k - 1))).sum : Nat)
          else a0 k) := by
  intro L
  induction L with
  | nil =>
    intro a0 _ _
    simp only [List.foldl_nil, List.map_nil, List.sum_nil, Nat.cast_zero, add_zero, ite_self]
  | cons r L ih =>
    intro a0 H hb
    obtain ⟨b, hH, hlt⟩ := H r (List.mem_cons_self r L)
    simp only [List.foldl_cons, hH]
    have h1 : ¬ ((ids r : Int) < 0) := by omega
    have h2 : ((ids r : Int) < (nId : Int)) := by omega
    simp only [h1, h2, if_false, not_true_eq_false, Int.toNat_ofNat]
    have hlen : ((r :: L).length : Int) = (L.length : Int) + 1 := by simp
    rw [ih _ (fun r2 hr2 => H r2 (List.mem_cons_of_mem r hr2))]
    · congr 1
      funext k
      by_cases hk : 1 ≤ k ∧ k < 32
      · simp only [hk, and_self, if_true, List.map_cons, List.sum_cons]
        have hc := child_eq_bucket p (ids r) (k - 1) (by omega)
        rw [hc]
        have hbk := bucket_lt p (ids r) (k - 1)
        have ha := hb k
        rw [hlen] at ha
        unfold rollWeight
        split_ifs
        · rw [wrapInt_of_range _ (by omega) (by omega)]
          push_cast
          ring
        · rw [wrapInt_of_range ((bucket p (ids r) (k - 1) : Int) * 2) (by omega) (by omega),
            wrapInt_of_range _ (by omega) (by omega)]
          push_cast
          ring
      · simp only [hk, if_false]
    · intro k
      have ha := hb k
      rw [hlen] at ha
      by_cases hk : 1 ≤ k ∧ k < 32
      · simp only [hk, and_self, if_true]
        have hc := child_eq_bucket p (ids r) (k - 1) (by omega)
        rw [hc]
        have hbk := bucket_lt p (ids r) (k - 1)
        split_ifs
        · rw [wrapInt_of_range _ (by omega) (by omega)]
          omega
        · rw [wrapInt_of_range ((bucket p (ids r) (k - 1) : Int) * 2) (by omega) (by omega),
            wrapInt_of_range _ (by omega) (by omega)]
          omega
      · simp only [hk, if_false]
        omega

/-- The store loop of `GenerateBearoff`: after `n <= 32` passes the bytes of the
first `n` buckets of record `nId` hold the low and high bytes of `us`, and
every other byte is as before. -/
theorem storeLoop_eq (p : Nat → Nat) (nId : Nat) (us : Nat → Nat) :
    ∀ n, n ≤ 32 →
      (List.range n).foldl
        (fun (q : Nat → Nat) (i : Nat) =>
          Function.update
            (Function.update q ((nId <<< 6) ||| (i <<< 1)) (us i % 256))
            ((nId <<< 6) ||| (i <<< 1) ||| 1) (us i >>> 8)) p
      = fun j => if 64 * nId ≤ j ∧ j < 64 * nId + 2 * n then
          (if (j - 64 * nId) % 2 = 0 then us ((j - 64 * nId) / 2) % 256
           else us ((j - 64 * nId) / 2) >>> 8)
          else p j := by
  intro n
  induction n with
  | zero =>
    intro _
    funext j
    have : ¬ (64 * nId ≤ j ∧ j < 64 * nId + 2 * 0) := by omega
    simp only [List.range_zero, List.foldl_nil]
    rw [if_neg this]
  | succ n ih =>
    intro hn
    rw [List.range_succ, List.foldl_append, ih (by omega)]
    simp only [List.foldl_cons, List.foldl_nil]
    rw [recordIndex_succ_eq nId n (by omega), recordIndex_eq nId n (by omega)]
    funext j
    by_cases h1 : j = 64 * nId + 2 * n + 1
    · subst h1
      rw [Function.update_same]
      have c1 : 64 * nId ≤ 64 * nId + 2 * n + 1 ∧ 64 * nId + 2 * n + 1 < 64 * nId + 2 * (n + 1) := by
        omega
      have c2 : ¬ ((64 * nId + 2 * n + 1 - 64 * nId) % 2 = 0) := by omega
      have c3 : (64 * nId + 2 * n + 1 - 64 * nId) / 2 = n := by omega
      simp only [c1, and_self, if_true, c2, if_false, c3]
    · rw [Function.update_noteq h1]
      by_cases h2 : j = 64 * nId + 2 * n
      · subst h2
        rw [Function.update_same]
        have c1 : 64 * nId ≤ 64 * nId + 2 * n ∧ 64 * nId + 2 * n < 64 * nId + 2 * (n + 1) := by
          omega
        have c2 : (64 * nId + 2 * n - 64 * nId) % 2 = 0 := by omega
        have c3 : (64 * nId + 2 * n - 64 * nId) / 2 = n := by omega
        simp only [c1, and_self, if_true, c2, c3]
      · rw [Function.update_noteq h2]
        by_cases h3 : 64 * nId ≤ j ∧ j < 64 * nId + 2 * n
        · have c1 : 64 * nId ≤ j ∧ j < 64 * nId + 2 * (n + 1) := by omega
          simp only [h3, c1, and_self, if_true]
        · have c1 : ¬ (64 * nId ≤ j ∧ j < 64 * nId + 2 * (n + 1)) := by omega
          simp only [h3, c1, if_false]

theorem byte_recombine (u : Nat) (hu : u < 65536) : u % 256 % 256 + 256 * ((u >>> 8) % 256) = u := by
  rw [Nat.shiftRight_eq_div_pow]
  norm_num
  omega

/-- Reading bucket `k` back from the bytes the store loop leaves. -/
theorem storeLoop_bucket (p : Nat → Nat) (nId : Nat) (us : Nat → Nat) (k : Nat) (hk : k < 32)
    (hu : us k < 65536) :
    bucket (fun j => if 64 * nId ≤ j ∧ j < 64 * nId + 2 * 32 then
          (if (j - 64 * nId) % 2 = 0 then us ((j - 64 * nId) / 2) % 256
           else us ((j - 64 * nId) / 2) >>> 8)
          else p j) nId k = us k := by
  rw [bucket_eq]
  have c1 : 64 * nId ≤ 64 * nId + 2 * k ∧ 64 * nId + 2 * k < 64 * nId + 2 * 32 := by omega
  have c2 : 64 * nId ≤ 64 * nId + 2 * k + 1 ∧ 64 * nId + 2 * k + 1 < 64 * nId + 2 * 32 := by
    omega
  have c3 : (64 * nId + 2 * k - 64 * nId) % 2 = 0 := by omega
  have c4 : ¬ ((64 * nId + 2 * k + 1 - 64 * nId) % 2 = 0) := by omega
  have c5 : (64 * nId + 2 * k - 64 * nId) / 2 = k := by omega
  have c6 : (64 * nId + 2 * k + 1 - 64 * nId) / 2 = k := by omega
  simp only [c1, c2, c3, c4, c5, c6, and_self, if_true, if_false]
  exact byte_recombine _ hu

/-- The weighted sum of one bucket over the 21 children is at most `36 * 65535`. -/
theorem childSum_le (p : Nat → Nat) (ids : Nat × Nat → Nat) (k : Nat) :
    childSum p ids k ≤ 36 * 65535 := by
  unfold childSum
  have : ∀ (L : List (Nat × Nat)),
      (L.map (fun r => rollWeight r * bucket p (ids r) k)).sum
        ≤ (L.map (fun r => rollWeight r * 65535)).sum := by
    intro L
    induction L with
    | nil => simp
    | cons r L ih =>
      simp only [List.map_cons, List.sum_cons]
      have := bucket_lt p (ids r) k
      have : rollWeight r * bucket p (ids r) k ≤ rollWeight r * 65535 :=
        Nat.mul_le_mul_left _ (by omega)
      omega
  have h2 : (allRolls.map (fun r => rollWeight r * 65535)).sum = 36 * 65535 := by decide
  rw [← h2]
  exact this allRolls

/-- The value stored for a bucket whose accumulated sum is `S`. -/
theorem stored_value (S : Nat) (hS : S ≤ 36 * 65535) :
    (Int.toNat (wrapUInt (Int.tdiv (wrapInt ((S : Int) + 18)) 36))) % 65536 = (S + 18) / 36 := by
  rw [wrapInt_of_range _ (by omega) (by omega)]
  have e : Int.tdiv ((S : Int) + 18) 36 = (((S + 18) / 36 : Nat) : Int) := by
    rw [Int.tdiv_eq_ediv (by omega) (by norm_num)]
    push_cast
    rfl
  rw [e, wrapUInt_of_range _ (by omega) (by omega), Int.toNat_ofNat]
  apply Nat.mod_eq_of_lt
  omega

/-- What `GenerateBearoff` does when every roll has a child id below `nId`: it
returns, bucket 0 of `nId` is 0, bucket `k + 1` is the rounded average
`(S_k + 18) / 36`, and no byte outside the record of `nId` is changed. -/
theorem generate_eq (E : Externals) (p : Nat → Nat) (nId : Nat) (ids : Nat × Nat → Nat)
    (H : ∀ r, r ∈ allRolls → ∃ b, HeuristicBearoff E (E.PositionFromBearoff nId 6 15) r.1 r.2
        = .ok (b, (ids r : Int)) ∧ ids r < nId) :
    ∃ q, GenerateBearoff E p nId = .ok q ∧ bucket q nId 0 = 0 ∧
      (∀ k, k < 31 → bucket q nId (k + 1) = (childSum p ids k + 18) / 36) ∧
      (∀ j, (j < 64 * nId ∨ 64 * nId + 64 ≤ j) → q j = p j) := by
  have hacc := accumulate_eq E p nId ids allRolls (fun _ => 0) H
    (by intro k; have : (allRolls.length : Int) = 21 := by decide
        rw [this]; dsimp only; omega)
  have hG : ∃ us : Nat → Nat, GenerateBearoff E p nId = .ok ((List.range 32).foldl
      (fun (q : Nat → Nat) (i : Nat) =>
          Function.update
            (Function.update q ((nId <<< 6) ||| (i <<< 1)) (us i % 256))
            ((nId <<< 6) ||| (i <<< 1) ||| 1) (us i >>> 8)) p) ∧ us 0 = 0 ∧
      ∀ k, k < 31 → us (k + 1) = (childSum p ids k + 18) / 36 := by
    refine ⟨fun i => (Int.toNat (wrapUInt (Int.tdiv (wrapInt
                ((if 1 ≤ i ∧ i < 32 then
                  (0 : Int) + ((allRolls.map (fun r => rollWeight r * bucket p (ids r) (i - 1))).sum
                    : Nat) else 0) + 18)) 36))) % 65536, ?_, ?_, ?_⟩
    · unfold GenerateBearoff
      dsimp only
      split
      · rename_i e heq
        exact absurd (heq.symm.trans hacc) (by intro h; cases h)
      · rename_i aProb heq
        have e := heq.symm.trans hacc
        injection e with e
        subst e
        rfl
    · have c : ¬ (1 ≤ 0 ∧ 0 < 32) := by omega
      simp only [c, if_false]
      decide
    · intro k hk
      have c7 : 1 ≤ k + 1 ∧ k + 1 < 32 := by omega
      simp only [c7, and_self, if_true, Nat.add_sub_cancel, zero_add]
      exact stored_value _ (childSum_le p ids k)
  obtain ⟨us, hG, u0, uk⟩ := hG
  rw [hG, storeLoop_eq p nId us 32 le_rfl]
  refine ⟨_, rfl, ?_, ?_, ?_⟩
  · rw [storeLoop_bucket p nId us 0 (by omega) (by rw [u0]; omega)]
    exact u0
  · intro k hk
    rw [storeLoop_bucket p nId us (k + 1) (by omega)
      (by rw [uk k hk]; have := childSum_le p ids k; omega)]
    exact uk k hk
  · intro j hj
    have c1 : ¬ (64 * nId ≤ j ∧ j < 64 * nId + 2 * 32) := by omega
    simp only [c1, if_false]

/-- Every roll of the generator has `1 <= d2 <= d1 <= 6`. -/
theorem allRolls_bounds : ∀ r, r ∈ allRolls → 1 ≤ r.2 ∧ r.2 ≤ r.1 ∧ r.1 ≤ 6 := by decide

theorem rearmost_empty (b : Nat → Int) : ∀ n, (∀ i, i < n → b i = 0) → rearmost b n = -1 := by
  intro n
  induction n with
  | zero => intro _; rfl
  | succ n ih =>
    intro h
    unfold rearmost
    rw [if_neg (by rw [h n (by omega)]; simp)]
    exact ih (fun i hi => h i (by omega))

/-- On a board with no chequer on the six points no die is played. -/
theorem playDice_empty (b : Nat → Int) (h : ∀ i, i < 6 → b i = 0) :
    ∀ dice, playDice b dice = .ok b := by
  intro dice
  cases dice with
  | nil => rfl
  | cons d rest =>
    have hp : playDie b d rest = .ok none := by
      unfold playDie
      simp only [rearmost_empty b 6 h]
      rfl
    unfold playDice
    rw [hp]

theorem HeuristicBearoff_empty (E : Externals) (b : Nat → Int) (h : ∀ i, i < 6 → b i = 0)
    (a1 a2 : Nat) (ha : a2 ≤ a1) :
    HeuristicBearoff E b a1 a2 = .ok (b, wrapInt (E.PositionBearoff b 6 15)) := by
  unfold HeuristicBearoff
  have c : ¬ (a1 ≠ a2 ∧ ¬ (a1 > a2)) := by omega
  rw [if_neg c]
  simp only [playDice_empty b h]

/-- C14: when the two assertions of `GenerateBearoff ( p, nId )` hold for every
roll (each of the 21 rolls has a child id `ids r` below `nId`), the call returns
and in the memory it leaves bucket 0 of `nId` is 0, bucket `k + 1` is
`(S_k + 18) / 36` for `k` in 0..30, where `S_k` is the sum over the rolls of
`w * child[k]` with `w = 1` for doubles and `w = 2` otherwise and `child` the
stored little-endian histogram of the child id, the total weight is 36, and
every byte outside the 64 bytes of record `nId` is unchanged. -/
theorem GenerateBearoff_rounded_average (E : Externals) (p : Nat → Nat) (nId : Nat)
    (ids : Nat × Nat → Nat)
    (H : ∀ r, r ∈ allRolls → ∃ b, HeuristicBearoff E (E.PositionFromBearoff nId 6 15) r.1 r.2
        = .ok (b, (ids r : Int)) ∧ ids r < nId) :
    ∃ q, GenerateBearoff E p nId = .ok q ∧ bucket q nId 0 = 0 ∧
      (∀ k, k < 31 → bucket q nId (k + 1)
        = ((allRolls.map (fun r => rollWeight r * bucket p (ids r) k)).sum + 18) / 36) ∧
      (allRolls.map rollWeight).sum = 36 ∧ allRolls.length = 21 ∧
      (allRolls.filter (fun r => r.1 = r.2)).length = 6 ∧
      (∀ j, (j < 64 * nId ∨ 64 * nId + 64 ≤ j) → q j = p j) ∧
      (∀ r, r ∈ allRolls → ∀ k, k < 32 → bucket q (ids r) k = bucket p (ids r) k) := by
  obtain ⟨q, hq, h0, hk, hf⟩ := generate_eq E p nId ids H
  refine ⟨q, hq, h0, hk, by decide, by decide, by decide, hf, ?_⟩
  intro r hr k hk32
  obtain ⟨_, _, hlt⟩ := H r hr
  rw [bucket_eq, bucket_eq, hf _ (Or.inl (by omega)), hf _ (Or.inl (by omega))]

theorem GenerateBearoff_rounded_average_witness :
    ∃ q, GenerateBearoff idZeroExternals (fun _ => 7) 1 = .ok q ∧ bucket q 1 0 = 0 ∧
      (∀ k, k < 31 → bucket q 1 (k + 1)
        = ((allRolls.map (fun r => rollWeight r * bucket (fun _ => 7) ((fun _ => 0) r) k)).sum
            + 18) / 36) ∧
      (allRolls.map rollWeight).sum = 36 ∧ allRolls.length = 21 ∧
      (allRolls.filter (fun r => r.1 = r.2)).length = 6 ∧
      (∀ j, (j < 64 * 1 ∨ 64 * 1 + 64 ≤ j) → q j = (fun _ => 7) j) ∧
      (∀ r, r ∈ allRolls → ∀ k, k < 32 →
        bucket q ((fun _ => 0) r) k = bucket (fun _ => 7) ((fun _ => 0) r) k) :=
  GenerateBearoff_rounded_average idZeroExternals (fun _ => 7) 1 (fun _ => 0)
    (fun r hr => ⟨_, HeuristicBearoff_empty idZeroExternals _ (fun _ _ => rfl) r.1 r.2
      (allRolls_bounds r hr).2.1, Nat.zero_lt_one⟩)

/-- Exchange of the sum over buckets with the weighted sum over rolls. -/
theorem sum_childSum (w : Nat × Nat → Nat) (f : Nat × Nat → Nat → Nat) (n : Nat) :
    ∀ L : List (Nat × Nat),
      (∑ k ∈ Finset.range n, (L.map (fun r => w r * f r k)).sum)
        = (L.map (fun r => w r * ∑ k ∈ Finset.range n, f r k)).sum := by
  intro L
  induction L with
  | nil => simp
  | cons r L ih =>
    simp only [List.map_cons, List.sum_cons, Finset.sum_add_distrib, ih, Finset.mul_sum]

/-- A weighted sum of equal values. -/
theorem sum_const_weight (w g : Nat × Nat → Nat) (c : Nat) :
    ∀ L : List (Nat × Nat), (∀ r, r ∈ L → g r = c) →
      (L.map (fun r => w r * g r)).sum = (L.map w).sum * c := by
  intro L
  induction L with
  | nil => intro _; simp
  | cons r L ih =>
    intro h
    simp only [List.map_cons, List.sum_cons]
    rw [ih (fun x hx => h x (List.mem_cons_of_mem _ hx)), h r (List.mem_cons_self _ _)]
    ring

/-- Rounding each of `n` sums to the nearest 36th moves the total by at most
`n / 2` units. -/
theorem sum_rounded (S : Nat → Nat) :
    ∀ n, 36 * (∑ k ∈ Finset.range n, (S k + 18) / 36) ≤ (∑ k ∈ Finset.range n, S k) + 18 * n ∧
      (∑ k ∈ Finset.range n, S k) ≤ 36 * (∑ k ∈ Finset.range n, (S k + 18) / 36) + 17 * n := by
  intro n
  induction n with
  | zero => simp
  | succ n ih =>
    rw [Finset.sum_range_succ, Finset.sum_range_succ]
    have := Nat.div_add_mod (S n + 18) 36
    have := Nat.mod_lt (S n + 18) (show 36 > 0 by decide)
    omega

/-- C16: one generation step keeps the histogram total within 15 of 65535.  When
the assertions of `GenerateBearoff ( p, nId )` hold (every roll has a child id
below `nId`, so `nId >= 1`) and each of the 21 child histograms has entries
summing to 65535 with bucket 31 equal to 0, the call returns and the 32 entries
stored for `nId` sum to a value between 65520 and 65550. -/
theorem GenerateBearoff_total_within_15 (E : Externals) (p : Nat → Nat) (nId : Nat)
    (ids : Nat × Nat → Nat)
    (H : ∀ r, r ∈ allRolls → ∃ b, HeuristicBearoff E (E.PositionFromBearoff nId 6 15) r.1 r.2
        = .ok (b, (ids r : Int)) ∧ ids r < nId)
    (hs : ∀ r, r ∈ allRolls →
        (∑ k ∈ Finset.range 32, bucket p (ids r) k) = 65535 ∧ bucket p (ids r) 31 = 0) :
    ∃ q, GenerateBearoff E p nId = .ok q ∧ 1 ≤ nId ∧
      65535 - 15 ≤ (∑ k ∈ Finset.range 32, bucket q nId k) ∧
      (∑ k ∈ Finset.range 32, bucket q nId k) ≤ 65535 + 15 := by
  obtain ⟨q, hq, h0, hk, _⟩ := generate_eq E p nId ids H
  have hpos : 1 ≤ nId := by
    obtain ⟨_, _, hlt⟩ := H (1, 1) (by decide)
    omega
  refine ⟨q, hq, hpos, ?_⟩
  have e1 : (∑ k ∈ Finset.range 32, bucket q nId k)
      = ∑ k ∈ Finset.range 31, (childSum p ids k + 18) / 36 := by
    rw [Finset.sum_range_succ', h0, Nat.add_zero]
    exact Finset.sum_congr rfl (fun k hk2 => hk k (Finset.mem_range.mp hk2))
  have e2 : (∑ k ∈ Finset.range 31, childSum p ids k) = 36 * 65535 := by
    have hw : (allRolls.map rollWeight).sum = 36 := by decide
    have hg : ∀ r, r ∈ allRolls → (∑ k ∈ Finset.range 31, bucket p (ids r) k) = 65535 := by
      intro r hr
      obtain ⟨hsum, h31⟩ := hs r hr
      rw [Finset.sum_range_succ, h31] at hsum
      omega
    have a1 := sum_childSum rollWeight (fun r k => bucket p (ids r) k) 31 allRolls
    have a2 := sum_const_weight rollWeight
      (fun r => ∑ k ∈ Finset.range 31, bucket p (ids r) k) 65535 allRolls hg
    rw [hw] at a2
    exact a1.trans a2
  have e3 := sum_rounded (childSum p ids) 31
  rw [e2] at e3
  rw [e1]
  omega

theorem GenerateBearoff_total_within_15_witness :
    ∃ q, GenerateBearoff idZeroExternals (fun k => if k < 2 then 255 else 0) 1 = .ok q ∧
      1 ≤ 1 ∧
      65535 - 15 ≤ (∑ k ∈ Finset.range 32, bucket q 1 k) ∧
      (∑ k ∈ Finset.range 32, bucket q 1 k) ≤ 65535 + 15 :=
  GenerateBearoff_total_within_15 idZeroExternals (fun k => if k < 2 then 255 else 0) 1
    (fun _ => 0)
    (fun r hr => ⟨_, HeuristicBearoff_empty idZeroExternals _ (fun _ _ => rfl) r.1 r.2
      (allRolls_bounds r hr).2.1, Nat.zero_lt_one⟩)
    (fun _ _ => ⟨(by decide :
        (∑ k ∈ Finset.range 32, bucket (fun k => if k < 2 then 255 else 0) 0 k) = 65535),
      (by decide : bucket (fun k => if k < 2 then 255 else 0) 0 31 = 0)⟩)

/-! ## Generator: trivial endgames -/

theorem rearmost_eq (b : Nat → Int) (n : Nat) (hn : b n ≠ 0) :
    ∀ N, n < N → (∀ i, n < i → i < N → b i = 0) → rearmost b N = (n : Int) := by
  intro N
  induction N with
  | zero => intro h; omega
  | succ N ih =>
    intro hlt hz
    unfold rearmost
    by_cases hN : n = N
    · subst hN
      rw [if_pos hn]
    · rw [if_neg (by rw [hz N (by omega) (by omega)]; simp)]
      exact ih (by omega) (fun i h1 h2 => hz i h1 (by omega))

/-- With chequers on the point of index 0 only, any die bears one of them off. -/
theorem playDie_ace (b : Nat → Int) (h0 : b 0 ≠ 0) (hz : ∀ i, 1 ≤ i → i < 6 → b i = 0)
    (die : Nat) (hd1 : 1 ≤ die) (hd6 : die ≤ 6) (rest : List Nat) :
    playDie b die rest = .ok (some (Function.update b 0 (b 0 - 1))) := by
  have hr : rearmost b 6 = ((0 : Nat) : Int) :=
    rearmost_eq b 0 h0 6 (by omega) (fun i h1 h2 => hz i (by omega) h2)
  unfold playDie
  simp only [hr]
  by_cases hd : die = 1
  · subst hd
    simp [h0]
  · have hb : b (die - 1) = 0 := hz (die - 1) (by omega) (by omega)
    have hgt : ((die : Int) - 1) > 0 := by omega
    have hnd : ¬ ((0 : Int) ≥ (die : Int)) := by omega
    simp [hb, hgt, h0, hnd]

/-- With one or two chequers on the point of index 0 and nothing else on the
six points, every roll leaves the six points empty. -/
theorem HeuristicBearoff_ace (E : Externals) (b : Nat → Int) (h0 : b 0 = 1 ∨ b 0 = 2)
    (hz : ∀ i, 1 ≤ i → i < 6 → b i = 0) (a1 a2 : Nat)
    (h2 : 1 ≤ a2) (h21 : a2 ≤ a1) (h1 : a1 ≤ 6) :
    ∃ b2, HeuristicBearoff E b a1 a2 = .ok (b2, wrapInt (E.PositionBearoff b2 6 15)) ∧
      ∀ i, i < 6 → b2 i = 0 := by
  have step : ∀ (c : Nat → Int), c 0 = 1 → (∀ i, 1 ≤ i → i < 6 → c i = 0) →
      ∀ d rest, 1 ≤ d → d ≤ 6 →
        playDice c (d :: rest) = .ok (Function.update c 0 0) ∧
          ∀ i, i < 6 → Function.update c 0 0 i = 0 := by
    intro c hc hcz d rest hd1 hd6
    have he : ∀ i, i < 6 → Function.update c 0 (0 : Int) i = 0 := by
      intro i hi
      by_cases h : i = 0
      · subst h; simp
      · rw [Function.update_noteq h]; exact hcz i (by omega) hi
    refine ⟨?_, he⟩
    rw [playDice, playDie_ace c (by rw [hc]; decide) hcz d hd1 hd6 rest, hc]
    simp only [sub_self]
    exact playDice_empty _ he rest
  have two : ∀ d1 d2 rest, 1 ≤ d1 → d1 ≤ 6 → 1 ≤ d2 → d2 ≤ 6 →
      ∃ b2, playDice b (d1 :: d2 :: rest) = .ok b2 ∧ ∀ i, i < 6 → b2 i = 0 := by
    intro d1 d2 rest hd1 hd1' hd2 hd2'
    rcases h0 with h0 | h0
    · exact ⟨_, step b h0 hz d1 _ hd1 hd1'⟩
    · have hb1 : playDice b (d1 :: d2 :: rest)
          = playDice (Function.update b 0 1) (d2 :: rest) := by
        rw [playDice, playDie_ace b (by rw [h0]; decide) hz d1 hd1 hd1' _, h0]
        norm_num
      rw [hb1]
      refine ⟨_, step (Function.update b 0 1) (by simp) ?_ d2 rest hd2 hd2'⟩
      intro i hi1 hi6
      rw [Function.update_noteq (by omega)]
      exact hz i hi1 hi6
  unfold HeuristicBearoff
  have c : ¬ (a1 ≠ a2 ∧ ¬ (a1 > a2)) := by omega
  rw [if_neg c]
  by_cases heq : a1 = a2
  · subst heq
    obtain ⟨b2, hb2, hz2⟩ := two a1 a1 [a1, a1] (by omega) h1 (by omega) h1
    refine ⟨b2, ?_, hz2⟩
    simp only [if_true, hb2]
  · obtain ⟨b2, hb2, hz2⟩ := two a1 a2 [] (by omega) h1 h2 (by omega)
    refine ⟨b2, ?_, hz2⟩
    simp only [heq, if_false, hb2]

/-- The record generated for an id all of whose 21 children are id 0, when
record 0 holds 65535 in bucket 0 and 0 elsewhere. -/
theorem generate_children_zero (E : Externals) (p : Nat → Nat) (nId : Nat) (hId : 1 ≤ nId)
    (hp0 : bucket p 0 0 = 65535) (hpk : ∀ k, 1 ≤ k → k < 32 → bucket p 0 k = 0)
    (H : ∀ r, r ∈ allRolls → ∃ b, HeuristicBearoff E (E.PositionFromBearoff nId 6 15) r.1 r.2
        = .ok (b, 0)) :
    ∃ q, GenerateBearoff E p nId = .ok q ∧ bucket q nId 1 = 65535 ∧
      ∀ k, k < 32 → k ≠ 1 → bucket q nId k = 0 := by
  obtain ⟨q, hq, h0, hk, _⟩ := generate_eq E p nId (fun _ => 0)
    (fun r hr => by obtain ⟨b, hb⟩ := H r hr; exact ⟨b, hb, hId⟩)
  have hw : (allRolls.map rollWeight).sum = 36 := by decide
  have hS : ∀ k, childSum p (fun _ => 0) k = 36 * bucket p 0 k := by
    intro k
    have a := sum_const_weight rollWeight (fun _ => bucket p 0 k) (bucket p 0 k) allRolls
      (fun _ _ => rfl)
    rw [hw] at a
    exact a
  refine ⟨q, hq, ?_, ?_⟩
  · rw [hk 0 (by omega), hS 0, hp0]
  · intro k hk32 hk1
    rcases Nat.eq_zero_or_pos k with h | h
    · rw [h]; exact h0
    · obtain ⟨j, rfl⟩ : ∃ j, k = j + 1 := ⟨k - 1, by omega⟩
      rw [hk j (by omega), hS j, hpk j (by omega) (by omega)]

/-- C17: with one or two chequers on the point of index 0 and no other chequer
on the six points, every one of the 21 rolls makes `HeuristicBearoff` leave the
six points empty.  When record 0 is the initial record (65535 in bucket 0, 0
elsewhere) and either the board of `nId` is such a board and the empty board
has id 0, or all 21 children of `nId` are id 0, `GenerateBearoff ( p, nId )`
returns and the histogram of `nId` is 65535 in bucket 1 and 0 in every other
bucket. -/
theorem GenerateBearoff_trivial_endgame (E : Externals) (p : Nat → Nat) (nId : Nat)
    (hId : 1 ≤ nId)
    (hp0 : bucket p 0 0 = 65535) (hpk : ∀ k, 1 ≤ k → k < 32 → bucket p 0 k = 0)
    (hch : ((E.PositionFromBearoff nId 6 15 0 = 1 ∨ E.PositionFromBearoff nId 6 15 0 = 2) ∧
        (∀ i, 1 ≤ i → i < 6 → E.PositionFromBearoff nId 6 15 i = 0) ∧
        (∀ b : Nat → Int, (∀ i, i < 6 → b i = 0) → E.PositionBearoff b 6 15 = 0)) ∨
      (∀ r, r ∈ allRolls → ∃ b, HeuristicBearoff E (E.PositionFromBearoff nId 6 15) r.1 r.2
        = .ok (b, 0))) :
    (∀ b : Nat → Int, (b 0 = 1 ∨ b 0 = 2) → (∀ i, 1 ≤ i → i < 6 → b i = 0) →
      ∀ r, r ∈ allRolls → ∃ b2, HeuristicBearoff E b r.1 r.2
          = .ok (b2, wrapInt (E.PositionBearoff b2 6 15)) ∧ ∀ i, i < 6 → b2 i = 0) ∧
    ∃ q, GenerateBearoff E p nId = .ok q ∧ bucket q nId 1 = 65535 ∧
      ∀ k, k < 32 → k ≠ 1 → bucket q nId k = 0 := by
  have part1 : ∀ b : Nat → Int, (b 0 = 1 ∨ b 0 = 2) → (∀ i, 1 ≤ i → i < 6 → b i = 0) →
      ∀ r, r ∈ allRolls → ∃ b2, HeuristicBearoff E b r.1 r.2
          = .ok (b2, wrapInt (E.PositionBearoff b2 6 15)) ∧ ∀ i, i < 6 → b2 i = 0 := by
    intro b hb0 hbz r hr
    obtain ⟨r2, r21, r1⟩ := allRolls_bounds r hr
    exact HeuristicBearoff_ace E b hb0 hbz r.1 r.2 r2 r21 r1
  refine ⟨part1, ?_⟩
  apply generate_children_zero E p nId hId hp0 hpk
  rcases hch with ⟨hb0, hbz, hz⟩ | hch
  · intro r hr
    obtain ⟨b2, hb2, he⟩ := part1 _ hb0 hbz r hr
    refine ⟨b2, ?_⟩
    rw [hb2, hz b2 he]
    rfl
  · exact hch

theorem GenerateBearoff_trivial_endgame_witness :
    (∀ b : Nat → Int, (b 0 = 1 ∨ b 0 = 2) → (∀ i, 1 ≤ i → i < 6 → b i = 0) →
      ∀ r, r ∈ allRolls → ∃ b2, HeuristicBearoff nativeExternals b r.1 r.2
          = .ok (b2, wrapInt (nativeExternals.PositionBearoff b2 6 15)) ∧
            ∀ i, i < 6 → b2 i = 0) ∧
    ∃ q, GenerateBearoff nativeExternals (fun k => if k < 2 then 255 else 0) 2 = .ok q ∧
      bucket q 2 1 = 65535 ∧ ∀ k, k < 32 → k ≠ 1 → bucket q 2 k = 0 :=
  GenerateBearoff_trivial_endgame nativeExternals (fun k => if k < 2 then 255 else 0) 2
    (by decide) (by decide)
    (fun k h1 h32 => by
      rw [bucket_eq]
      have a : ¬ (64 * 0 + 2 * k < 2) := by omega
      have b : ¬ (64 * 0 + 2 * k + 1 < 2) := by omega
      simp only [a, b, if_false])
    (Or.inl ⟨Or.inr (by decide), (by
        intro i h1 h6
        interval_cases i <;> decide), (by
        intro b hb
        show rankN (fun i => (b i).toNat) 6 15 = 0
        rw [rankN_congr (fun i => (b i).toNat) (fun _ => 0) 6 15
          (fun i hi => by dsimp only; rw [hb i hi]; rfl)]
        decide)⟩)

/-! ## Generator: the whole table -/

/-- When the accumulation loop of `GenerateBearoff` ends without a failed
assertion, every roll had a child id below `nId`. -/
theorem accumulate_ok_children (E : Externals) (p : Nat → Nat) (nId : Nat) :
    ∀ (L : List (Nat × Nat)) (st : Except ReadError (Nat → Int)) (a : Nat → Int),
      L.foldl
        (fun (st : Except ReadError (Nat → Int)) (roll : Nat × Nat) =>
          match st with
          | .error e => .error e
          | .ok aProb =>
            match HeuristicBearoff E (E.PositionFromBearoff nId 6 15) roll.1 roll.2 with
            | .error e => .error e
            | .ok (_, iBest) =>
              if iBest < 0 then .error .assertion
              else if ¬ (iBest < (nId : Int)) then .error .assertion
              else
                let child : Nat → Int := fun i =>
                  ((p ((iBest.toNat <<< 6) ||| (i <<< 1)) % 256
                    + ((p ((iBest.toNat <<< 6) ||| (i <<< 1) ||| 1) % 256) <<< 8) : Nat) : Int)
                .ok (fun k =>
                  if 1 ≤ k ∧ k < 32 then
                    (if roll.1 = roll.2 then wrapInt (aProb k + child (k - 1))
                     else wrapInt (aProb k + wrapInt (child (k - 1) * 2)))
                  else aProb k)) st = .ok a →
      (∃ a0, st = .ok a0) ∧
        ∀ r, r ∈ L → ∃ b, HeuristicBearoff E (E.PositionFromBearoff nId 6 15) r.1 r.2
          = .ok (b, (childId E nId r : Int)) ∧ childId E nId r < nId := by
  intro L
  induction L with
  | nil =>
    intro st a h
    exact ⟨⟨a, h⟩, fun r hr => absurd hr (List.not_mem_nil r)⟩
  | cons r L ih =>
    intro st a h
    rw [List.foldl_cons] at h
    obtain ⟨⟨a1, h1⟩, hL⟩ := ih _ a h
    cases st with
    | error e => simp at h1
    | ok a0 =>
      refine ⟨⟨a0, rfl⟩, ?_⟩
      intro r2 hr2
      rcases List.mem_cons.mp hr2 with rfl | hmem
      · cases hHB : HeuristicBearoff E (E.PositionFromBearoff nId 6 15) r2.1 r2.2 with
        | error e => simp [hHB] at h1
        | ok v =>
          obtain ⟨b, iBest⟩ := v
          simp only [hHB] at h1
          by_cases c1 : iBest < 0
          · simp [c1] at h1
          · by_cases c2 : iBest < (nId : Int)
            · refine ⟨b, ?_, ?_⟩
              · unfold childId
                rw [hHB]
                simp only []
                rw [Int.toNat_of_nonneg (by omega)]
              · unfold childId
                rw [hHB]
                simp only []
                omega
            · simp [c1, c2] at h1
      · exact hL r2 hmem

/-- A call of `GenerateBearoff` that returns passed both assertions for every roll. -/
theorem generate_ok_children (E : Externals) (p q : Nat → Nat) (nId : Nat)
    (h : GenerateBearoff E p nId = .ok q) :
    ∀ r, r ∈ allRolls → ∃ b, HeuristicBearoff E (E.PositionFromBearoff nId 6 15) r.1 r.2
      = .ok (b, (childId E nId r : Int)) ∧ childId E nId r < nId := by
  unfold GenerateBearoff at h
  dsimp only at h
  split at h
  · cases h
  · rename_i aProb heq
    exact (accumulate_ok_children E p nId allRolls _ aProb heq).2

/-- State of the table after the first `n` passes of the loop of
`HeuristicDatabase`: record 0 and the bytes past record `n` are as at the
start, and each record `1..n` holds what its own `GenerateBearoff` call left. -/
theorem dbFold_inv (E : Externals) (p0 : Nat → Nat) :
    ∀ (n : Nat) (p : Nat → Nat),
      (List.range n).foldl
        (fun (st : Except ReadError (Nat → Nat)) (i : Nat) =>
          match st with
          | .error e => .error e
          | .ok p => GenerateBearoff E p (i + 1)) (.ok p0) = .ok p →
      (∀ j, j < 64 → p j = p0 j) ∧ (∀ j, 64 * (n + 1) ≤ j → p j = p0 j) ∧
      ∀ id, 1 ≤ id → id ≤ n → ∃ p1 q1, GenerateBearoff E p1 id = .ok q1 ∧
        ∀ j, j < 64 → p (64 * id + j) = q1 (64 * id + j) := by
  intro n
  induction n with
  | zero =>
    intro p h
    simp only [List.range_zero, List.foldl_nil] at h
    injection h with h
    subst h
    exact ⟨fun _ _ => rfl, fun _ _ => rfl, fun id h1 h2 => by omega⟩
  | succ n ih =>
    intro p h
    rw [List.range_succ, List.foldl_append] at h
    simp only [List.foldl_cons, List.foldl_nil] at h
    split at h
    · cases h
    · rename_i p1 heq
      obtain ⟨ia, ib, ic⟩ := ih p1 heq
      obtain ⟨q, hq, _, _, hf⟩ := generate_eq E p1 (n + 1) (childId E (n + 1))
        (generate_ok_children E p1 p (n + 1) h)
      have hqp : q = p := by
        rw [h] at hq
        injection hq with hq
        exact hq.symm
      subst hqp
      refine ⟨?_, ?_, ?_⟩
      · intro j hj
        rw [hf j (Or.inl (by omega))]
        exact ia j hj
      · intro j hj
        rw [hf j (Or.inr (by omega))]
        exact ib j (by omega)
      · intro id h1 h2
        by_cases hid : id = n + 1
        · subst hid
          exact ⟨p1, q, h, fun _ _ => rfl⟩
        · obtain ⟨p2, q2, hg, hrec⟩ := ic id h1 (by omega)
          refine ⟨p2, q2, hg, ?_⟩
          intro j hj
          rw [hf _ (Or.inl (by omega))]
          exact hrec j hj

/-- The loop of `HeuristicDatabase` runs to its end when no assertion fails. -/
theorem dbFold_total (E : Externals) (p0 : Nat → Nat) :
    ∀ (n : Nat),
      (∀ nId, 1 ≤ nId → nId ≤ n → ∀ r, r ∈ allRolls →
        ∃ b id2, HeuristicBearoff E (E.PositionFromBearoff nId 6 15) r.1 r.2
          = .ok (b, ((id2 : Nat) : Int)) ∧ id2 < nId) →
      ∃ p, (List.range n).foldl
        (fun (st : Except ReadError (Nat → Nat)) (i : Nat) =>
          match st with
          | .error e => .error e
          | .ok p => GenerateBearoff E p (i + 1)) (.ok p0) = .ok p := by
  intro n
  induction n with
  | zero => intro _; exact ⟨p0, rfl⟩
  | succ n ih =>
    intro H
    obtain ⟨p1, hp1⟩ := ih (fun nId h1 h2 => H nId h1 (by omega))
    rw [List.range_succ, List.foldl_append, hp1]
    simp only [List.foldl_cons, List.foldl_nil]
    obtain ⟨q, hq, _⟩ := generate_eq E p1 (n + 1) (childId E (n + 1)) (by
      intro r hr
      obtain ⟨b, id2, hb, hlt⟩ := H (n + 1) (by omega) le_rfl r hr
      have e : childId E (n + 1) r = id2 := by
        unfold childId
        rw [hb]
        simp
      rw [e]
      exact ⟨b, hb, hlt⟩)
    exact ⟨q, hq⟩

/-- What a table returned by `HeuristicDatabase` looks like. -/
theorem HeuristicDatabase_inv (E : Externals) (w : World) (table : Nat → Nat)
    (h : HeuristicDatabase E w = .ok (some table)) :
    ∃ p : Nat → Nat, (∀ k, 40 ≤ k → table k = p (k - 40)) ∧
      p 0 = 255 ∧ p 1 = 255 ∧ (∀ j, 2 ≤ j → j < 64 → p j = 0) ∧
      ∀ id, 1 ≤ id → id < 54264 → ∃ p1 q1, GenerateBearoff E p1 id = .ok q1 ∧
        ∀ j, j < 64 → p (64 * id + j) = q1 (64 * id + j) := by
  unfold HeuristicDatabase at h
  by_cases hb : w.bufferAlloc = true
  · rw [if_neg (not_not.mpr hb)] at h
    dsimp only at h
    split at h
    · cases h
    · rename_i p heq
      obtain ⟨ia, _, ic⟩ := dbFold_inv E _ 54263 p heq
      injection h with h
      injection h with h
      subst h
      refine ⟨p, ?_, ?_, ?_, ?_, ?_⟩
      · intro k hk
        have : ¬ k < 40 := by omega
        simp only [this, if_false]
      · rw [ia 0 (by omega)]; rfl
      · rw [ia 1 (by omega)]; rfl
      · intro j h2 h64
        rw [ia j h64]
        have : ¬ j < 2 := by omega
        simp only [this, if_false, h64, if_true]
      · intro id h1 h2
        exact ic id h1 (by omega)
  · rw [if_pos hb] at h
    cases h

/-- The table is built when the buffer is allocated and no assertion fails. -/
theorem HeuristicDatabase_total (E : Externals) (w : World) (hb : w.bufferAlloc = true)
    (H : ∀ nId, 1 ≤ nId → nId < 54264 → ∀ r, r ∈ allRolls →
        ∃ b id2, HeuristicBearoff E (E.PositionFromBearoff nId 6 15) r.1 r.2
          = .ok (b, ((id2 : Nat) : Int)) ∧ id2 < nId) :
    ∃ table, HeuristicDatabase E w = .ok (some table) := by
  obtain ⟨p, hp⟩ := dbFold_total E
    (fun k => if k < 2 then 255 else if k < 64 then 0 else w.stack (40 + k)) 54263
    (fun nId h1 h2 => H nId h1 (by omega))
  unfold HeuristicDatabase
  rw [if_neg (not_not.mpr hb)]
  dsimp only
  split
  · rename_i e heq
    exact absurd (heq.symm.trans hp) (by intro h; cases h)
  · exact ⟨_, rfl⟩

/-- What a returning call of `GenerateBearoff` leaves in the table. -/
theorem generate_ok_spec (E : Externals) (p q : Nat → Nat) (nId : Nat)
    (h : GenerateBearoff E p nId = .ok q) :
    bucket q nId 0 = 0 ∧
      (∀ k, k < 31 → bucket q nId (k + 1) = (childSum p (childId E nId) k + 18) / 36) ∧
      (∀ j, (j < 64 * nId ∨ 64 * nId + 64 ≤ j) → q j = p j) := by
  obtain ⟨q2, hq, r⟩ := generate_eq E p nId (childId E nId) (generate_ok_children E p q nId h)
  rw [h] at hq
  injection hq with hq
  subst hq
  exact r

/-- With `idZeroExternals` every roll of every id has the child id 0. -/
theorem idZero_children (nId : Nat) (h1 : 1 ≤ nId) :
    ∀ r, r ∈ allRolls →
      ∃ b id2, HeuristicBearoff idZeroExternals (idZeroExternals.PositionFromBearoff nId 6 15)
          r.1 r.2 = .ok (b, ((id2 : Nat) : Int)) ∧ id2 < nId := by
  intro r hr
  exact ⟨_, 0, HeuristicBearoff_empty idZeroExternals _ (fun _ _ => rfl) r.1 r.2
    (allRolls_bounds r hr).2.1, by omega⟩

theorem idZero_table :
    ∃ table, HeuristicDatabase idZeroExternals (worldWithFile []) = .ok (some table) :=
  HeuristicDatabase_total idZeroExternals (worldWithFile []) rfl
    (fun nId h1 _ => idZero_children nId h1)

/-- C15: in a table returned by `HeuristicDatabase` (records start at byte 40,
64 bytes each), the record of id 0 holds 65535 in bucket 0 and 0 in buckets
1..31, and bucket 0 of every id in [1, 54264) is 0. -/
theorem HeuristicDatabase_support_starts_at_zero_only_for_id_zero (E : Externals) (w : World)
    (table : Nat → Nat) (h : HeuristicDatabase E w = .ok (some table)) :
    leWord table 40 = 65535 ∧
      (∀ k, 1 ≤ k → k < 32 → leWord table (40 + 2 * k) = 0) ∧
      (∀ id, 1 ≤ id → id < 54264 → leWord table (40 + 64 * id) = 0) := by
  obtain ⟨p, ht, h0, h1, hz, hrec⟩ := HeuristicDatabase_inv E w table h
  refine ⟨?_, ?_, ?_⟩
  · rw [leWord_eq, ht 40 (by omega), ht 41 (by omega)]
    simp only [Nat.sub_self, show 41 - 40 = 1 from rfl, h0, h1]
  · intro k hk1 hk32
    rw [leWord_eq, ht _ (by omega), ht _ (by omega),
      hz (40 + 2 * k - 40) (by omega) (by omega),
      hz (40 + 2 * k + 1 - 40) (by omega) (by omega)]
  · intro id hid1 hid2
    obtain ⟨p1, q1, hg, hj⟩ := hrec id hid1 hid2
    have hb := (generate_ok_spec E p1 q1 id hg).1
    rw [bucket_eq] at hb
    rw [leWord_eq, ht _ (by omega), ht _ (by omega)]
    have e0 : 40 + 64 * id - 40 = 64 * id + 0 := by omega
    have e1 : 40 + 64 * id + 1 - 40 = 64 * id + 1 := by omega
    rw [e0, e1, hj 0 (by omega), hj 1 (by omega)]
    simpa using hb

theorem HeuristicDatabase_support_starts_at_zero_only_for_id_zero_witness :
    ∃ table, HeuristicDatabase idZeroExternals (worldWithFile []) = .ok (some table) ∧
      leWord table 40 = 65535 ∧
      (∀ k, 1 ≤ k → k < 32 → leWord table (40 + 2 * k) = 0) ∧
      (∀ id, 1 ≤ id → id < 54264 → leWord table (40 + 64 * id) = 0) := by
  obtain ⟨table, ht⟩ := idZero_table
  exact ⟨table, ht,
    HeuristicDatabase_support_starts_at_zero_only_for_id_zero idZeroExternals (worldWithFile [])
      table ht⟩

/-! ## Reader and loader on the generated table -/

/-- C19: reader and generator agree on the uncompressed one-sided layout.  For a
table returned by `HeuristicDatabase`, read in memory without gammon data,
`GetDistUncompressed` returns for every id below 54264 and every bucket
`k < 32` the little-endian pair at byte `40 + 64 * id + 2 * k`; for id 0 this
is the initial record, and for `id >= 1` it is the value bucket `k` had when
the call `GenerateBearoff ( p, id )` of the generator returned. -/
theorem GetDistUncompressed_reads_generated_table (E : Externals) (w : World)
    (table : Nat → Nat) (h : HeuristicDatabase E w = .ok (some table))
    (pbc : bearoffcontext) (hp : pbc.p = some table) (hm : pbc.fInMemory ≠ 0)
    (hg : pbc.fGammon = 0) (aus0 : Nat → Nat) (id : Nat) (hid : id < 54264) :
    ∃ aus, GetDistUncompressed w aus0 pbc id = .ok aus ∧
      (∀ k, k < 32 → aus k = leWord table (40 + 64 * id + 2 * k)) ∧
      (id = 0 → aus 0 = 65535 ∧ ∀ k, 1 ≤ k → k < 32 → aus k = 0) ∧
      (1 ≤ id → ∃ p1 q1, GenerateBearoff E p1 id = .ok q1 ∧
        ∀ k, k < 32 → aus k = bucket q1 id k) := by
  have hoff : wrapInt (wrapUInt (40 + wrapUInt (64 * (id : Int) * 1))) = ((40 + 64 * id : Nat) : Int) := by
    rw [wrapUInt_of_range (64 * (id : Int) * 1) (by omega) (by omega),
      wrapUInt_of_range _ (by omega) (by omega), wrapInt_of_range _ (by omega) (by omega)]
    push_cast
    ring
  have hread : GetDistUncompressed w aus0 pbc id
      = .ok (CopyBytes aus0 (fun i => table (40 + 64 * id + i)) 32 0 32 0) := by
    unfold GetDistUncompressed
    simp only [hg, ne_eq, not_true_eq_false, if_false, hm, not_false_eq_true, if_true, hp, hoff,
      Int.toNat_ofNat]
  have hval : ∀ k, k < 32 →
      CopyBytes aus0 (fun i => table (40 + 64 * id + i)) 32 0 32 0 k
        = leWord table (40 + 64 * id + 2 * k) := by
    intro k hk
    rw [CopyBytes_eq]
    have c1 : ¬ (32 + 0 ≤ k ∧ k < 32 + 0 + 32) := by omega
    have c2 : 0 ≤ k ∧ k < 0 + 32 := by omega
    simp only [c1, c2, and_self, if_true, if_false, Nat.sub_zero, leWord_shift]
  obtain ⟨p, ht, h0, h1, hz, hrec⟩ := HeuristicDatabase_inv E w table h
  have hp0 := HeuristicDatabase_inv E w table h
  refine ⟨_, hread, hval, ?_, ?_⟩
  · intro hid0
    subst hid0
    refine ⟨?_, ?_⟩
    · rw [hval 0 (by omega), leWord_eq, ht _ (by omega), ht _ (by omega)]
      simp only [Nat.mul_zero, Nat.add_zero, Nat.sub_self,
        show 40 + 1 - 40 = 1 from rfl, h0, h1]
    · intro k hk1 hk32
      rw [hval k hk32, leWord_eq, ht _ (by omega), ht _ (by omega),
        hz (40 + 64 * 0 + 2 * k - 40) (by omega) (by omega),
        hz (40 + 64 * 0 + 2 * k + 1 - 40) (by omega) (by omega)]
  · intro hid1
    obtain ⟨p1, q1, hgen, hj⟩ := hrec id hid1 hid
    refine ⟨p1, q1, hgen, ?_⟩
    intro k hk
    rw [hval k hk, leWord_eq, bucket_eq, ht _ (by omega), ht _ (by omega)]
    have e0 : 40 + 64 * id + 2 * k - 40 = 64 * id + 2 * k := by omega
    have e1 : 40 + 64 * id + 2 * k + 1 - 40 = 64 * id + (2 * k + 1) := by omega
    rw [e0, e1, hj (2 * k) (by omega), hj (2 * k + 1) (by omega)]
    rfl

theorem GetDistUncompressed_reads_generated_table_witness :
    ∃ table, HeuristicDatabase idZeroExternals (worldWithFile []) = .ok (some table) ∧
      ∃ aus, GetDistUncompressed (worldWithFile []) (fun _ => 0)
          { memoryContext 6 15 0 0 [] with p := some table } 5 = .ok aus ∧
        (∀ k, k < 32 → aus k = leWord table (40 + 64 * 5 + 2 * k)) ∧
        (5 = 0 → aus 0 = 65535 ∧ ∀ k, 1 ≤ k → k < 32 → aus k = 0) ∧
        (1 ≤ 5 → ∃ p1 q1, GenerateBearoff idZeroExternals p1 5 = .ok q1 ∧
          ∀ k, k < 32 → aus k = bucket q1 5 k) := by
  obtain ⟨table, ht⟩ := idZero_table
  exact ⟨table, ht,
    GetDistUncompressed_reads_generated_table idZeroExternals (worldWithFile []) table ht
      { memoryContext 6 15 0 0 [] with p := some table } rfl
      (by show (1 : Int) ≠ 0; decide) rfl (fun _ => 0) 5
      (by decide)⟩

/-- C18: the context `BearoffInit` returns with the heuristic option is native,
one-sided, in memory, flagged heuristic, uncompressed, without gammon data,
with read counter 0 and the generated table as its database, but its geometry
is 6 points and 6 chequers, not the 6 points and 15 chequers of the
`54264 = C(21,6)` records that `HeuristicDatabase` fills: 6 chequers on 6
points make `C(12,6) = 924` positions, and a board with 15 chequers a side is
not accepted by `isBearoff` for this context. -/
theorem BearoffInit_heuristic_geometry_six_chequers (charSigned : Bool) (E : Externals)
    (w : World) (szFilename : Option String) (bo : Nat) (table : Nat → Nat)
    (hb : bo &&& E.BO_HEURISTIC ≠ 0) (ha : w.contextAlloc 0 = true)
    (hd : HeuristicDatabase E w = .ok (some table)) :
    ∃ pbc, BearoffInit charSigned E w szFilename bo = .ok (some pbc) ∧
      pbc.bc = .BEAROFF_GNUBG ∧ pbc.bt = .BEAROFF_ONESIDED ∧ pbc.fInMemory = 1 ∧
      pbc.fHeuristic = 1 ∧ pbc.fCompressed = 0 ∧ pbc.fGammon = 0 ∧ pbc.nReads = 0 ∧
      pbc.p = some table ∧ pbc.nPoints = 6 ∧ pbc.nChequers = 6 ∧ pbc.nChequers ≠ 15 ∧
      boardCount 6 15 = 54264 ∧ boardCount 6 6 = 924 ∧
      isBearoff btDeclared (some pbc) fifteenOnAce = false := by
  unfold BearoffInit
  rw [if_pos hb, if_neg (not_not.mpr ha), hd]
  refine ⟨_, rfl, rfl, rfl, rfl, rfl, rfl, rfl, rfl, rfl, rfl, rfl,
    (by show (6 : Int) ≠ 15; decide), by decide, by decide, ?_⟩
  unfold isBearoff
  have r0 : rearmost (fifteenOnAce 0) 25 = 0 := by decide
  have r1 : rearmost (fifteenOnAce 1) 25 = 0 := by decide
  have s1 : List.foldl (fun (t : Int) (i : Nat) => t + fifteenOnAce 1 i) 0
      (List.range ((0 : Int) + 1).toNat) = 15 := by decide
  simp only [r0, r1, s1]
  simp

theorem BearoffInit_heuristic_geometry_six_chequers_witness :
    ∃ table, HeuristicDatabase idZeroExternals (worldWithFile []) = .ok (some table) ∧
      ∃ pbc, BearoffInit true idZeroExternals (worldWithFile []) none 16 = .ok (some pbc) ∧
      pbc.bc = .BEAROFF_GNUBG ∧ pbc.bt = .BEAROFF_ONESIDED ∧ pbc.fInMemory = 1 ∧
      pbc.fHeuristic = 1 ∧ pbc.fCompressed = 0 ∧ pbc.fGammon = 0 ∧ pbc.nReads = 0 ∧
      pbc.p = some table ∧ pbc.nPoints = 6 ∧ pbc.nChequers = 6 ∧ pbc.nChequers ≠ 15 ∧
      boardCount 6 15 = 54264 ∧ boardCount 6 6 = 924 ∧
      isBearoff btDeclared (some pbc) fifteenOnAce = false := by
  obtain ⟨table, ht⟩ := idZero_table
  exact ⟨table, ht,
    BearoffInit_heuristic_geometry_six_chequers true idZeroExternals (worldWithFile []) none 16
      table (by decide) rfl ht⟩

/-! ## Third-party two-sided records -/

/-- C20: `ReadExactBearoff` addresses the 12 bytes it reads at
`us2 * N + them2 + 16`, without the factor 12 of the record size its comment
states.  With 6 points and 1 chequer (`N = 7`) the native positions 0 and 1
have the third-party pairs (0, 0) and (0, 1) and are read at file offsets 16
and 17: the two 12-byte ranges share 11 bytes, and on a file whose byte at
offset `i` is `i` the first value of position 0 is made of the bytes 16, 17, 18
and that of position 1 of the bytes 17, 18, 19.  Each value decodes as
`v / 4194000 - 2`. -/
theorem ReadExactBearoff_records_overlap :
    (∀ (E : Externals) (pbc : bearoffcontext) (iPos : Nat),
      exactOffset E pbc iPos
        = wrapUInt (boardNr (E.PositionFromBearoff
              (iPos / (wrapUInt (Combination (pbc.nChequers + pbc.nPoints) pbc.nPoints)).toNat)
              pbc.nPoints pbc.nChequers) pbc.nPoints.toNat pbc.nPoints.toNat pbc.nChequers
            * Combination (pbc.nChequers + pbc.nPoints) pbc.nPoints
            + boardNr (E.PositionFromBearoff
              (iPos % (wrapUInt (Combination (pbc.nChequers + pbc.nPoints) pbc.nPoints)).toNat)
              pbc.nPoints pbc.nChequers) pbc.nPoints.toNat pbc.nPoints.toNat pbc.nChequers
            + 16)) ∧
    Combination (exactContext.nChequers + exactContext.nPoints) exactContext.nPoints = 7 ∧
    boardNr (nativeExternals.PositionFromBearoff 0 6 1) 6 6 1 = 0 ∧
    boardNr (nativeExternals.PositionFromBearoff 1 6 1) 6 6 1 = 1 ∧
    exactOffset nativeExternals exactContext 0 = 16 ∧
    exactOffset nativeExternals exactContext 1 = 17 ∧
    ∃ pbcA arA ausA pbcB arB ausB,
      ReadExactBearoff nativeExternals (worldWithFile (List.range 40)) exactContext 0
        = .ok (pbcA, arA, ausA) ∧
      ReadExactBearoff nativeExternals (worldWithFile (List.range 40)) exactContext 1
        = .ok (pbcB, arB, ausB) ∧
      arA 0 = ((16 + 256 * 17 + 65536 * 18 : Nat) : ℚ) / 4194000 - 2 ∧
      arB 0 = ((17 + 256 * 18 + 65536 * 19 : Nat) : ℚ) / 4194000 - 2 ∧
      ausA 0 = 17 + 256 * 18 ∧ ausB 0 = 18 + 256 * 19 := by
  refine ⟨fun _ _ _ => rfl, by decide, by decide, by decide, by decide, by decide, ?_⟩
  have hA : exactOffset nativeExternals exactContext 0 = 16 := by decide
  have hB : exactOffset nativeExternals exactContext 1 = 17 := by decide
  have rA : (worldWithFile (List.range 40)).seekRead exactContext.h 16 12
      = some [16, 17, 18, 19, 20, 21, 22, 23, 24, 25, 26, 27] := by decide
  have rB : (worldWithFile (List.range 40)).seekRead exactContext.h 17 12
      = some [17, 18, 19, 20, 21, 22, 23, 24, 25, 26, 27, 28] := by decide
  unfold ReadExactBearoff
  rw [hA, hB, rA, rB]
  refine ⟨_, _, _, _, _, _, rfl, rfl, ?_, ?_, ?_, ?_⟩
  · have : ((worldWithFile (List.range 40)).buffer [16, 17, 18, 19, 20, 21, 22, 23, 24, 25, 26, 27]
        (3 * 0) % 256) |||
        (((worldWithFile (List.range 40)).buffer [16, 17, 18, 19, 20, 21, 22, 23, 24, 25, 26, 27]
          (3 * 0 + 1) % 256) <<< 8) |||
        (((worldWithFile (List.range 40)).buffer [16, 17, 18, 19, 20, 21, 22, 23, 24, 25, 26, 27]
          (3 * 0 + 2) % 256) <<< 16) = 16 + 256 * 17 + 65536 * 18 := by decide
    simp only [this]
  · have : ((worldWithFile (List.range 40)).buffer [17, 18, 19, 20, 21, 22, 23, 24, 25, 26, 27, 28]
        (3 * 0) % 256) |||
        (((worldWithFile (List.range 40)).buffer [17, 18, 19, 20, 21, 22, 23, 24, 25, 26, 27, 28]
          (3 * 0 + 1) % 256) <<< 8) |||
        (((worldWithFile (List.range 40)).buffer [17, 18, 19, 20, 21, 22, 23, 24, 25, 26, 27, 28]
          (3 * 0 + 2) % 256) <<< 16) = 17 + 256 * 18 + 65536 * 19 := by decide
    simp only [this]
  · decide
  · decide

/-! ## Native index convention and the move heuristic -/

theorem belowCount_zero (m c : Nat) : belowCount m c 0 = 0 := by
  unfold belowCount; simp

theorem belowCount_succ (m c k : Nat) :
    belowCount m c (k + 1) = belowCount m c k + boardCount m (c - k) := by
  unfold belowCount; rw [Finset.sum_range_succ]

theorem bucketOf_le (m c id : Nat) : ∀ n, bucketOf m c id n ≤ n := by
  intro n
  induction n with
  | zero => simp [bucketOf]
  | succ n ih =>
    unfold bucketOf
    split_ifs
    · exact le_rfl
    · omega

theorem bucketOf_spec (m c id : Nat) :
    ∀ n, belowCount m c (bucketOf m c id n) ≤ id ∧
      ∀ k, bucketOf m c id n < k → k ≤ n → id < belowCount m c k := by
  intro n
  induction n with
  | zero =>
    refine ⟨?_, fun k h1 h2 => ?_⟩
    · simp [bucketOf, belowCount_zero]
    · simp [bucketOf] at h1; omega
  | succ n ih =>
    unfold bucketOf
    by_cases h : belowCount m c (n + 1) ≤ id
    · rw [if_pos h]
      exact ⟨h, fun k h1 h2 => by omega⟩
    · rw [if_neg h]
      refine ⟨ih.1, fun k h1 h2 => ?_⟩
      by_cases hk : k = n + 1
      · subst hk; omega
      · exact ih.2 k h1 (by omega)

/-- A rank below the number of boards falls in the bucket found by `bucketOf`. -/
theorem bucketOf_upper (m c id : Nat) (h : id < boardCount (m + 1) c) :
    id < belowCount m c (bucketOf m c id c + 1) := by
  by_cases hk : bucketOf m c id c = c
  · rw [hk, belowCount_full]; exact h
  · have := bucketOf_le m c id c
    exact (bucketOf_spec m c id c).2 _ (by omega) (by omega)

theorem sum_update_beyond (f : Nat → Nat) (m v : Nat) :
    (∑ i ∈ Finset.range m, Function.update f m v i) = ∑ i ∈ Finset.range m, f i := by
  apply Finset.sum_congr rfl
  intro i hi
  have : i ≠ m := by
    have := Finset.mem_range.mp hi
    omega
  rw [Function.update_noteq this]

/-- The board of any id holds at most `c` chequers. -/
theorem unrankN_sum : ∀ m c id, (∑ i ∈ Finset.range m, unrankN m c id i) ≤ c := by
  intro m
  induction m with
  | zero => intro c id; simp
  | succ m ih =>
    intro c id
    rw [Finset.sum_range_succ]
    simp only [unrankN]
    rw [sum_update_beyond, Function.update_same]
    have h1 := ih (c - bucketOf m c id c) (id - belowCount m c (bucketOf m c id c))
    have h2 := bucketOf_le m c id c
    omega

/-- Ranking the board of an id gives the id back. -/
theorem rankN_unrankN : ∀ m c id, id < boardCount m c → rankN (unrankN m c id) m c = id := by
  intro m
  induction m with
  | zero =>
    intro c id h
    rw [boardCount_zero_left] at h
    simp only [rankN]
    omega
  | succ m ih =>
    intro c id h
    have hup := bucketOf_upper m c id h
    have hlo := (bucketOf_spec m c id c).1
    rw [belowCount_succ] at hup
    simp only [rankN, unrankN, Function.update_same]
    rw [rankN_congr _ (unrankN m (c - bucketOf m c id c) (id - belowCount m c (bucketOf m c id c)))
      m _ (fun i hi => Function.update_noteq (by omega) _ _),
      ih _ _ (by omega)]
    omega

/-- Lowering the count on a point, whatever happens on the nearer points, gives
a board of smaller rank. -/
theorem rankN_lt_of_lex (b b2 : Nat → Nat) :
    ∀ m c n, n < m → b2 n < b n → (∀ i, n < i → i < m → b2 i = b i) →
      (∑ i ∈ Finset.range m, b i) ≤ c → (∑ i ∈ Finset.range m, b2 i) ≤ c →
      rankN b2 m c < rankN b m c := by
  intro m
  induction m with
  | zero => intro c n h; omega
  | succ m ih =>
    intro c n hn hlt hsame hs hs2
    rw [Finset.sum_range_succ] at hs hs2
    simp only [rankN]
    by_cases hnm : n = m
    · subst hnm
      have h1 := rankN_lt b2 n (c - b2 n) (by omega)
      have h2 : belowCount n c (b2 n + 1) ≤ belowCount n c (b n) := belowCount_mono n c (by omega)
      rw [belowCount_succ] at h2
      omega
    · have e : b2 m = b m := hsame m (by omega) (by omega)
      rw [e]
      have := ih (c - b m) n (by omega) hlt (fun i h1 h2 => hsame i h1 (by omega)) (by omega)
        (by omega)
      omega

theorem playDie_eq (b : Nat → Int) (die : Nat) (rest : List Nat) :
    playDie b die rest = if rearmost b 6 < 0 then .ok none
      else moveChequer b die (sourcePoint b die rest (rearmost b 6)) := rfl

theorem sum_update_int (f : Nat → Int) (m n : Nat) (hn : n < m) (v : Int) :
    (∑ i ∈ Finset.range m, Function.update f n v i) = (∑ i ∈ Finset.range m, f i) - f n + v := by
  have hmem : n ∈ Finset.range m := Finset.mem_range.mpr hn
  rw [Finset.sum_update_of_mem hmem, Finset.sdiff_singleton_eq_erase,
    ← Finset.add_sum_erase _ f hmem]
  ring

/-- The highest occupied point, when there is one. -/
theorem rearmost_spec (b : Nat → Int) :
    ∀ N, (rearmost b N = -1 ∧ ∀ i, i < N → b i = 0) ∨
      ∃ n, n < N ∧ rearmost b N = (n : Int) ∧ b n ≠ 0 ∧ ∀ i, n < i → i < N → b i = 0 := by
  intro N
  induction N with
  | zero => exact Or.inl ⟨rfl, fun i h => by omega⟩
  | succ N ih =>
    unfold rearmost
    by_cases h : b N ≠ 0
    · rw [if_pos h]
      exact Or.inr ⟨N, by omega, rfl, h, fun i h1 h2 => by omega⟩
    · rw [if_neg h]
      have h0 : b N = 0 := not_not.mp h
      rcases ih with ⟨e, hz⟩ | ⟨n, hn, e, hb, hz⟩
      · refine Or.inl ⟨e, fun i hi => ?_⟩
        by_cases hiN : i = N
        · rw [hiN]; exact h0
        · exact hz i (by omega)
      · refine Or.inr ⟨n, by omega, e, hb, fun i h1 h2 => ?_⟩
        by_cases hiN : i = N
        · rw [hiN]; exact h0
        · exact hz i h1 (by omega)

theorem comboPoint_spec (b : Nat → Int) :
    ∀ (rest : List Nat) (t s : Nat), comboPoint b t rest = some s → s < 6 ∧ b s ≠ 0 := by
  intro rest
  induction rest with
  | nil => intro t s h; simp [comboPoint] at h
  | cons d rest ih =>
    intro t s h
    unfold comboPoint at h
    by_cases c : t + d < 6 ∧ b (t + d) ≠ 0
    · rw [if_pos c] at h
      injection h with h
      subst h
      exact c
    · rw [if_neg c] at h
      exact ih _ _ h

theorem vacatePoint_spec (b : Nat → Int) (die : Nat) :
    ∀ K : Nat,
      (List.range K).foldl
        (fun (n : Int) (k : Nat) =>
          let iSearch := die + k
          if b iSearch ≥ 2 ∧ b (iSearch - die) = 0 ∧
              (n = -1 ∨ b iSearch > b n.toNat) then (iSearch : Int) else n) (-1) = -1 ∨
      ∃ k, k < K ∧ (List.range K).foldl
        (fun (n : Int) (k : Nat) =>
          let iSearch := die + k
          if b iSearch ≥ 2 ∧ b (iSearch - die) = 0 ∧
              (n = -1 ∨ b iSearch > b n.toNat) then (iSearch : Int) else n) (-1)
          = ((die + k : Nat) : Int) ∧ 2 ≤ b (die + k) := by
  intro K
  induction K with
  | zero => exact Or.inl rfl
  | succ K ih =>
    rw [List.range_succ, List.foldl_append]
    simp only [List.foldl_cons, List.foldl_nil]
    split_ifs with c
    · exact Or.inr ⟨K, by omega, rfl, c.1⟩
    · rcases ih with e | ⟨k, hk, e, hb⟩
      · exact Or.inl e
      · exact Or.inr ⟨k, by omega, e, hb⟩

theorem sparePoint_spec (b : Nat → Int) (die : Nat) :
    ∀ K : Nat, 1 ≤ K →
      ∃ k, k < K ∧ (List.range K).foldl
        (fun (n : Int) (k : Nat) =>
          let iSearch := die + k
          if n = -1 ∨ b iSearch > b n.toNat ∨
              (b iSearch = b n.toNat ∧
                b (iSearch - die) < b (n.toNat - die)) then (iSearch : Int) else n) (-1)
          = ((die + k : Nat) : Int) ∧ ∀ j, j < K → b (die + j) ≤ b (die + k) := by
  intro K
  induction K with
  | zero => intro h; omega
  | succ K ih =>
    intro _
    rw [List.range_succ, List.foldl_append]
    simp only [List.foldl_cons, List.foldl_nil]
    rcases Nat.eq_zero_or_pos K with hK | hK
    · subst hK
      refine ⟨0, by omega, ?_, fun j hj => ?_⟩
      · simp
      · have : j = 0 := by omega
        rw [this]
    · obtain ⟨k, hk, e, hmax⟩ := ih hK
      rw [e]
      have hne : ¬ (((die + k : Nat) : Int) = -1) := by omega
      simp only [hne, false_or, Int.toNat_ofNat]
      split_ifs with c
      · refine ⟨K, by omega, rfl, fun j hj => ?_⟩
        have hkK : b (die + k) ≤ b (die + K) := by
          rcases c with c | c
          · omega
          · omega
        by_cases hjK : j = K
        · rw [hjK]
        · exact le_trans (hmax j (by omega)) hkK
      · refine ⟨k, by omega, rfl, fun j hj => ?_⟩
        by_cases hjK : j = K
        · rw [hjK]
          by_contra hcon
          exact c (Or.inl (by omega))
        · exact hmax j (by omega)

/-- A board that differs from a legal board by one chequer less on point `m`,
no change beyond `m` and no more chequers in total is legal and has a smaller
rank. -/
theorem move_legal (b b2 : Nat → Int) (m : Nat) (hm : m < 6) (hL : LegalBoard 6 15 b)
    (hbm : 0 < b m) (h1 : b2 m = b m - 1) (h2 : ∀ i, m < i → i < 6 → b2 i = b i)
    (h3 : ∀ i, i < 6 → 0 ≤ b2 i)
    (h4 : (∑ i ∈ Finset.range 6, b2 i) ≤ ∑ i ∈ Finset.range 6, b i) :
    LegalBoard 6 15 b2 ∧
      rankN (fun i => (b2 i).toNat) 6 15 < rankN (fun i => (b i).toNat) 6 15 := by
  have hL2 : LegalBoard 6 15 b2 := ⟨h3, le_trans h4 hL.2⟩
  refine ⟨hL2, ?_⟩
  have t1 := (legal_toNat 6 15 b hL).2
  have t2 := (legal_toNat 6 15 b2 hL2).2
  apply rankN_lt_of_lex (fun i => (b i).toNat) (fun i => (b2 i).toNat) 6 15 m hm
  · show (b2 m).toNat < (b m).toNat
    rw [h1]
    omega
  · intro i hi1 hi2
    show (b2 i).toNat = (b i).toNat
    rw [h2 i hi1 hi2]
  · exact t1
  · exact t2

/-- Playing a chequer from an occupied point keeps the board legal and lowers
its rank. -/
theorem moveChequer_spec (b : Nat → Int) (die : Nat) (hd : 1 ≤ die) (m : Nat) (hm : m < 6)
    (hL : LegalBoard 6 15 b) (hbm : 0 < b m) :
    ∃ b2, moveChequer b die (m : Int) = .ok (some b2) ∧ LegalBoard 6 15 b2 ∧
      rankN (fun i => (b2 i).toNat) 6 15 < rankN (fun i => (b i).toNat) 6 15 := by
  unfold moveChequer
  have c1 : ¬ ((m : Int) < 0) := by omega
  have c2 : ¬ (b m = 0) := by omega
  simp only [c1, if_false, Int.toNat_ofNat, c2]
  by_cases hge : (m : Int) ≥ (die : Int)
  · rw [if_pos hge]
    have hne : m - die ≠ m := by omega
    have hlt : m - die < 6 := by omega
    refine ⟨_, rfl, ?_⟩
    apply move_legal b _ m hm hL hbm
    · rw [Function.update_noteq (Ne.symm hne), Function.update_same]
    · intro i hi1 hi2
      rw [Function.update_noteq (by omega), Function.update_noteq (by omega)]
    · intro i hi
      by_cases e1 : i = m - die
      · subst e1
        rw [Function.update_same, Function.update_noteq hne]
        have := hL.1 (m - die) hlt
        omega
      · rw [Function.update_noteq e1]
        by_cases e2 : i = m
        · subst e2
          rw [Function.update_same]
          omega
        · rw [Function.update_noteq e2]
          exact hL.1 i hi
    · rw [sum_update_int _ 6 (m - die) hlt, Function.update_noteq hne,
        sum_update_int _ 6 m hm]
      omega
  · rw [if_neg hge]
    refine ⟨_, rfl, ?_⟩
    apply move_legal b _ m hm hL hbm
    · rw [Function.update_same]
    · intro i hi1 hi2
      rw [Function.update_noteq (by omega)]
    · intro i hi
      by_cases e2 : i = m
      · subst e2
        rw [Function.update_same]
        omega
      · rw [Function.update_noteq e2]
        exact hL.1 i hi
    · rw [sum_update_int _ 6 m hm]
      omega

/-- The point chosen by the heuristic is on the board and occupied. -/
theorem sourcePoint_spec (b : Nat → Int) (die : Nat) (rest : List Nat) (hd1 : 1 ≤ die)
    (hd6 : die ≤ 6) (hL : LegalBoard 6 15 b) (m : Nat) (hm : m < 6) (hbm : b m ≠ 0) :
    ∃ n : Nat, sourcePoint b die rest (m : Int) = (n : Int) ∧ n < 6 ∧ 0 < b n := by
  have pos : ∀ i, i < 6 → b i ≠ 0 → 0 < b i := by
    intro i hi hne
    have := hL.1 i hi
    omega
  unfold sourcePoint
  by_cases h1 : b (die - 1) ≠ 0
  · rw [if_pos h1]
    exact ⟨die - 1, rfl, by omega, pos _ (by omega) h1⟩
  · rw [if_neg h1]
    have h10 : b (die - 1) = 0 := not_not.mp h1
    by_cases h2 : ((die : Int) - 1) > (m : Int)
    · rw [if_pos h2]
      exact ⟨m, rfl, hm, pos m hm hbm⟩
    · rw [if_neg h2]
      have hdm : die ≤ m := by
        have : die - 1 ≠ m := by
          intro e
          rw [e] at h10
          exact hbm h10
        omega
      cases hc : comboPoint b (die - 1) rest with
      | some t =>
        obtain ⟨ht6, htb⟩ := comboPoint_spec b rest (die - 1) t hc
        exact ⟨t, rfl, ht6, pos t ht6 htb⟩
      | none =>
        have hK : ((m : Int) + 1 - (die : Int)).toNat = m + 1 - die := by omega
        dsimp only
        rcases vacatePoint_spec b die (m + 1 - die) with e | ⟨k, hk, e, hb2⟩
        · have hv : vacatePoint b die (m : Int) = -1 := by
            unfold vacatePoint
            rw [hK]
            exact e
          rw [hv]
          have c : ¬ ((-1 : Int) ≥ 0) := by omega
          rw [if_neg c]
          obtain ⟨k, hk, e2, hmax⟩ := sparePoint_spec b die (m + 1 - die) (by omega)
          have hs : sparePoint b die (m : Int) = ((die + k : Nat) : Int) := by
            unfold sparePoint
            rw [hK]
            exact e2
          rw [hs]
          refine ⟨die + k, rfl, by omega, ?_⟩
          have hmm := hmax (m - die) (by omega)
          have e3 : die + (m - die) = m := by omega
          rw [e3] at hmm
          have := pos m hm hbm
          omega
        · have hv : vacatePoint b die (m : Int) = ((die + k : Nat) : Int) := by
            unfold vacatePoint
            rw [hK]
            exact e
          rw [hv]
          have c : ((die + k : Nat) : Int) ≥ 0 := by omega
          rw [if_pos c]
          exact ⟨die + k, rfl, by omega, by omega⟩

/-- One die: either the board is empty and nothing is played, or a chequer is
played and the rank of the board drops. -/
theorem playDie_spec (b : Nat → Int) (die : Nat) (rest : List Nat) (hd1 : 1 ≤ die)
    (hd6 : die ≤ 6) (hL : LegalBoard 6 15 b) :
    (playDie b die rest = .ok none ∧ ∀ i, i < 6 → b i = 0) ∨
      ∃ b2, playDie b die rest = .ok (some b2) ∧ LegalBoard 6 15 b2 ∧
        rankN (fun i => (b2 i).toNat) 6 15 < rankN (fun i => (b i).toNat) 6 15 := by
  rw [playDie_eq]
  rcases rearmost_spec b 6 with ⟨e, hz⟩ | ⟨m, hm, e, hbm, _⟩
  · left
    rw [e]
    exact ⟨rfl, hz⟩
  · right
    rw [e]
    have c : ¬ ((m : Int) < 0) := by omega
    rw [if_neg c]
    obtain ⟨n, hn, hn6, hbn⟩ := sourcePoint_spec b die rest hd1 hd6 hL m hm hbm
    rw [hn]
    exact moveChequer_spec b die hd1 n hn6 hL hbn

/-- The dice of a roll: the board stays legal, its rank does not grow, and it
drops when there is a die to play and a chequer on the board. -/
theorem playDice_spec :
    ∀ (dice : List Nat), (∀ d, d ∈ dice → 1 ≤ d ∧ d ≤ 6) →
      ∀ (b : Nat → Int), LegalBoard 6 15 b →
        ∃ b2, playDice b dice = .ok b2 ∧ LegalBoard 6 15 b2 ∧
          rankN (fun i => (b2 i).toNat) 6 15 ≤ rankN (fun i => (b i).toNat) 6 15 ∧
          (dice ≠ [] → ¬ (∀ i, i < 6 → b i = 0) →
            rankN (fun i => (b2 i).toNat) 6 15 < rankN (fun i => (b i).toNat) 6 15) := by
  intro dice
  induction dice with
  | nil =>
    intro _ b hL
    exact ⟨b, rfl, hL, le_rfl, fun h => absurd rfl h⟩
  | cons d rest ih =>
    intro hd b hL
    obtain ⟨hd1, hd6⟩ := hd d (List.mem_cons_self _ _)
    rcases playDie_spec b d rest hd1 hd6 hL with ⟨e, hz⟩ | ⟨b1, e, hL1, hlt⟩
    · refine ⟨b, ?_, hL, le_rfl, fun _ hne => absurd hz hne⟩
      unfold playDice
      rw [e]
    · obtain ⟨b2, e2, hL2, hle, _⟩ := ih (fun x hx => hd x (List.mem_cons_of_mem _ hx)) b1 hL1
      refine ⟨b2, ?_, hL2, by omega, fun _ _ => by omega⟩
      unfold playDice
      rw [e]
      exact e2

theorem rankN_zero_board (b : Nat → Int) (hz : ∀ i, i < 6 → b i = 0) :
    rankN (fun i => (b i).toNat) 6 15 = 0 := by
  rw [rankN_congr (fun i => (b i).toNat) (fun _ => 0) 6 15
    (fun i hi => by dsimp only; rw [hz i hi]; rfl)]
  decide

/-- Under the native index convention every roll takes a legal non-empty board
to a board of smaller id. -/
theorem HeuristicBearoff_native (E : Externals) (hE : E.PositionBearoff = PositionBearoffSpec)
    (b : Nat → Int) (hL : LegalBoard 6 15 b) (hne : ¬ (∀ i, i < 6 → b i = 0))
    (r : Nat × Nat) (hr : r ∈ allRolls) :
    ∃ b2 id2, HeuristicBearoff E b r.1 r.2 = .ok (b2, ((id2 : Nat) : Int)) ∧
      id2 < rankN (fun i => (b i).toNat) 6 15 := by
  obtain ⟨r2, r21, r1⟩ := allRolls_bounds r hr
  have hdice : ∀ d, d ∈ (if r.1 = r.2 then [r.1, r.1, r.1, r.1] else [r.1, r.2]) →
      1 ≤ d ∧ d ≤ 6 := by
    intro d hd
    split_ifs at hd <;> simp at hd <;> omega
  have hnil : (if r.1 = r.2 then [r.1, r.1, r.1, r.1] else [r.1, r.2]) ≠ [] := by
    split_ifs <;> simp
  obtain ⟨b2, e, hL2, _, hlt⟩ := playDice_spec _ hdice b hL
  have hlt2 := hlt hnil hne
  have hb := rankN_lt (fun i => (b i).toNat) 6 15 (legal_toNat 6 15 b hL).2
  have hcount : boardCount 6 15 = 54264 := by decide
  refine ⟨b2, rankN (fun i => (b2 i).toNat) 6 15, ?_, hlt2⟩
  unfold HeuristicBearoff
  have c : ¬ (r.1 ≠ r.2 ∧ ¬ (r.1 > r.2)) := by omega
  rw [if_neg c]
  dsimp only
  rw [e, hE]
  have e3 : PositionBearoffSpec b2 6 15 = rankN (fun i => (b2 i).toNat) 6 15 := rfl
  simp only [e3]
  rw [wrapInt_of_range _ (by omega) (by omega)]

/-- The board of an id below 54264 under the native convention is legal and
has that id as its rank. -/
theorem nativeBoard_spec (id : Nat) (h : id < 54264) :
    LegalBoard 6 15 (PositionFromBearoffSpec id 6 15) ∧
      rankN (fun i => (PositionFromBearoffSpec id 6 15 i).toNat) 6 15 = id := by
  have hcount : boardCount 6 15 = 54264 := by decide
  refine ⟨⟨fun i _ => ?_, ?_⟩, ?_⟩
  · show (0 : Int) ≤ ((unrankN 6 15 id i : Nat) : Int)
    omega
  · show (∑ i ∈ Finset.range 6, ((unrankN 6 15 id i : Nat) : Int)) ≤ 15
    have := unrankN_sum 6 15 id
    exact_mod_cast this
  · have e : (fun i => (PositionFromBearoffSpec id 6 15 i).toNat) = unrankN 6 15 id := by
      funext i
      show (((unrankN 6 15 id i : Nat) : Int)).toNat = unrankN 6 15 id i
      exact Int.toNat_ofNat _
    rw [e]
    exact rankN_unrankN 6 15 id (by omega)

/-- Under the native convention every roll of every id in [1, 54264) has a
child id below the id. -/
theorem native_children (E : Externals) (hE1 : E.PositionBearoff = PositionBearoffSpec)
    (hE2 : E.PositionFromBearoff = PositionFromBearoffSpec) (id : Nat) (h1 : 1 ≤ id)
    (h2 : id < 54264) (r : Nat × Nat) (hr : r ∈ allRolls) :
    ∃ b id2, HeuristicBearoff E (E.PositionFromBearoff id 6 15) r.1 r.2
        = .ok (b, ((id2 : Nat) : Int)) ∧ id2 < id := by
  obtain ⟨hL, hrank⟩ := nativeBoard_spec id h2
  have hne : ¬ (∀ i, i < 6 → PositionFromBearoffSpec id 6 15 i = 0) := by
    intro hz
    have := rankN_zero_board _ hz
    omega
  rw [hE2]
  obtain ⟨b2, id2, e, hlt⟩ := HeuristicBearoff_native E hE1 _ hL hne r hr
  exact ⟨b2, id2, e, by omega⟩

/-- C13: under the native index convention (`PositionBearoff` and
`PositionFromBearoff` as modelled from the spec), for every id in [1, 54264) and
every one of the 21 rolls, `HeuristicBearoff` on the board of the id returns an
id that is at least 0 and strictly below the id; hence `GenerateBearoff`
returns for that id on every table memory (neither assertion fails and every
child record read lies before the record written), and `HeuristicDatabase`
builds its table whenever the buffer is allocated. -/
theorem HeuristicBearoff_child_id_below (E : Externals)
    (hE1 : E.PositionBearoff = PositionBearoffSpec)
    (hE2 : E.PositionFromBearoff = PositionFromBearoffSpec) (id : Nat) (h1 : 1 ≤ id)
    (h2 : id < 54264) :
    (∀ r, r ∈ allRolls → ∃ b iBest,
      HeuristicBearoff E (E.PositionFromBearoff id 6 15) r.1 r.2 = .ok (b, iBest) ∧
        0 ≤ iBest ∧ iBest < (id : Int)) ∧
    (∀ p : Nat → Nat, ∃ q, GenerateBearoff E p id = .ok q) ∧
    (∀ w : World, w.bufferAlloc = true →
      ∃ table, HeuristicDatabase E w = .ok (some table)) := by
  refine ⟨?_, ?_, ?_⟩
  · intro r hr
    obtain ⟨b, id2, e, hlt⟩ := native_children E hE1 hE2 id h1 h2 r hr
    exact ⟨b, (id2 : Int), e, by omega, by omega⟩
  · intro p
    obtain ⟨q, hq, _⟩ := generate_eq E p id (childId E id) (by
      intro r hr
      obtain ⟨b, id2, hb, hlt⟩ := native_children E hE1 hE2 id h1 h2 r hr
      have e : childId E id r = id2 := by
        unfold childId
        rw [hb]
        simp
      rw [e]
      exact ⟨b, hb, hlt⟩)
    exact ⟨q, hq⟩
  · intro w hw
    exact HeuristicDatabase_total E w hw
      (fun nId n1 n2 r hr => native_children E hE1 hE2 nId n1 n2 r hr)

theorem HeuristicBearoff_child_id_below_witness :
    (∀ r, r ∈ allRolls → ∃ b iBest,
      HeuristicBearoff nativeExternals (nativeExternals.PositionFromBearoff 1000 6 15) r.1 r.2
        = .ok (b, iBest) ∧ 0 ≤ iBest ∧ iBest < ((1000 : Nat) : Int)) ∧
    (∀ p : Nat → Nat, ∃ q, GenerateBearoff nativeExternals p 1000 = .ok q) ∧
    (∀ w : World, w.bufferAlloc = true →
      ∃ table, HeuristicDatabase nativeExternals w = .ok (some table)) :=
  HeuristicBearoff_child_id_below nativeExternals rfl rfl 1000 (by decide) (by decide)

/-! ## Normal approximation -/

/-- C21 (as implemented): for every mean and every standard deviation at or
below `1e-7`, bucket `k` of the histogram evaluated by `fnd` is 1 when the mean
lies within `1e-7` of `k` and 0 otherwise.  Hence, when the mean lies within
`1e-7` of an integer bucket `k0`, the histogram is the unit impulse at
`k0 = round(mean)`; and when the mean lies within `1e-7` of no bucket, every
bucket is 0. -/
theorem fnd_impulse_near_integer (E : Externals) (mu sigma : ℚ)
    (hs : sigma ≤ 1 / 10000000) :
    (∀ k : Nat, fnd E (k : ℚ) mu sigma = if |mu - (k : ℚ)| < 1 / 10000000 then 1 else 0) ∧
    (∀ k0 : Nat, |mu - (k0 : ℚ)| < 1 / 10000000 →
      round mu = (k0 : Int) ∧
      ∀ k : Nat, fnd E (k : ℚ) mu sigma = if k = k0 then 1 else 0) ∧
    ((∀ k : Nat, k < 32 → 1 / 10000000 ≤ |mu - (k : ℚ)|) →
      ∀ k : Nat, k < 32 → fnd E (k : ℚ) mu sigma = 0) := by
  have base : ∀ k : Nat,
      fnd E (k : ℚ) mu sigma = if |mu - (k : ℚ)| < 1 / 10000000 then 1 else 0 := by
    intro k
    unfold fnd
    simp only [hs, if_true]
  refine ⟨base, ?_, ?_⟩
  · intro k0 h0
    have hab := abs_lt.mp h0
    refine ⟨?_, ?_⟩
    · rw [round_eq]
      rw [Int.floor_eq_iff]
      push_cast
      constructor <;> linarith [hab.1, hab.2]
    · intro k
      rw [base k]
      by_cases hk : k = k0
      · subst hk
        rw [if_pos h0, if_pos rfl]
      · rw [if_neg hk, if_neg]
        intro hk2
        have hab2 := abs_lt.mp hk2
        have hd : |(k : ℚ) - (k0 : ℚ)| < 1 := by
          rw [abs_lt]
          constructor <;> linarith [hab.1, hab.2, hab2.1, hab2.2]
        have hdi : |(k : Int) - (k0 : Int)| < 1 := by
          have : ((|(k : Int) - (k0 : Int)| : Int) : ℚ) < 1 := by
            push_cast
            exact hd
          exact_mod_cast this
        have : (k : Int) - (k0 : Int) = 0 := by
          have := abs_lt.mp hdi
          omega
        omega
  · intro hfar k hk
    rw [base k, if_neg (not_lt.mpr (hfar k hk))]

theorem fnd_impulse_near_integer_witness :
    (∀ k : Nat, fnd idZeroExternals (k : ℚ) 3 0
        = if |(3 : ℚ) - (k : ℚ)| < 1 / 10000000 then 1 else 0) ∧
    (∀ k0 : Nat, |(3 : ℚ) - (k0 : ℚ)| < 1 / 10000000 →
      round (3 : ℚ) = (k0 : Int) ∧
      ∀ k : Nat, fnd idZeroExternals (k : ℚ) 3 0 = if k = k0 then 1 else 0) ∧
    ((∀ k : Nat, k < 32 → 1 / 10000000 ≤ |(3 : ℚ) - (k : ℚ)|) →
      ∀ k : Nat, k < 32 → fnd idZeroExternals (k : ℚ) 3 0 = 0) :=
  fnd_impulse_near_integer idZeroExternals 3 0 (by norm_num)

/-- C21 (as stated) fails: with mean 17/5 = 3.4 and standard deviation 0 the
rounded mean is 3, yet bucket 3 and every other bucket of the histogram
evaluated by `fnd` is 0. -/
theorem fnd_no_impulse_at_rounded_mean :
    round (17 / 5 : ℚ) = 3 ∧ (0 : ℚ) ≤ 1 / 10000000 ∧
      fnd idZeroExternals 3 (17 / 5) 0 = 0 ∧
      ∀ k : Nat, k < 32 → fnd idZeroExternals (k : ℚ) (17 / 5) 0 = 0 := by
  have hfar : ∀ k : Nat, (1 : ℚ) / 10000000 ≤ |(17 / 5 : ℚ) - (k : ℚ)| := by
    intro k
    rcases Nat.lt_or_ge k 4 with h | h
    · have : (k : ℚ) ≤ 3 := by exact_mod_cast Nat.lt_succ_iff.mp h
      rw [abs_of_nonneg (by linarith)]
      linarith
    · have : (4 : ℚ) ≤ (k : ℚ) := by exact_mod_cast h
      rw [abs_of_nonpos (by linarith)]
      linarith
  have hz : ∀ k : Nat, fnd idZeroExternals (k : ℚ) (17 / 5) 0 = 0 := by
    intro k
    unfold fnd
    have c : (0 : ℚ) ≤ 1 / 10000000 := by norm_num
    simp only [c, if_true]
    rw [if_neg (not_lt.mpr (hfar k))]
  refine ⟨?_, by norm_num, ?_, fun k _ => hz k⟩
  · rw [round_eq, Int.floor_eq_iff]
    norm_num
  · have := hz 3
    simpa using this

/-! ## Unsupported queries -/

/-- C23 (as implemented): for every context that is not native and for every
native context whose subtype is not one-sided (two-sided, hypergammon or
unset), `BearoffDist` stops on a failed `g_assert` for every position id: it
returns neither an error result nor a histogram. -/
theorem BearoffDist_asserts_one_sided (E : Externals) (w : World) (pbc : bearoffcontext)
    (nPosID : Nat) (h : pbc.bc ≠ .BEAROFF_GNUBG ∨ pbc.bt ≠ .BEAROFF_ONESIDED) :
    BearoffDist E w pbc nPosID = .error .assertion ∧
      BearoffDist E w pbc nPosID ≠ .error .failed ∧
      ∀ r, BearoffDist E w pbc nPosID ≠ .ok r := by
  have key : BearoffDist E w pbc nPosID = .error .assertion := by
    unfold BearoffDist
    cases hbc : pbc.bc with
    | BEAROFF_GNUBG =>
      rcases h with h | h
      · exact absurd hbc h
      · simp only [h, ne_eq, not_false_eq_true, if_true]
    | BEAROFF_EXACT_BEAROFF => rfl
    | BEAROFF_UNKNOWN => rfl
    | unset => rfl
  rw [key]
  refine ⟨rfl, ?_, ?_⟩
  · intro h2; cases h2
  · intro r h2; cases h2

theorem BearoffDist_asserts_one_sided_witness :
    BearoffDist idZeroExternals (worldWithFile [])
        { memoryContext 6 6 0 0 [] with bt := .BEAROFF_HYPERGAMMON } 7 = .error .assertion ∧
      BearoffDist idZeroExternals (worldWithFile [])
        { memoryContext 6 6 0 0 [] with bt := .BEAROFF_HYPERGAMMON } 7 ≠ .error .failed ∧
      ∀ r, BearoffDist idZeroExternals (worldWithFile [])
        { memoryContext 6 6 0 0 [] with bt := .BEAROFF_HYPERGAMMON } 7 ≠ .ok r :=
  BearoffDist_asserts_one_sided idZeroExternals (worldWithFile [])
    { memoryContext 6 6 0 0 [] with bt := .BEAROFF_HYPERGAMMON } 7
    (Or.inr (by intro h; cases h))

/-- C23 (as stated) fails: for the in-memory native two-sided context over
`twoSidedDb`, and for the third-party context `exactContext`, `BearoffDist`
at position 0 stops on a failed assertion; it does not return an error
result. -/
theorem BearoffDist_two_sided_aborts :
    (twoSidedContext 6 6 twoSidedDb).bc = .BEAROFF_GNUBG ∧
    (twoSidedContext 6 6 twoSidedDb).bt = .BEAROFF_TWOSIDED ∧
    BearoffDist idZeroExternals (worldWithFile []) (twoSidedContext 6 6 twoSidedDb) 0
      = .error .assertion ∧
    BearoffDist idZeroExternals (worldWithFile []) (twoSidedContext 6 6 twoSidedDb) 0
      ≠ .error .failed ∧
    exactContext.bc = .BEAROFF_EXACT_BEAROFF ∧
    BearoffDist idZeroExternals (worldWithFile []) exactContext 0 = .error .assertion ∧
    BearoffDist idZeroExternals (worldWithFile []) exactContext 0 ≠ .error .failed := by
  refine ⟨rfl, rfl, rfl, ?_, rfl, rfl, ?_⟩
  · intro h; cases h
  · intro h; cases h

/-- The two-sided reader returns whenever the database it is told to read in
memory is there. -/
theorem ReadTwoSidedBearoff_ok (w : World) (pbc : bearoffcontext) (iPos : Nat)
    (ar0 : Nat → ℚ) (aus0 : Nat → Nat) (hp : pbc.fInMemory ≠ 0 → pbc.p ≠ none) :
    ∃ ar aus, ReadTwoSidedBearoff w pbc iPos ar0 aus0
      = .ok ({ pbc with nReads := pbc.nReads + 1 }, ar, aus) := by
  unfold ReadTwoSidedBearoff
  by_cases hm : pbc.fInMemory ≠ 0
  · obtain ⟨mem, hmem⟩ : ∃ mem, pbc.p = some mem := by
      cases hpp : pbc.p with
      | none => exact absurd hpp (hp hm)
      | some mem => exact ⟨mem, rfl⟩
    dsimp only
    rw [if_pos hm]
    simp only [hmem]
    exact ⟨_, _, rfl⟩
  · dsimp only
    rw [if_neg hm]
    exact ⟨_, _, rfl⟩

/-- A returning call of the two-sided reader increments the read counter and
changes nothing else in the context. -/
theorem ReadTwoSidedBearoff_counter (w : World) (pbc pbc2 : bearoffcontext) (iPos : Nat)
    (ar0 ar : Nat → ℚ) (aus0 aus : Nat → Nat)
    (h : ReadTwoSidedBearoff w pbc iPos ar0 aus0 = .ok (pbc2, ar, aus)) :
    pbc2 = { pbc with nReads := pbc.nReads + 1 } := by
  unfold ReadTwoSidedBearoff at h
  dsimp only at h
  split at h
  · cases h
  · injection h with h
    injection h with h1 _
    exact h1.symm

/-- C22: for a native context whose cubeful flag is false, `BearoffCubeful`
returns -1 for every position id and leaves the context (in particular the
read counter) and the arrays `ar` and `aus` as they were; for a native context
whose cubeful flag is set (and whose database is there when it is flagged as
in memory) it returns 0, with the read counter incremented. -/
theorem BearoffCubeful_native (E : Externals) (w : World) (pbc : bearoffcontext) (iPos : Nat)
    (ar0 : Nat → ℚ) (aus0 : Nat → Nat) (hbc : pbc.bc = .BEAROFF_GNUBG) :
    (pbc.fCubeful = 0 →
      BearoffCubeful E w pbc iPos ar0 aus0 = .ok (-1, pbc, ar0, aus0)) ∧
    (pbc.fCubeful ≠ 0 → (pbc.fInMemory ≠ 0 → pbc.p ≠ none) →
      ∃ ar aus, BearoffCubeful E w pbc iPos ar0 aus0
        = .ok (0, { pbc with nReads := pbc.nReads + 1 }, ar, aus)) := by
  have e : BearoffCubeful E w pbc iPos ar0 aus0
      = if pbc.fCubeful = 0 then .ok (-1, pbc, ar0, aus0)
        else returned pbc (ar0, aus0) (ReadTwoSidedBearoff w pbc iPos ar0 aus0) := by
    unfold BearoffCubeful
    rw [hbc]
  refine ⟨?_, ?_⟩
  · intro hc
    rw [e, if_pos hc]
  · intro hc hp
    obtain ⟨ar, aus, hr⟩ := ReadTwoSidedBearoff_ok w pbc iPos ar0 aus0 hp
    refine ⟨ar, aus, ?_⟩
    rw [e, if_neg hc, hr]
    rfl

theorem BearoffCubeful_native_witness :
    ({ twoSidedContext 6 6 twoSidedDb with fCubeful := 0 }.fCubeful = 0 →
      BearoffCubeful idZeroExternals (worldWithFile [])
          { twoSidedContext 6 6 twoSidedDb with fCubeful := 0 } 0 (fun _ => 0) (fun _ => 0)
        = .ok (-1, { twoSidedContext 6 6 twoSidedDb with fCubeful := 0 },
            (fun _ => 0), (fun _ => 0))) ∧
    ({ twoSidedContext 6 6 twoSidedDb with fCubeful := 0 }.fCubeful ≠ 0 →
      ({ twoSidedContext 6 6 twoSidedDb with fCubeful := 0 }.fInMemory ≠ 0 →
        { twoSidedContext 6 6 twoSidedDb with fCubeful := 0 }.p ≠ none) →
      ∃ ar aus, BearoffCubeful idZeroExternals (worldWithFile [])
          { twoSidedContext 6 6 twoSidedDb with fCubeful := 0 } 0 (fun _ => 0) (fun _ => 0)
        = .ok (0, { { twoSidedContext 6 6 twoSidedDb with fCubeful := 0 } with
            nReads := { twoSidedContext 6 6 twoSidedDb with fCubeful := 0 }.nReads + 1 },
            ar, aus)) :=
  BearoffCubeful_native idZeroExternals (worldWithFile [])
    { twoSidedContext 6 6 twoSidedDb with fCubeful := 0 } 0 (fun _ => 0) (fun _ => 0) rfl

/-! ## Read counter -/

/-- A returning call of the hypergammon reader increments the read counter and
changes nothing else in the context. -/
theorem ReadHypergammon_counter (w : World) (pbc pbc2 : bearoffcontext) (iPos : Nat)
    (o0 e0 o e : Nat → ℚ)
    (h : ReadHypergammon w pbc iPos o0 e0 = .ok (pbc2, o, e)) :
    pbc2 = { pbc with nReads := pbc.nReads + 1 } := by
  unfold ReadHypergammon at h
  dsimp only at h
  split at h
  · cases h
  · injection h with h
    injection h with h1 _
    exact h1.symm

theorem ReadBearoffOneSidedExact_counter (w : World) (pbc pbc2 : bearoffcontext) (nPosID : Nat)
    (d : Dist) (h : ReadBearoffOneSidedExact w pbc nPosID = .ok (pbc2, d)) :
    pbc2 = { pbc with nReads := pbc.nReads + 1 } := by
  unfold ReadBearoffOneSidedExact at h
  dsimp only at h
  split at h
  · cases h
  · injection h with h
    injection h with h1 _
    exact h1.symm

theorem ReadExactBearoff_counter (E : Externals) (w : World) (pbc pbc2 : bearoffcontext)
    (iPos : Nat) (ar : Nat → ℚ) (aus : Nat → Nat)
    (h : ReadExactBearoff E w pbc iPos = .ok (pbc2, ar, aus)) :
    pbc2 = { pbc with nReads := pbc.nReads + 1 } := by
  unfold ReadExactBearoff at h
  split at h
  · cases h
  · split_ifs at h
    injection h with h
    injection h with h1 _
    exact h1.symm

/-- What `returned` gives back: 0 with the context of a successful read, or -1
with the context and the arrays of before the call. -/
theorem returned_cases {α : Type} (pbc : bearoffcontext) (out0 : α)
    (r : Except ReadError (bearoffcontext × α)) (code : Int) (pbc2 : bearoffcontext) (out : α)
    (h : returned pbc out0 r = .ok (code, pbc2, out)) :
    (code = 0 ∧ r = .ok (pbc2, out)) ∨
      (code = -1 ∧ r = .error .failed ∧ pbc2 = pbc ∧ out = out0) := by
  unfold returned at h
  split at h
  · injection h with h
    injection h with h1 h2
    injection h2 with h2 h3
    subst h1 h2 h3
    exact Or.inl ⟨rfl, rfl⟩
  · injection h with h
    injection h with h1 h2
    injection h2 with h2 h3
    subst h1 h2 h3
    exact Or.inr ⟨rfl, rfl, rfl, rfl⟩
  · cases h

/-- The hypergammon reader returns whenever the database it is told to read in
memory is there. -/
theorem ReadHypergammon_ok (w : World) (pbc : bearoffcontext) (iPos : Nat)
    (o0 e0 : Nat → ℚ) (hp : pbc.fInMemory ≠ 0 → pbc.p ≠ none) :
    ∃ o e, ReadHypergammon w pbc iPos o0 e0
      = .ok ({ pbc with nReads := pbc.nReads + 1 }, o, e) := by
  unfold ReadHypergammon
  by_cases hm : pbc.fInMemory ≠ 0
  · obtain ⟨mem, hmem⟩ : ∃ mem, pbc.p = some mem := by
      cases hpp : pbc.p with
      | none => exact absurd hpp (hp hm)
      | some mem => exact ⟨mem, rfl⟩
    dsimp only
    rw [if_pos hm]
    simp only [hmem]
    exact ⟨_, _, rfl⟩
  · dsimp only
    rw [if_neg hm]
    exact ⟨_, _, rfl⟩

/-- C24: a record read that returns success leaves the context with its read
counter increased by exactly 1 and every other field (format, subtype, points,
chequers, flags, handle, database) as it was: for `ReadTwoSidedBearoff`,
`ReadHypergammon` and `ReadBearoffOneSidedExact`, and for `BearoffCubeful`,
`BearoffHyper` and `BearoffDist` through which they are reached.  A call of
`BearoffCubeful` or `BearoffDist` that returns -1 leaves the whole context, and
so the read counter, as it was.  The two readers that never return an error do
return when the database flagged as in memory is there. -/
theorem record_read_counts_once (E : Externals) (w : World) (pbc : bearoffcontext)
    (iPos : Nat) :
    (∀ ar0 aus0 pbc2 ar aus, ReadTwoSidedBearoff w pbc iPos ar0 aus0 = .ok (pbc2, ar, aus) →
      pbc2 = { pbc with nReads := pbc.nReads + 1 }) ∧
    (∀ o0 e0 pbc2 o e, ReadHypergammon w pbc iPos o0 e0 = .ok (pbc2, o, e) →
      pbc2 = { pbc with nReads := pbc.nReads + 1 }) ∧
    (∀ pbc2 d, ReadBearoffOneSidedExact w pbc iPos = .ok (pbc2, d) →
      pbc2 = { pbc with nReads := pbc.nReads + 1 }) ∧
    (∀ ar0 aus0 code pbc2 ar aus,
      BearoffCubeful E w pbc iPos ar0 aus0 = .ok (code, pbc2, ar, aus) →
      (code = 0 ∧ pbc2 = { pbc with nReads := pbc.nReads + 1 }) ∨
        (code = -1 ∧ pbc2 = pbc ∧ ar = ar0 ∧ aus = aus0)) ∧
    (∀ o0 e0 pbc2 o e, BearoffHyper w pbc iPos o0 e0 = .ok (pbc2, o, e) →
      pbc2 = { pbc with nReads := pbc.nReads + 1 }) ∧
    (∀ d0 code pbc2 d, returned pbc d0 (BearoffDist E w pbc iPos) = .ok (code, pbc2, d) →
      (code = 0 ∧ pbc2 = { pbc with nReads := pbc.nReads + 1 }) ∨
        (code = -1 ∧ pbc2 = pbc ∧ d = d0)) ∧
    ((pbc.fInMemory ≠ 0 → pbc.p ≠ none) →
      (∀ ar0 aus0, ∃ ar aus, ReadTwoSidedBearoff w pbc iPos ar0 aus0
        = .ok ({ pbc with nReads := pbc.nReads + 1 }, ar, aus)) ∧
      (∀ o0 e0, ∃ o e, ReadHypergammon w pbc iPos o0 e0
        = .ok ({ pbc with nReads := pbc.nReads + 1 }, o, e))) := by
  refine ⟨?_, ?_, ?_, ?_, ?_, ?_, ?_⟩
  · intro ar0 aus0 pbc2 ar aus h
    exact ReadTwoSidedBearoff_counter w pbc pbc2 iPos ar0 ar aus0 aus h
  · intro o0 e0 pbc2 o e h
    exact ReadHypergammon_counter w pbc pbc2 iPos o0 e0 o e h
  · intro pbc2 d h
    exact ReadBearoffOneSidedExact_counter w pbc pbc2 iPos d h
  · intro ar0 aus0 code pbc2 ar aus h
    unfold BearoffCubeful at h
    split at h
    · split_ifs at h
      · injection h with h
        injection h with h1 h2
        injection h2 with h2 h3
        injection h3 with h3 h4
        exact Or.inr ⟨h1.symm, h2.symm, h3.symm, h4.symm⟩
      · rcases returned_cases pbc (ar0, aus0) _ code pbc2 (ar, aus) h with ⟨hc, hr⟩ | ⟨hc, _, hp, ho⟩
        · exact Or.inl ⟨hc, ReadTwoSidedBearoff_counter w pbc pbc2 iPos ar0 ar aus0 aus hr⟩
        · injection ho with h3 h4
          exact Or.inr ⟨hc, hp, h3, h4⟩
    · rcases returned_cases pbc (ar0, aus0) _ code pbc2 (ar, aus) h with ⟨hc, hr⟩ | ⟨hc, _, hp, ho⟩
      · left
        refine ⟨hc, ?_⟩
        split at hr
        · cases hr
        · rename_i q ar1 aus1 heq
          injection hr with hr
          injection hr with h1 _
          subst h1
          exact ReadExactBearoff_counter E w pbc q iPos ar1 aus1 heq
      · injection ho with h3 h4
        exact Or.inr ⟨hc, hp, h3, h4⟩
    · cases h
  · intro o0 e0 pbc2 o e h
    exact ReadHypergammon_counter w pbc pbc2 iPos o0 e0 o e h
  · intro d0 code pbc2 d h
    rcases returned_cases pbc d0 _ code pbc2 d h with ⟨hc, hr⟩ | ⟨hc, _, hp, ho⟩
    · exact Or.inl ⟨hc, BearoffDist_fields E w pbc pbc2 iPos d hr⟩
    · exact Or.inr ⟨hc, hp, ho⟩
  · intro hp
    exact ⟨fun ar0 aus0 => ReadTwoSidedBearoff_ok w pbc iPos ar0 aus0 hp,
      fun o0 e0 => ReadHypergammon_ok w pbc iPos o0 e0 hp⟩

/-! ## One-sided table without gammon data -/

/-- C30: for an in-memory uncompressed one-sided table without gammon data,
`GetDistUncompressed` decodes 64 values (128 bytes) starting at byte
`40 + 64 * id`: the finish half `aus[0..31]` is the record of `id`, and the
gammon-save half `aus[32..63]` is the record stored for `id + 1`, the 32
little-endian 16-bit values at byte `40 + 64 * (id + 1)`.  The records of `id`
and `id + 1` are taken to lie within the first `2^31` bytes of the table. -/
theorem GetDistUncompressed_second_half_is_next_record (w : World) (aus0 : Nat → Nat)
    (pbc : bearoffcontext) (mem : Nat → Nat) (id : Nat)
    (hp : pbc.p = some mem) (hm : pbc.fInMemory ≠ 0) (hg : pbc.fGammon = 0)
    (hid : 40 + 64 * (id + 2) ≤ 2147483648) :
    ∃ aus, GetDistUncompressed w aus0 pbc id = .ok aus ∧
      (∀ k, k < 32 → aus k = leWord mem (40 + 64 * id + 2 * k)) ∧
      (∀ j, j < 32 → aus (32 + j) = leWord mem (40 + 64 * (id + 1) + 2 * j)) := by
  have hoff : wrapInt (wrapUInt (40 + wrapUInt (64 * (id : Int) * 1)))
      = ((40 + 64 * id : Nat) : Int) := by
    rw [wrapUInt_of_range (64 * (id : Int) * 1) (by omega) (by omega),
      wrapUInt_of_range _ (by omega) (by omega), wrapInt_of_range _ (by omega) (by omega)]
    push_cast
    ring
  have hread : GetDistUncompressed w aus0 pbc id
      = .ok (CopyBytes aus0 (fun i => mem (40 + 64 * id + i)) 32 0 32 0) := by
    unfold GetDistUncompressed
    simp only [hg, ne_eq, not_true_eq_false, if_false, hm, not_false_eq_true, if_true, hp, hoff,
      Int.toNat_ofNat]
  refine ⟨_, hread, ?_, ?_⟩
  · intro k hk
    rw [CopyBytes_eq]
    have c1 : ¬ (32 + 0 ≤ k ∧ k < 32 + 0 + 32) := by omega
    have c2 : 0 ≤ k ∧ k < 0 + 32 := by omega
    simp only [c1, c2, and_self, if_true, if_false, Nat.sub_zero, leWord_shift]
  · intro j hj
    rw [CopyBytes_eq]
    have c1 : 32 + 0 ≤ 32 + j ∧ 32 + j < 32 + 0 + 32 := by omega
    have e : 40 + 64 * id + (2 * 32 + 2 * (32 + j - (32 + 0))) = 40 + 64 * (id + 1) + 2 * j := by
      omega
    simp only [c1, and_self, if_true, leWord_shift, e]

theorem GetDistUncompressed_second_half_is_next_record_witness :
    ∃ aus, GetDistUncompressed (worldWithFile []) (fun _ => 0)
        (memoryContext 6 15 0 0 (List.replicate 104 0 ++ [52, 18, 120, 86])) 0 = .ok aus ∧
      (∀ k, k < 32 → aus k
        = leWord (bytesOfList (List.replicate 104 0 ++ [52, 18, 120, 86])) (40 + 64 * 0 + 2 * k)) ∧
      (∀ j, j < 32 → aus (32 + j)
        = leWord (bytesOfList (List.replicate 104 0 ++ [52, 18, 120, 86]))
            (40 + 64 * (0 + 1) + 2 * j)) :=
  GetDistUncompressed_second_half_is_next_record (worldWithFile []) (fun _ => 0)
    (memoryContext 6 15 0 0 (List.replicate 104 0 ++ [52, 18, 120, 86]))
    (bytesOfList (List.replicate 104 0 ++ [52, 18, 120, 86])) 0 rfl
    (by show (1 : Int) ≠ 0; decide) rfl (by decide)

/-! ## Third-party index convention: counts and ids in 32 bits -/

theorem wrapInt_add_wrapInt (x y : Int) : wrapInt (wrapInt x + y) = wrapInt (x + y) := by
  unfold wrapInt; omega

/-- A wrapped accumulation loop started at 0 computes the wrapped sum. -/
theorem foldl_wrapInt_sum (f : Nat → Int) :
    ∀ n : Nat, (List.range n).foldl (fun (id : Int) (i : Nat) => wrapInt (id + f i)) 0
      = wrapInt (∑ i ∈ Finset.range n, f i) := by
  intro n
  induction n with
  | zero => simp [wrapInt]
  | succ n ih =>
    rw [List.range_succ, List.foldl_append, ih, Finset.sum_range_succ]
    simp only [List.foldl_cons, List.foldl_nil]
    exact wrapInt_add_wrapInt _ _

/-- One level above the range without overflow, `countBoard` is the binomial
coefficient wrapped to 32 bits. -/
theorem countBoard_wrapped (m c : Nat) (hc : c ≠ 0) (hov : boardCount m c < 2147483648) :
    countBoard (m + 2) (c : Int) = wrapInt (boardCount (m + 1) c : Int) := by
  rw [countBoard]
  have hc2 : ¬ (m + 1 + 1 = 1 ∨ (c : Int) = 0) := by omega
  rw [if_neg hc2]
  have htn : ((c : Int) + 1).toNat = c + 1 := by omega
  rw [htn, foldl_wrapInt_sum]
  congr 1
  rw [← belowCount_full m c]
  unfold belowCount
  push_cast
  apply Finset.sum_congr rfl
  intro i hi
  have hi2 := Finset.mem_range.mp hi
  have h1 : ((c : Int) - (i : Int)) = ((c - i : Nat) : Int) := by omega
  rw [h1]
  apply countBoard_eq
  have h2 := boardCount_mono_right m (show c - i ≤ c by omega)
  omega

theorem countBoard_18_17 : countBoard 18 17 = -1961361076 := by
  have h := countBoard_wrapped 16 17 (by decide)
    (by unfold boardCount; norm_num [Nat.choose_eq_factorial_div_factorial, Nat.factorial])
  have e : boardCount 17 17 = 2333606220 := by
    unfold boardCount; norm_num [Nat.choose_eq_factorial_div_factorial, Nat.factorial]
  rw [e] at h
  have h2 : countBoard 18 17 = wrapInt 2333606220 := by exact_mod_cast h
  rw [h2]
  decide

/-- C29 (as implemented): for `d >= 1` and `c >= 0` with `C(c + d - 1, d - 1)`
below `2^31` (no 32-bit overflow), `countBoard(d, c)`, which is a total
function, returns the binomial coefficient `C(c + d - 1, d - 1)`; it returns 1
when `d = 1` or `c = 0` and otherwise the sum over `k = 0..c` of
`countBoard(d - 1, c - k)`. -/
theorem countBoard_binomial (d c : Nat) (hd : 1 ≤ d)
    (hov : Nat.choose (c + d - 1) (d - 1) < 2147483648) :
    countBoard d (c : Int) = (Nat.choose (c + d - 1) (d - 1) : Int) ∧
    ((d = 1 ∨ c = 0) → countBoard d (c : Int) = 1) ∧
    (¬ (d = 1 ∨ c = 0) →
      countBoard d (c : Int)
        = ∑ k ∈ Finset.range (c + 1), countBoard (d - 1) ((c : Int) - (k : Int))) := by
  obtain ⟨m, rfl⟩ : ∃ m, d = m + 1 := ⟨d - 1, by omega⟩
  simp only [Nat.add_sub_cancel]
  have hbc : boardCount m c < 2147483648 := by
    unfold boardCount
    have : c + (m + 1) - 1 = c + m := by omega
    rw [this] at hov
    exact hov
  have hcnt := countBoard_eq m c hbc
  have hch : (Nat.choose (c + (m + 1) - 1) m : Int) = (boardCount m c : Int) := by
    unfold boardCount
    have : c + (m + 1) - 1 = c + m := by omega
    rw [this]
  refine ⟨by rw [hcnt, hch], ?_, ?_⟩
  · intro h
    rw [countBoard]
    rw [if_pos (by omega)]
  · intro h
    obtain ⟨j, rfl⟩ : ∃ j, m = j + 1 := ⟨m - 1, by omega⟩
    rw [hcnt, ← belowCount_full j c]
    unfold belowCount
    push_cast
    apply Finset.sum_congr rfl
    intro i hi
    have hi2 := Finset.mem_range.mp hi
    have h1 : ((c : Int) - (i : Int)) = ((c - i : Nat) : Int) := by omega
    rw [h1]
    symm
    apply countBoard_eq
    have h2 := boardCount_mono_right j (show c - i ≤ c by omega)
    have h3 := boardCount_le_succ j c
    omega

theorem countBoard_binomial_witness :
    countBoard 6 ((15 : Nat) : Int) = (Nat.choose (15 + 6 - 1) (6 - 1) : Int) ∧
    ((6 = 1 ∨ 15 = 0) → countBoard 6 ((15 : Nat) : Int) = 1) ∧
    (¬ (6 = 1 ∨ 15 = 0) →
      countBoard 6 ((15 : Nat) : Int)
        = ∑ k ∈ Finset.range (15 + 1), countBoard (6 - 1) (((15 : Nat) : Int) - (k : Int))) :=
  countBoard_binomial 6 15 (by decide) (by norm_num [Nat.choose])

/-- C29 (as stated) fails beyond 32 bits: `C(34, 17) = 2333606220` is not a C
`int`, and `countBoard(18, 17)`, whose accumulator wraps, is `-1961361076`. -/
theorem countBoard_overflows_at_18_17 :
    (Nat.choose (17 + 18 - 1) (18 - 1) : Int) = 2333606220 ∧
      countBoard 18 17 = -1961361076 ∧
      countBoard 18 17 ≠ (Nat.choose (17 + 18 - 1) (18 - 1) : Int) := by
  have e : (Nat.choose (17 + 18 - 1) (18 - 1) : Int) = 2333606220 := by
    norm_num [Nat.choose_eq_factorial_div_factorial, Nat.factorial]
  refine ⟨e, countBoard_18_17, ?_⟩
  rw [e, countBoard_18_17]
  decide

theorem boardNr_zero_board (n : Nat) (c : Int) : ∀ d, boardNr (fun _ => 0) d n c = 0 := by
  intro d
  induction d generalizing c with
  | zero => rfl
  | succ d ih =>
    unfold boardNr
    split_ifs
    · rfl
    · simp only [Int.toNat_zero, List.range_zero, List.foldl_nil]
      exact ih _

/-- C28 (as implemented): for `d >= 1` and `c >= 0` with `C(c + d - 1, d - 1)`
below `2^31` (no 32-bit overflow), `boardNr(board, d, n, c)` reads only the
points `0 .. d-2`, and on the vectors of non-negative counts on those `d - 1`
points with total at most `c` it is the prefix sum of `countBoard` values
(the reference ranking `rankN`), it is at least 0 and below `countBoard(d, c)`,
it is smaller on a board that has fewer chequers on the farthest point where
two boards differ, distinct vectors get distinct ids, and every id in
`[0, countBoard(d, c))` is taken. -/
theorem boardNr_prefix_sum_bijection (d c n : Nat) (hd : 1 ≤ d)
    (hov : Nat.choose (c + d - 1) (d - 1) < 2147483648) :
    (∀ b b2 : Nat → Int, (∀ i, i + 1 < d → b i = b2 i) →
        boardNr b d n (c : Int) = boardNr b2 d n (c : Int)) ∧
    (∀ b, LegalBoard (d - 1) c b →
        boardNr b d n (c : Int) = (rankN (fun i => (b i).toNat) (d - 1) c : Int) ∧
        0 ≤ boardNr b d n (c : Int) ∧ boardNr b d n (c : Int) < countBoard d (c : Int)) ∧
    (∀ b, LegalBoard (d - 1) c b → 2 ≤ d →
        boardNr b d n (c : Int)
          = boardNr b (d - 1) n ((c : Int) - b (d - 2))
            + ∑ i ∈ Finset.range (b (d - 2)).toNat, countBoard (d - 1) ((c : Int) - (i : Int))) ∧
    (∀ b b2, LegalBoard (d - 1) c b → LegalBoard (d - 1) c b2 →
        (∃ k, k < d - 1 ∧ b2 k < b k ∧ ∀ i, k < i → i < d - 1 → b2 i = b i) →
        boardNr b2 d n (c : Int) < boardNr b d n (c : Int)) ∧
    (∀ b b2, LegalBoard (d - 1) c b → LegalBoard (d - 1) c b2 →
        boardNr b d n (c : Int) = boardNr b2 d n (c : Int) → ∀ i, i < d - 1 → b i = b2 i) ∧
    (∀ id : Int, 0 ≤ id → id < countBoard d (c : Int) →
        ∃ b, LegalBoard (d - 1) c b ∧ boardNr b d n (c : Int) = id) := by
  obtain ⟨m, rfl⟩ : ∃ m, d = m + 1 := ⟨d - 1, by omega⟩
  have hbc : boardCount m c < 2147483648 := by
    unfold boardCount
    have : c + (m + 1) - 1 = c + m := by omega
    rw [this] at hov
    exact hov
  have hcnt : countBoard (m + 1) (c : Int) = (boardCount m c : Int) := countBoard_eq m c hbc
  simp only [Nat.add_sub_cancel]
  have hrank : ∀ b, LegalBoard m c b →
      boardNr b (m + 1) n (c : Int) = (rankN (fun i => (b i).toNat) m c : Int) := by
    intro b hb
    obtain ⟨h1, h2⟩ := legal_toNat m c b hb
    exact boardNr_eq_rankN n b (fun i => (b i).toNat) m c h1 h2 hbc
  refine ⟨?_, ?_, ?_, ?_, ?_, ?_⟩
  · intro b b2 h
    exact boardNr_congr n b b2 (m + 1) c h
  · intro b hb
    obtain ⟨_, h2⟩ := legal_toNat m c b hb
    rw [hrank b hb, hcnt]
    have := rankN_lt (fun i => (b i).toNat) m c h2
    exact ⟨rfl, by omega, by omega⟩
  · intro b hb h2
    obtain ⟨j, rfl⟩ : ∃ j, m = j + 1 := ⟨m - 1, by omega⟩
    obtain ⟨t1, t2⟩ := legal_toNat (j + 1) c b hb
    have hbj := t1 j (by omega)
    have t2s := t2
    rw [Finset.sum_range_succ] at t2s
    have hle : (b j).toNat ≤ c := by omega
    have hcast : ((c : Int) - b j) = ((c - (b j).toNat : Nat) : Int) := by omega
    have hsub : boardNr b (j + 1) n ((c : Int) - b j)
        = (rankN (fun i => (b i).toNat) j (c - (b j).toNat) : Int) := by
      rw [hcast]
      apply boardNr_eq_rankN n b (fun i => (b i).toNat) j (c - (b j).toNat)
        (fun i hi => t1 i (by omega))
        (show (∑ i ∈ Finset.range j, (b i).toNat) ≤ c - (b j).toNat by omega)
      have h3 := boardCount_mono_right j (show c - (b j).toNat ≤ c by omega)
      have h4 := boardCount_le_succ j c
      omega
    have e2 : j + 1 + 1 - 2 = j := by omega
    rw [hrank b hb, e2, hsub]
    simp only [rankN, belowCount]
    push_cast
    congr 1
    apply Finset.sum_congr rfl
    intro i hi
    have hi2 := Finset.mem_range.mp hi
    have h1 : ((c : Int) - (i : Int)) = ((c - i : Nat) : Int) := by omega
    rw [h1]
    symm
    apply countBoard_eq
    have h3 := boardCount_mono_right j (show c - i ≤ c by omega)
    have h4 := boardCount_le_succ j c
    omega
  · intro b b2 hb hb2 hlex
    obtain ⟨k, hk, hlt, hsame⟩ := hlex
    obtain ⟨t1, t2⟩ := legal_toNat m c b hb
    obtain ⟨u1, u2⟩ := legal_toNat m c b2 hb2
    rw [hrank b hb, hrank b2 hb2]
    have := rankN_lt_of_lex (fun i => (b i).toNat) (fun i => (b2 i).toNat) m c k hk
      (by
        show (b2 k).toNat < (b k).toNat
        have := hb2.1 k hk
        omega)
      (by
        intro i h1 h2
        show (b2 i).toNat = (b i).toNat
        rw [hsame i h1 h2]) t2 u2
    exact_mod_cast this
  · intro b b2 hb hb2 heq i hi
    obtain ⟨h1, h2⟩ := legal_toNat m c b hb
    obtain ⟨h1', h2'⟩ := legal_toNat m c b2 hb2
    rw [hrank b hb, hrank b2 hb2] at heq
    have heq' : rankN (fun i => (b i).toNat) m c = rankN (fun i => (b2 i).toNat) m c := by
      exact_mod_cast heq
    have := rankN_injective _ _ m c h2 h2' heq' i hi
    rw [h1 i hi, h1' i hi]
    exact_mod_cast this
  · intro id h0 hlt
    rw [hcnt] at hlt
    obtain ⟨bn, hs, hr⟩ := rankN_surjective m c id.toNat (by omega)
    refine ⟨fun i => (bn i : Int), ⟨fun i _ => Int.ofNat_nonneg _, ?_⟩, ?_⟩
    · rw [← Nat.cast_sum]; exact_mod_cast hs
    · rw [boardNr_eq_rankN n _ bn m c (fun i _ => rfl) hs hbc, hr]
      omega

theorem boardNr_prefix_sum_bijection_witness :
    (∀ b b2 : Nat → Int, (∀ i, i + 1 < 6 → b i = b2 i) →
        boardNr b 6 6 ((15 : Nat) : Int) = boardNr b2 6 6 ((15 : Nat) : Int)) ∧
    (∀ b, LegalBoard (6 - 1) ((15 : Nat) : Int) b →
        boardNr b 6 6 ((15 : Nat) : Int) = (rankN (fun i => (b i).toNat) (6 - 1) 15 : Int) ∧
        0 ≤ boardNr b 6 6 ((15 : Nat) : Int) ∧
        boardNr b 6 6 ((15 : Nat) : Int) < countBoard 6 ((15 : Nat) : Int)) ∧
    (∀ b, LegalBoard (6 - 1) ((15 : Nat) : Int) b → 2 ≤ 6 →
        boardNr b 6 6 ((15 : Nat) : Int)
          = boardNr b (6 - 1) 6 (((15 : Nat) : Int) - b (6 - 2))
            + ∑ i ∈ Finset.range (b (6 - 2)).toNat,
                countBoard (6 - 1) (((15 : Nat) : Int) - (i : Int))) ∧
    (∀ b b2, LegalBoard (6 - 1) ((15 : Nat) : Int) b → LegalBoard (6 - 1) ((15 : Nat) : Int) b2 →
        (∃ k, k < 6 - 1 ∧ b2 k < b k ∧ ∀ i, k < i → i < 6 - 1 → b2 i = b i) →
        boardNr b2 6 6 ((15 : Nat) : Int) < boardNr b 6 6 ((15 : Nat) : Int)) ∧
    (∀ b b2, LegalBoard (6 - 1) ((15 : Nat) : Int) b → LegalBoard (6 - 1) ((15 : Nat) : Int) b2 →
        boardNr b 6 6 ((15 : Nat) : Int) = boardNr b2 6 6 ((15 : Nat) : Int) →
        ∀ i, i < 6 - 1 → b i = b2 i) ∧
    (∀ id : Int, 0 ≤ id → id < countBoard 6 ((15 : Nat) : Int) →
        ∃ b, LegalBoard (6 - 1) ((15 : Nat) : Int) b ∧ boardNr b 6 6 ((15 : Nat) : Int) = id) :=
  boardNr_prefix_sum_bijection 6 15 6 (by decide) (by norm_num [Nat.choose])

/-- C28 (as stated) fails beyond 32 bits: for `d = 18` and `c = 17` the board
without chequers is a vector of non-negative counts with total at most 17, its
id is 0, and `countBoard(18, 17)` has wrapped to a negative value, so the id is
not smaller than `countBoard(d, c)`. -/
theorem boardNr_id_not_below_wrapped_count :
    LegalBoard (18 - 1) 17 (fun _ => 0) ∧ boardNr (fun _ => 0) 18 18 17 = 0 ∧
      countBoard 18 17 < 0 ∧ ¬ (boardNr (fun _ => 0) 18 18 17 < countBoard 18 17) := by
  have hc := countBoard_18_17
  have hb := boardNr_zero_board 18 17 18
  refine ⟨⟨fun _ _ => le_rfl, by simp⟩, hb, ?_, ?_⟩
  · rw [hc]; decide
  · rw [hb, hc]; decide

/-! ## Generator: integer arithmetic -/

theorem GenerateBearoff_eq_accumulate (E : Externals) (p : Nat → Nat) (nId : Nat) :
    GenerateBearoff E p nId
      = match accumulateRolls E p nId allRolls with
        | .error e => .error e
        | .ok aProb =>
          .ok ((List.range 32).foldl
            (fun (q : Nat → Nat) (i : Nat) =>
              Function.update
                (Function.update q ((nId <<< 6) ||| (i <<< 1))
                  ((Int.toNat (wrapUInt (Int.tdiv (wrapInt (aProb i + 18)) 36))) % 65536 % 256))
                ((nId <<< 6) ||| (i <<< 1) ||| 1)
                (((Int.toNat (wrapUInt (Int.tdiv (wrapInt (aProb i + 18)) 36))) % 65536) >>> 8))
            p) := rfl

/-- A weighted sum of 16-bit values over a list of rolls. -/
theorem weighted_sum_le (p : Nat → Nat) (ids : Nat × Nat → Nat) (k : Nat) :
    ∀ L : List (Nat × Nat), (L.map (fun r => rollWeight r * bucket p (ids r) k)).sum
      ≤ (L.map rollWeight).sum * 65535 := by
  intro L
  induction L with
  | nil => simp
  | cons r L ih =>
    simp only [List.map_cons, List.sum_cons]
    have := bucket_lt p (ids r) k
    have : rollWeight r * bucket p (ids r) k ≤ rollWeight r * 65535 :=
      Nat.mul_le_mul_left _ (by omega)
    rw [Nat.add_mul]
    omega

theorem weight_take_le (n : Nat) : ((allRolls.take n).map rollWeight).sum ≤ 36 := by
  have h : ((allRolls.take n).map rollWeight).sum + ((allRolls.drop n).map rollWeight).sum
      = (allRolls.map rollWeight).sum := by
    rw [← List.sum_append, ← List.map_append, List.take_append_drop]
  have h36 : (allRolls.map rollWeight).sum = 36 := by decide
  omega

/-- The accumulators after any list of at most 21 rolls whose assertions hold:
the plain weighted sums, nothing wraps. -/
theorem accumulateRolls_eq (E : Externals) (p : Nat → Nat) (nId : Nat) (ids : Nat × Nat → Nat)
    (L : List (Nat × Nat)) (hlen : L.length ≤ 21)
    (H : ∀ r, r ∈ L → ∃ b, HeuristicBearoff E (E.PositionFromBearoff nId 6 15) r.1 r.2
        = .ok (b, (ids r : Int)) ∧ ids r < nId) :
    accumulateRolls E p nId L = .ok (fun k =>
      if 1 ≤ k ∧ k < 32 then
        (((L.map (fun r => rollWeight r * bucket p (ids r) (k - 1))).sum : Nat) : Int)
      else 0) := by
  have h := accumulate_eq E p nId ids L (fun _ => 0) H
    (by intro k
        have : (L.length : Int) ≤ 21 := by exact_mod_cast hlen
        dsimp only
        omega)
  have e : (fun k => if 1 ≤ k ∧ k < 32 then
        (fun _ => (0 : Int)) k
          + (((L.map (fun r => rollWeight r * bucket p (ids r) (k - 1))).sum : Nat) : Int)
        else (fun _ => (0 : Int)) k)
      = (fun k => if 1 ≤ k ∧ k < 32 then
        (((L.map (fun r => rollWeight r * bucket p (ids r) (k - 1))).sum : Nat) : Int)
        else 0) := by
    funext k
    simp only [zero_add]
  rw [← e]
  exact h

/-- C27: when the assertions of `GenerateBearoff ( p, nId )` hold, its integer
arithmetic is exact.  After every prefix of the 21 rolls each accumulator
`aProb[k]` is the plain weighted sum of the stored child values, between 0
and `36 * 65535`, so no 32-bit addition wraps (also `36 * 65535 + 18 < 2^31`);
the rounded average `(aProb[k] + 18) / 36` is at most 65535, the low byte
stored is its remainder modulo 256, the high byte stored is its quotient by
256, which is below 256, and the two bytes give the rounded average back. -/
theorem GenerateBearoff_arithmetic_exact (E : Externals) (p : Nat → Nat) (nId : Nat)
    (ids : Nat × Nat → Nat)
    (H : ∀ r, r ∈ allRolls → ∃ b, HeuristicBearoff E (E.PositionFromBearoff nId 6 15) r.1 r.2
        = .ok (b, (ids r : Int)) ∧ ids r < nId) :
    (∀ n, ∃ a, accumulateRolls E p nId (allRolls.take n) = .ok a ∧
      ∀ k, a k = (if 1 ≤ k ∧ k < 32 then
            ((((allRolls.take n).map (fun r => rollWeight r * bucket p (ids r) (k - 1))).sum
              : Nat) : Int) else 0) ∧
        0 ≤ a k ∧ a k ≤ 36 * 65535) ∧
    ((36 : Int) * 65535 + 18 < 2147483648) ∧
    ∃ a q, accumulateRolls E p nId allRolls = .ok a ∧ GenerateBearoff E p nId = .ok q ∧
      ∀ k, k < 32 → 0 ≤ a k ∧ a k ≤ 36 * 65535 ∧
        0 ≤ (a k + 18) / 36 ∧ (a k + 18) / 36 ≤ 65535 ∧
        (q (64 * nId + 2 * k) : Int) = (a k + 18) / 36 % 256 ∧
        (q (64 * nId + 2 * k + 1) : Int) = (a k + 18) / 36 / 256 ∧
        q (64 * nId + 2 * k + 1) < 256 ∧
        (q (64 * nId + 2 * k) : Int) + 256 * (q (64 * nId + 2 * k + 1) : Int)
          = (a k + 18) / 36 := by
  have hlen : allRolls.length = 21 := by decide
  have bound : ∀ (n k : Nat),
      ((allRolls.take n).map (fun r => rollWeight r * bucket p (ids r) k)).sum ≤ 36 * 65535 := by
    intro n k
    have h1 := weighted_sum_le p ids k (allRolls.take n)
    have h2 := weight_take_le n
    have h3 : ((allRolls.take n).map rollWeight).sum * 65535 ≤ 36 * 65535 :=
      Nat.mul_le_mul_right _ h2
    omega
  have prefixes : ∀ n, ∃ a, accumulateRolls E p nId (allRolls.take n) = .ok a ∧
      ∀ k, a k = (if 1 ≤ k ∧ k < 32 then
            ((((allRolls.take n).map (fun r => rollWeight r * bucket p (ids r) (k - 1))).sum
              : Nat) : Int) else 0) ∧
        0 ≤ a k ∧ a k ≤ 36 * 65535 := by
    intro n
    refine ⟨_, accumulateRolls_eq E p nId ids (allRolls.take n)
      (by rw [List.length_take, hlen]; omega)
      (fun r hr => H r (List.mem_of_mem_take hr)), ?_⟩
    intro k
    refine ⟨rfl, ?_⟩
    by_cases c : 1 ≤ k ∧ k < 32
    · simp only [c, and_self, if_true]
      have := bound n (k - 1)
      omega
    · simp only [c, if_false]
      omega
  refine ⟨prefixes, by norm_num, ?_⟩
  obtain ⟨a, ha, hprop⟩ := prefixes 21
  have htake : allRolls.take 21 = allRolls := by
    rw [← hlen]; exact List.take_length allRolls
  rw [htake] at ha
  have hG := GenerateBearoff_eq_accumulate E p nId
  rw [ha] at hG
  simp only [] at hG
  rw [storeLoop_eq p nId
    (fun i => (Int.toNat (wrapUInt (Int.tdiv (wrapInt (a i + 18)) 36))) % 65536) 32 le_rfl] at hG
  refine ⟨a, _, ha, hG, ?_⟩
  intro k hk
  obtain ⟨_, h0, h1⟩ := hprop k
  have hus : (Int.toNat (wrapUInt (Int.tdiv (wrapInt (a k + 18)) 36))) % 65536
      = ((a k).toNat + 18) / 36 := by
    have e : (((a k).toNat : Nat) : Int) = a k := by omega
    have hsv := stored_value (a k).toNat (by omega)
    rw [e] at hsv
    exact hsv
  have c1 : 64 * nId ≤ 64 * nId + 2 * k ∧ 64 * nId + 2 * k < 64 * nId + 2 * 32 := by omega
  have c2 : 64 * nId ≤ 64 * nId + 2 * k + 1 ∧ 64 * nId + 2 * k + 1 < 64 * nId + 2 * 32 := by
    omega
  have c3 : (64 * nId + 2 * k - 64 * nId) % 2 = 0 := by omega
  have c4 : ¬ ((64 * nId + 2 * k + 1 - 64 * nId) % 2 = 0) := by omega
  have c5 : (64 * nId + 2 * k - 64 * nId) / 2 = k := by omega
  have c6 : (64 * nId + 2 * k + 1 - 64 * nId) / 2 = k := by omega
  simp only [c1, c2, c3, c4, c5, c6, and_self, if_true, if_false, hus, Nat.shiftRight_eq_div_pow]
  refine ⟨h0, h1, by omega, by omega, by omega, by omega, by omega, by omega⟩

theorem GenerateBearoff_arithmetic_exact_witness :
    (∀ n, ∃ a, accumulateRolls idZeroExternals (fun _ => 255) 1 (allRolls.take n) = .ok a ∧
      ∀ k, a k = (if 1 ≤ k ∧ k < 32 then
            ((((allRolls.take n).map
              (fun r => rollWeight r * bucket (fun _ => 255) ((fun _ => 0) r) (k - 1))).sum
              : Nat) : Int) else 0) ∧
        0 ≤ a k ∧ a k ≤ 36 * 65535) ∧
    ((36 : Int) * 65535 + 18 < 2147483648) ∧
    ∃ a q, accumulateRolls idZeroExternals (fun _ => 255) 1 allRolls = .ok a ∧
      GenerateBearoff idZeroExternals (fun _ => 255) 1 = .ok q ∧
      ∀ k, k < 32 → 0 ≤ a k ∧ a k ≤ 36 * 65535 ∧
        0 ≤ (a k + 18) / 36 ∧ (a k + 18) / 36 ≤ 65535 ∧
        (q (64 * 1 + 2 * k) : Int) = (a k + 18) / 36 % 256 ∧
        (q (64 * 1 + 2 * k + 1) : Int) = (a k + 18) / 36 / 256 ∧
        q (64 * 1 + 2 * k + 1) < 256 ∧
        (q (64 * 1 + 2 * k) : Int) + 256 * (q (64 * 1 + 2 * k + 1) : Int)
          = (a k + 18) / 36 :=
  GenerateBearoff_arithmetic_exact idZeroExternals (fun _ => 255) 1 (fun _ => 0)
    (fun r hr => ⟨_, HeuristicBearoff_empty idZeroExternals _ (fun _ _ => rfl) r.1 r.2
      (allRolls_bounds r hr).2.1, Nat.zero_lt_one⟩)

/-! ## Move heuristic: indices and progress -/

theorem scanAccesses_bounds (b : Nat → Int) :
    ∀ n idx, idx ∈ scanAccesses b n → 0 ≤ idx ∧ idx < (n : Int) := by
  intro n
  induction n with
  | zero => intro idx h; simp [scanAccesses] at h
  | succ n ih =>
    intro idx h
    unfold scanAccesses at h
    rcases List.mem_cons.mp h with h | h
    · subst h
      constructor <;> push_cast <;> omega
    · split_ifs at h
      · simp at h
      · have := ih idx h
        constructor
        · exact this.1
        · push_cast; omega

theorem comboAccesses_bounds (b : Nat → Int) :
    ∀ (rest : List Nat) (t : Nat) idx, idx ∈ comboAccesses b t rest → 0 ≤ idx ∧ idx ≤ 5 := by
  intro rest
  induction rest with
  | nil => intro t idx h; simp [comboAccesses] at h
  | cons d rest ih =>
    intro t idx h
    unfold comboAccesses at h
    rcases List.mem_append.mp h with h | h
    · split_ifs at h with c
      · simp only [List.mem_singleton] at h
        subst h
        constructor <;> omega
      · simp at h
    · split_ifs at h
      · simp at h
      · exact ih _ idx h

/-- The vacate loop run up to `die + k - 1` has made `k` passes. -/
theorem vacatePoint_upto (b : Nat → Int) (die k : Nat) :
    vacatePoint b die (((die + k : Nat) : Int) - 1) = -1 ∨
      ∃ j, j < k ∧ vacatePoint b die (((die + k : Nat) : Int) - 1) = ((die + j : Nat) : Int) ∧
        2 ≤ b (die + j) := by
  have hK : ((((die + k : Nat) : Int) - 1) + 1 - (die : Int)).toNat = k := by omega
  unfold vacatePoint
  rw [hK]
  exact vacatePoint_spec b die k

/-- The spare loop run up to `die + k - 1` has made `k` passes. -/
theorem sparePoint_upto (b : Nat → Int) (die k : Nat) :
    (k = 0 ∧ sparePoint b die (((die + k : Nat) : Int) - 1) = -1) ∨
      ∃ j, j < k ∧ sparePoint b die (((die + k : Nat) : Int) - 1) = ((die + j : Nat) : Int) := by
  have hK : ((((die + k : Nat) : Int) - 1) + 1 - (die : Int)).toNat = k := by omega
  unfold sparePoint
  rw [hK]
  rcases Nat.eq_zero_or_pos k with h | h
  · left
    subst h
    exact ⟨rfl, rfl⟩
  · right
    obtain ⟨j, hj, e, _⟩ := sparePoint_spec b die k h
    exact ⟨j, hj, e⟩

theorem vacateAccesses_bounds (b : Nat → Int) (die m : Nat) (hm : m < 6) :
    ∀ idx, idx ∈ vacateAccesses b die (m : Int) → 0 ≤ idx ∧ idx ≤ 5 := by
  intro idx h
  unfold vacateAccesses at h
  rw [List.mem_flatMap] at h
  obtain ⟨k, hk, h⟩ := h
  have hk2 := List.mem_range.mp hk
  have hkm : die + k ≤ m := by omega
  dsimp only at h
  rcases List.mem_cons.mp h with h | h
  · subst h; constructor <;> omega
  · split_ifs at h with c1 c2
    · rcases List.mem_cons.mp h with h | h
      · subst h; constructor <;> omega
      · simp only [List.mem_cons, List.mem_singleton, List.not_mem_nil, or_false] at h
        rcases h with h | h
        · subst h; constructor <;> omega
        · rcases vacatePoint_upto b die k with e | ⟨j, hj, e, _⟩
          · exact absurd e c2.2
          · rw [h, e]; constructor <;> omega
    · rcases List.mem_cons.mp h with h | h
      · subst h; constructor <;> omega
      · simp at h
    · simp at h

theorem spareAccesses_bounds (b : Nat → Int) (die m : Nat) (hm : m < 6) :
    ∀ idx, idx ∈ spareAccesses b die (m : Int) → 0 ≤ idx ∧ idx ≤ 5 := by
  intro idx h
  unfold spareAccesses at h
  rw [List.mem_flatMap] at h
  obtain ⟨k, hk, h⟩ := h
  have hk2 := List.mem_range.mp hk
  have hkm : die + k ≤ m := by omega
  dsimp only at h
  rcases sparePoint_upto b die k with ⟨_, e⟩ | ⟨j, hj, e⟩
  · rw [e] at h
    simp at h
  · rw [e] at h
    have hne : ¬ (((die + j : Nat) : Int) = -1) := by omega
    rw [if_neg hne] at h
    simp only [List.mem_append, List.mem_cons, List.mem_singleton, List.not_mem_nil,
      or_false] at h
    rcases h with (h | h) | h
    · subst h; constructor <;> omega
    · subst h; constructor <;> omega
    · split_ifs at h
      · simp at h
      · simp only [List.mem_append, List.mem_cons, List.mem_singleton, List.not_mem_nil,
          or_false] at h
        rcases h with (h | h) | (h | h)
        · subst h; constructor <;> omega
        · subst h; constructor <;> omega
        · subst h; constructor <;> omega
        · subst h; constructor <;> omega
      · simp only [List.mem_append, List.mem_cons, List.mem_singleton, List.not_mem_nil,
          or_false] at h
        rcases h with h | h
        · subst h; constructor <;> omega
        · subst h; constructor <;> omega

theorem moveAccesses_bounds (b : Nat → Int) (die n : Nat) (hn : n < 6) :
    ∀ idx, idx ∈ moveAccesses b die (n : Int) → 0 ≤ idx ∧ idx ≤ 5 := by
  intro idx h
  unfold moveAccesses at h
  have c : ¬ ((n : Int) < 0) := by omega
  rw [if_neg c] at h
  rcases List.mem_cons.mp h with h | h
  · subst h; constructor <;> omega
  · split_ifs at h with c1 c2
    · simp at h
    · simp only [List.mem_cons, List.mem_singleton, List.not_mem_nil, or_false] at h
      rcases h with h | h
      · subst h; constructor <;> omega
      · subst h; constructor <;> omega
    · simp only [List.mem_cons, List.mem_singleton, List.not_mem_nil, or_false] at h
      subst h; constructor <;> omega

/-- The point chosen by the heuristic on a board with non-negative counts whose
highest occupied point is `m`: it is on the board and occupied. -/
theorem sourcePoint_ok (b : Nat → Int) (die : Nat) (rest : List Nat) (hd1 : 1 ≤ die)
    (hd6 : die ≤ 6) (hnn : ∀ i, i < 6 → 0 ≤ b i) (m : Nat) (hm : m < 6) (hbm : b m ≠ 0) :
    ∃ n : Nat, sourcePoint b die rest (m : Int) = (n : Int) ∧ n < 6 ∧ 0 < b n := by
  have pos : ∀ i, i < 6 → b i ≠ 0 → 0 < b i := by
    intro i hi hne
    have := hnn i hi
    omega
  unfold sourcePoint
  by_cases h1 : b (die - 1) ≠ 0
  · rw [if_pos h1]
    exact ⟨die - 1, rfl, by omega, pos _ (by omega) h1⟩
  · rw [if_neg h1]
    have h10 : b (die - 1) = 0 := not_not.mp h1
    by_cases h2 : ((die : Int) - 1) > (m : Int)
    · rw [if_pos h2]
      exact ⟨m, rfl, hm, pos m hm hbm⟩
    · rw [if_neg h2]
      have hdm : die ≤ m := by
        have : die - 1 ≠ m := by
          intro e
          rw [e] at h10
          exact hbm h10
        omega
      cases hc : comboPoint b (die - 1) rest with
      | some t =>
        obtain ⟨ht6, htb⟩ := comboPoint_spec b rest (die - 1) t hc
        exact ⟨t, rfl, ht6, pos t ht6 htb⟩
      | none =>
        have hK : ((m : Int) + 1 - (die : Int)).toNat = m + 1 - die := by omega
        dsimp only
        rcases vacatePoint_spec b die (m + 1 - die) with e | ⟨k, hk, e, hb2⟩
        · have hv : vacatePoint b die (m : Int) = -1 := by
            unfold vacatePoint
            rw [hK]
            exact e
          rw [hv]
          have c : ¬ ((-1 : Int) ≥ 0) := by omega
          rw [if_neg c]
          obtain ⟨k, hk, e2, hmax⟩ := sparePoint_spec b die (m + 1 - die) (by omega)
          have hs : sparePoint b die (m : Int) = ((die + k : Nat) : Int) := by
            unfold sparePoint
            rw [hK]
            exact e2
          rw [hs]
          refine ⟨die + k, rfl, by omega, ?_⟩
          have hmm := hmax (m - die) (by omega)
          have e3 : die + (m - die) = m := by omega
          rw [e3] at hmm
          have := pos m hm hbm
          omega
        · have hv : vacatePoint b die (m : Int) = ((die + k : Nat) : Int) := by
            unfold vacatePoint
            rw [hK]
            exact e
          rw [hv]
          have c : ((die + k : Nat) : Int) ≥ 0 := by omega
          rw [if_pos c]
          exact ⟨die + k, rfl, by omega, by omega⟩

theorem pip_update (f : Nat → Int) (n : Nat) (hn : n < 6) (v : Int) :
    (∑ i ∈ Finset.range 6, ((i : Int) + 1) * Function.update f n v i)
      = (∑ i ∈ Finset.range 6, ((i : Int) + 1) * f i) - ((n : Int) + 1) * f n
        + ((n : Int) + 1) * v := by
  have e : (fun i : Nat => ((i : Int) + 1) * Function.update f n v i)
      = Function.update (fun i : Nat => ((i : Int) + 1) * f i) n (((n : Int) + 1) * v) := by
    funext i
    by_cases h : i = n
    · subst h; simp
    · simp [Function.update_noteq h]
  have := sum_update_int (fun i : Nat => ((i : Int) + 1) * f i) 6 n hn (((n : Int) + 1) * v)
  rw [← e] at this
  exact this

/-- What one played chequer does to a board with non-negative counts. -/
theorem moveChequer_ok (b : Nat → Int) (die : Nat) (hd : 1 ≤ die) (n : Nat) (hn : n < 6)
    (hnn : ∀ i, i < 6 → 0 ≤ b i) (hbn : 0 < b n) :
    ∃ b2, moveChequer b die (n : Int) = .ok (some b2) ∧
      (∀ i, i < 6 → 0 ≤ b2 i) ∧
      (die ≤ n → b2 n = b n - 1 ∧ b2 (n - die) = b (n - die) + 1 ∧
        ∀ i, i ≠ n → i ≠ n - die → b2 i = b i) ∧
      (n < die → b2 n = b n - 1 ∧ ∀ i, i ≠ n → b2 i = b i) ∧
      (∑ i ∈ Finset.range 6, b2 i)
        = (∑ i ∈ Finset.range 6, b i) - (if die ≤ n then 0 else 1) ∧
      (∑ i ∈ Finset.range 6, ((i : Int) + 1) * b2 i)
        = (∑ i ∈ Finset.range 6, ((i : Int) + 1) * b i)
          - (if die ≤ n then (die : Int) else (n : Int) + 1) := by
  unfold moveChequer
  have c1 : ¬ ((n : Int) < 0) := by omega
  have c2 : ¬ (b n = 0) := by omega
  simp only [c1, if_false, Int.toNat_ofNat, c2]
  by_cases hge : die ≤ n
  · have hge2 : (n : Int) ≥ (die : Int) := by omega
    rw [if_pos hge2]
    have hne : n - die ≠ n := by omega
    have hlt : n - die < 6 := by omega
    have hk : ((n - die : Nat) : Int) = (n : Int) - (die : Int) := by omega
    refine ⟨_, rfl, ?_, ?_, ?_, ?_, ?_⟩
    · intro i hi
      by_cases e1 : i = n - die
      · subst e1
        rw [Function.update_same, Function.update_noteq hne]
        have := hnn (n - die) hlt
        omega
      · rw [Function.update_noteq e1]
        by_cases e2 : i = n
        · subst e2
          rw [Function.update_same]
          omega
        · rw [Function.update_noteq e2]
          exact hnn i hi
    · intro _
      refine ⟨?_, ?_, ?_⟩
      · rw [Function.update_noteq (Ne.symm hne), Function.update_same]
      · rw [Function.update_same, Function.update_noteq hne]
      · intro i h1 h2
        rw [Function.update_noteq h2, Function.update_noteq h1]
    · intro h
      omega
    · rw [sum_update_int _ 6 (n - die) hlt, Function.update_noteq hne,
        sum_update_int _ 6 n hn, if_pos hge]
      ring
    · rw [pip_update _ (n - die) hlt, Function.update_noteq hne, pip_update _ n hn, if_pos hge,
        hk]
      ring
  · have hge2 : ¬ ((n : Int) ≥ (die : Int)) := by omega
    rw [if_neg hge2]
    refine ⟨_, rfl, ?_, ?_, ?_, ?_, ?_⟩
    · intro i hi
      by_cases e2 : i = n
      · subst e2
        rw [Function.update_same]
        omega
      · rw [Function.update_noteq e2]
        exact hnn i hi
    · intro h
      omega
    · intro _
      refine ⟨by rw [Function.update_same], ?_⟩
      intro i h1
      rw [Function.update_noteq h1]
    · rw [sum_update_int _ 6 n hn, if_neg hge]
      ring
    · rw [pip_update _ n hn, if_neg hge]
      ring

/-- One pass of the loop on a board with non-negative counts: nothing is played
on an empty board; otherwise a chequer is played from an occupied point. -/
theorem playDie_ok (b : Nat → Int) (die : Nat) (rest : List Nat) (hd1 : 1 ≤ die)
    (hd6 : die ≤ 6) (hnn : ∀ i, i < 6 → 0 ≤ b i) :
    (playDie b die rest = .ok none ∧ ∀ i, i < 6 → b i = 0) ∨
      ∃ (n : Nat) (b2 : Nat → Int),
        sourcePoint b die rest (rearmost b 6) = (n : Int) ∧ n < 6 ∧ 0 < b n ∧
        playDie b die rest = .ok (some b2) ∧
        (∀ i, i < 6 → 0 ≤ b2 i) ∧
        (die ≤ n → b2 n = b n - 1 ∧ b2 (n - die) = b (n - die) + 1 ∧
          ∀ i, i ≠ n → i ≠ n - die → b2 i = b i) ∧
        (n < die → b2 n = b n - 1 ∧ ∀ i, i ≠ n → b2 i = b i) ∧
        (∑ i ∈ Finset.range 6, b2 i)
          = (∑ i ∈ Finset.range 6, b i) - (if die ≤ n then 0 else 1) ∧
        (∑ i ∈ Finset.range 6, ((i : Int) + 1) * b2 i)
          = (∑ i ∈ Finset.range 6, ((i : Int) + 1) * b i)
            - (if die ≤ n then (die : Int) else (n : Int) + 1) := by
  rw [playDie_eq]
  rcases rearmost_spec b 6 with ⟨e, hz⟩ | ⟨m, hm, e, hbm, _⟩
  · left
    rw [e]
    exact ⟨rfl, hz⟩
  · right
    rw [e]
    have c : ¬ ((m : Int) < 0) := by omega
    rw [if_neg c]
    obtain ⟨n, hn, hn6, hbn⟩ := sourcePoint_ok b die rest hd1 hd6 hnn m hm hbm
    obtain ⟨b2, hb2, facts⟩ := moveChequer_ok b die hd1 n hn6 hnn hbn
    rw [hn]
    exact ⟨n, b2, rfl, hn6, hbn, hb2, facts⟩

/-- Every index used by one pass of the loop lies in `0 .. 5`. -/
theorem dieAccesses_bounds (b : Nat → Int) (die : Nat) (rest : List Nat) (hd1 : 1 ≤ die)
    (hd6 : die ≤ 6) (hnn : ∀ i, i < 6 → 0 ≤ b i) :
    ∀ idx, idx ∈ dieAccesses b die rest → 0 ≤ idx ∧ idx ≤ 5 := by
  intro idx h
  unfold dieAccesses at h
  dsimp only at h
  rcases List.mem_append.mp h with h | h
  · have := scanAccesses_bounds b 6 idx h
    constructor
    · exact this.1
    · have := this.2
      push_cast at this
      omega
  · rcases rearmost_spec b 6 with ⟨e, _⟩ | ⟨m, hm, e, hbm, _⟩
    · rw [e] at h
      simp at h
    · rw [e] at h
      have c : ¬ ((m : Int) < 0) := by omega
      rw [if_neg c] at h
      rcases List.mem_cons.mp h with h | h
      · subst h; constructor <;> omega
      · rcases List.mem_append.mp h with h | h
        · by_cases c1 : b (die - 1) ≠ 0
          · rw [if_pos c1] at h
            simp at h
          · rw [if_neg c1] at h
            by_cases c2 : ((die : Int) - 1) > (m : Int)
            · rw [if_pos c2] at h
              simp at h
            · rw [if_neg c2] at h
              rcases List.mem_append.mp h with h | h
              · exact comboAccesses_bounds b rest (die - 1) idx h
              · cases hc : comboPoint b (die - 1) rest with
                | some t =>
                  rw [hc] at h
                  simp at h
                | none =>
                  rw [hc] at h
                  dsimp only at h
                  rcases List.mem_append.mp h with h | h
                  · exact vacateAccesses_bounds b die m hm idx h
                  · by_cases c3 : vacatePoint b die (m : Int) ≥ 0
                    · rw [if_pos c3] at h
                      simp at h
                    · rw [if_neg c3] at h
                      exact spareAccesses_bounds b die m hm idx h
        · obtain ⟨n, hn, hn6, _⟩ := sourcePoint_ok b die rest hd1 hd6 hnn m hm hbm
          rw [hn] at h
          exact moveAccesses_bounds b die n hn6 idx h

/-- The loop of `HeuristicBearoff` over valid dice on a board with non-negative
counts: it ends without a failed assertion, the counts stay non-negative, the
number of chequers does not grow, the pip count does not grow and drops when a
die is played, every index used lies in `0 .. 5`, and every played die bears a
chequer off or moves it by the die. -/
theorem heuristic_run :
    ∀ (dice : List Nat), (∀ d, d ∈ dice → 1 ≤ d ∧ d ≤ 6) →
      ∀ (b : Nat → Int), (∀ i, i < 6 → 0 ≤ b i) →
        ∃ b2, playDice b dice = .ok b2 ∧ (∀ i, i < 6 → 0 ≤ b2 i) ∧
          (∑ i ∈ Finset.range 6, b2 i) ≤ (∑ i ∈ Finset.range 6, b i) ∧
          (∑ i ∈ Finset.range 6, ((i : Int) + 1) * b2 i)
            ≤ (∑ i ∈ Finset.range 6, ((i : Int) + 1) * b i) ∧
          (dice ≠ [] → ¬ (∀ i, i < 6 → b i = 0) →
            (∑ i ∈ Finset.range 6, ((i : Int) + 1) * b2 i)
              < (∑ i ∈ Finset.range 6, ((i : Int) + 1) * b i)) ∧
          (∀ idx, idx ∈ diceAccesses b dice → 0 ≤ idx ∧ idx ≤ 5) ∧
          (∀ t, t ∈ plays b dice → bearsOffOrMoves t) := by
  intro dice
  induction dice with
  | nil =>
    intro _ b hnn
    refine ⟨b, rfl, hnn, le_rfl, le_rfl, fun h => absurd rfl h, ?_, ?_⟩
    · intro idx h
      simp [diceAccesses] at h
    · intro t h
      simp [plays] at h
  | cons d rest ih =>
    intro hd b hnn
    obtain ⟨hd1, hd6⟩ := hd d (List.mem_cons_self _ _)
    have hacc := dieAccesses_bounds b d rest hd1 hd6 hnn
    rcases playDie_ok b d rest hd1 hd6 hnn with ⟨e, hz⟩ | ⟨n, b1, hsp, hn6, hbn, e, hnn1, hmv, hbo, hsum, hpip⟩
    · refine ⟨b, ?_, hnn, le_rfl, le_rfl, fun _ hne => absurd hz hne, ?_, ?_⟩
      · unfold playDice
        rw [e]
      · intro idx h
        unfold diceAccesses at h
        rw [e] at h
        simp only [List.append_nil] at h
        exact hacc idx h
      · intro t h
        unfold plays at h
        rw [e] at h
        simp at h
    · obtain ⟨b2, e2, hnn2, hs2, hp2, _, hacc2, hpl2⟩ :=
        ih (fun x hx => hd x (List.mem_cons_of_mem _ hx)) b1 hnn1
      have hdrop : (1 : Int) ≤ (if d ≤ n then (d : Int) else (n : Int) + 1) := by
        split_ifs <;> omega
      have hless : (0 : Int) ≤ (if d ≤ n then (0 : Int) else 1) := by
        split_ifs <;> omega
      refine ⟨b2, ?_, hnn2, by omega, by omega, fun _ _ => by omega, ?_, ?_⟩
      · unfold playDice
        rw [e]
        exact e2
      · intro idx h
        unfold diceAccesses at h
        rw [e] at h
        rcases List.mem_append.mp h with h | h
        · exact hacc idx h
        · exact hacc2 idx h
      · intro t h
        unfold plays at h
        rw [e] at h
        rcases List.mem_cons.mp h with h | h
        · subst h
          unfold bearsOffOrMoves
          simp only [hsp, Int.toNat_ofNat]
          refine ⟨hnn, by omega, by omega, by omega, ?_⟩
          by_cases hge : d ≤ n
          · left
            obtain ⟨m1, m2, m3⟩ := hmv hge
            exact ⟨by omega, by omega, m1, m2, m3⟩
          · right
            obtain ⟨m1, m2⟩ := hbo (by omega)
            exact ⟨by omega, m1, m2⟩
        · exact hpl2 t h

theorem diceOfRoll_valid (a1 a2 : Nat) (h2 : 1 ≤ a2) (h21 : a2 ≤ a1) (h1 : a1 ≤ 6) :
    (∀ d, d ∈ diceOfRoll a1 a2 → 1 ≤ d ∧ d ≤ 6) ∧ diceOfRoll a1 a2 ≠ [] := by
  unfold diceOfRoll
  constructor
  · intro d hd
    split_ifs at hd <;> simp at hd <;> omega
  · split_ifs <;> simp

theorem HeuristicBearoff_eq_playDice (E : Externals) (b : Nat → Int) (a1 a2 : Nat)
    (h21 : a2 ≤ a1) :
    HeuristicBearoff E b a1 a2
      = match playDice b (diceOfRoll a1 a2) with
        | .error e => .error e
        | .ok b2 => .ok (b2, wrapInt (E.PositionBearoff b2 6 15)) := by
  unfold HeuristicBearoff
  have c : ¬ (a1 ≠ a2 ∧ ¬ (a1 > a2)) := by omega
  rw [if_neg c]
  rfl

/-- C25: for every 6-point board with non-negative counts and every roll with
`1 <= anRoll[1] <= anRoll[0] <= 6`, `HeuristicBearoff` returns (no assertion
fails); every index of `anBoard` it uses lies in `0 .. 5`; and at every played
die the point `n` is one of `0 .. 5`, holds at least one chequer before the
move, and a chequer that is not borne off (`n >= die`) lands on the point
`n - die >= 0`, whose count grows by one. -/
theorem HeuristicBearoff_stays_on_board (E : Externals) (b : Nat → Int) (a1 a2 : Nat)
    (hnn : ∀ i, i < 6 → 0 ≤ b i) (h2 : 1 ≤ a2) (h21 : a2 ≤ a1) (h1 : a1 ≤ 6) :
    (∃ b2, HeuristicBearoff E b a1 a2 = .ok (b2, wrapInt (E.PositionBearoff b2 6 15))) ∧
    (∀ idx, idx ∈ diceAccesses b (diceOfRoll a1 a2) → 0 ≤ idx ∧ idx ≤ 5) ∧
    (∀ t, t ∈ plays b (diceOfRoll a1 a2) →
      0 ≤ t.2.2.1 ∧ t.2.2.1 ≤ 5 ∧ 1 ≤ t.1 t.2.2.1.toNat ∧
      (∀ idx, idx ∈ moveAccesses t.1 t.2.1 t.2.2.1 → 0 ≤ idx ∧ idx ≤ 5) ∧
      ((t.2.1 : Int) ≤ t.2.2.1 →
        0 ≤ t.2.2.1 - (t.2.1 : Int) ∧
          t.2.2.2 (t.2.2.1.toNat - t.2.1) = t.1 (t.2.2.1.toNat - t.2.1) + 1)) := by
  obtain ⟨hv, _⟩ := diceOfRoll_valid a1 a2 h2 h21 h1
  obtain ⟨b2, e, _, _, _, _, hacc, hpl⟩ := heuristic_run (diceOfRoll a1 a2) hv b hnn
  refine ⟨⟨b2, ?_⟩, hacc, ?_⟩
  · rw [HeuristicBearoff_eq_playDice E b a1 a2 h21, e]
  · intro t ht
    have h := hpl t ht
    unfold bearsOffOrMoves at h
    obtain ⟨_, n0, n5, hc, hcase⟩ := h
    refine ⟨n0, n5, hc, ?_, ?_⟩
    · intro idx hidx
      have e2 : t.2.2.1 = ((t.2.2.1.toNat : Nat) : Int) := by omega
      rw [e2] at hidx
      exact moveAccesses_bounds t.1 t.2.1 t.2.2.1.toNat (by omega) idx hidx
    · intro hge
      rcases hcase with ⟨_, h0, _, hland, _⟩ | ⟨hlt, _⟩
      · exact ⟨h0, hland⟩
      · omega

theorem HeuristicBearoff_stays_on_board_witness :
    (∃ b2, HeuristicBearoff idZeroExternals (fun i => if i = 2 then 3 else 0) 6 5
      = .ok (b2, wrapInt (idZeroExternals.PositionBearoff b2 6 15))) ∧
    (∀ idx, idx ∈ diceAccesses (fun i => if i = 2 then 3 else 0) (diceOfRoll 6 5) →
      0 ≤ idx ∧ idx ≤ 5) ∧
    (∀ t, t ∈ plays (fun i => if i = 2 then 3 else 0) (diceOfRoll 6 5) →
      0 ≤ t.2.2.1 ∧ t.2.2.1 ≤ 5 ∧ 1 ≤ t.1 t.2.2.1.toNat ∧
      (∀ idx, idx ∈ moveAccesses t.1 t.2.1 t.2.2.1 → 0 ≤ idx ∧ idx ≤ 5) ∧
      ((t.2.1 : Int) ≤ t.2.2.1 →
        0 ≤ t.2.2.1 - (t.2.1 : Int) ∧
          t.2.2.2 (t.2.2.1.toNat - t.2.1) = t.1 (t.2.2.1.toNat - t.2.1) + 1)) :=
  HeuristicBearoff_stays_on_board idZeroExternals (fun i => if i = 2 then 3 else 0) 6 5
    (fun i _ => by dsimp only; split_ifs <;> omega) (by decide) (by decide) (by decide)

/-- C26: for every non-empty 6-point board with non-negative counts and every
roll with `1 <= anRoll[1] <= anRoll[0] <= 6`, `HeuristicBearoff` returns a
board with non-negative counts, with no more chequers than before and with a
strictly smaller pip count (the sum over the points `k` of
`(k + 1) * count[k]`); every played die either bears one chequer off (from a
point `n < die`) or moves one chequer exactly `die` points towards home, from
`n` to `n - die`, and changes no other count. -/
theorem HeuristicBearoff_lowers_pip_count (E : Externals) (b : Nat → Int) (a1 a2 : Nat)
    (hnn : ∀ i, i < 6 → 0 ≤ b i) (hne : ¬ (∀ i, i < 6 → b i = 0))
    (h2 : 1 ≤ a2) (h21 : a2 ≤ a1) (h1 : a1 ≤ 6) :
    ∃ b2, HeuristicBearoff E b a1 a2 = .ok (b2, wrapInt (E.PositionBearoff b2 6 15)) ∧
      (∀ i, i < 6 → 0 ≤ b2 i) ∧
      (∑ i ∈ Finset.range 6, b2 i) ≤ (∑ i ∈ Finset.range 6, b i) ∧
      (∑ i ∈ Finset.range 6, ((i : Int) + 1) * b2 i)
        < (∑ i ∈ Finset.range 6, ((i : Int) + 1) * b i) ∧
      plays b (diceOfRoll a1 a2) ≠ [] ∧
      ∀ t, t ∈ plays b (diceOfRoll a1 a2) → bearsOffOrMoves t := by
  obtain ⟨hv, hnil⟩ := diceOfRoll_valid a1 a2 h2 h21 h1
  obtain ⟨b2, e, hnn2, hs, _, hp, _, hpl⟩ := heuristic_run (diceOfRoll a1 a2) hv b hnn
  refine ⟨b2, ?_, hnn2, hs, hp hnil hne, ?_, hpl⟩
  · rw [HeuristicBearoff_eq_playDice E b a1 a2 h21, e]
  · obtain ⟨d, rest, hdr⟩ : ∃ d rest, diceOfRoll a1 a2 = d :: rest := by
      cases hdice : diceOfRoll a1 a2 with
      | nil => exact absurd hdice hnil
      | cons d rest => exact ⟨d, rest, rfl⟩
    rw [hdr]
    obtain ⟨hd1, hd6⟩ := hv d (by rw [hdr]; exact List.mem_cons_self _ _)
    rcases playDie_ok b d rest hd1 hd6 hnn with ⟨_, hz⟩ | ⟨n, b1, _, _, _, e1, _⟩
    · exact absurd hz hne
    · unfold plays
      rw [e1]
      simp

theorem HeuristicBearoff_lowers_pip_count_witness :
    ∃ b2, HeuristicBearoff idZeroExternals (fun i => if i = 2 then 3 else 0) 6 5
        = .ok (b2, wrapInt (idZeroExternals.PositionBearoff b2 6 15)) ∧
      (∀ i, i < 6 → 0 ≤ b2 i) ∧
      (∑ i ∈ Finset.range 6, b2 i)
        ≤ (∑ i ∈ Finset.range 6, (fun i => if i = 2 then (3 : Int) else 0) i) ∧
      (∑ i ∈ Finset.range 6, ((i : Int) + 1) * b2 i)
        < (∑ i ∈ Finset.range 6, ((i : Int) + 1) * (fun i => if i = 2 then (3 : Int) else 0) i) ∧
      plays (fun i => if i = 2 then 3 else 0) (diceOfRoll 6 5) ≠ [] ∧
      ∀ t, t ∈ plays (fun i => if i = 2 then 3 else 0) (diceOfRoll 6 5) → bearsOffOrMoves t :=
  HeuristicBearoff_lowers_pip_count idZeroExternals (fun i => if i = 2 then 3 else 0) 6 5
    (fun i _ => by dsimp only; split_ifs <;> omega)
    (fun h => absurd (h 2 (by decide)) (by decide)) (by decide) (by decide) (by decide)

end Bearoff
